import Mathlib

/-!
# ChessCpp: board state, move generator and legality filter

A shallow embedding of `include/Piece.h`, `include/board.h`,
`include/MoveGenerator.h` and `src/board.cpp`, and of the array board of
`include/Board.h` and `include/ArrayBoard.h` with its game-state evaluator.

* C++ `int` coordinates are `Int` (every value that occurs is within a few
  units of `0..7`, so no overflow can arise).
* `std::optional<Piece>` is `Option Piece`; the 8x8 `std::array` is a function
  `Fin 8 → Fin 8 → Option Piece`.
* `std::vector<Move>& out` is only ever appended to: each generator function
  returns the list of moves it pushes, in push order.
* `MoveGenerator::isSquareAttacked` and `MoveGenerator::add_kingMoves` call each
  other.  The generator functions therefore take the attack query as a
  parameter `att`, and `isSquareAttacked` closes the loop by recursion on a
  fuel counter; `none` means the recursion was cut off (fuel exhausted).
-/

namespace Chess

/-! ## Piece.h -/

inductive PieceColor where
  | None | White | Black
  deriving DecidableEq

inductive PieceType where
  | None | Pawn | Knight | Bishop | Rook | Queen | King
  deriving DecidableEq

structure Position where
  row : Int
  col : Int
  deriving DecidableEq

structure Piece where
  type_ : PieceType
  color_ : PieceColor
  deriving DecidableEq

inductive Promotion where
  | None | Knight | Bishop | Rook | Queen
  deriving DecidableEq

/-! ## board.h -/

/-- The struct `Move` of board.h (`from`, `to` are written `from_`, `to_`). -/
structure Move where
  from_ : Position
  to_ : Position
  promotion : Promotion
  isCapture : Bool
  isEnpassant : Bool
  isCastling : Bool
  deriving DecidableEq

/-- The 8x8 grid `board_`. -/
abbrev Grid := Fin 8 → Fin 8 → Option Piece

/-- The data members of class `Board`. `castling_rights_` is indexed
`[white kingside, white queenside, black kingside, black queenside]`. -/
structure Board where
  turn_ : PieceColor
  board_ : Grid
  en_passant_target_ : Position
  castling_rights_ : Fin 4 → Bool

/-- Array index of an in-bounds coordinate. -/
def idx (i : Int) : Fin 8 := Fin.ofNat i.toNat

/-- The assignment `board_[r][c] = v`. -/
def setCell (g : Grid) (r c : Int) (v : Option Piece) : Grid :=
  fun i j => if i = idx r ∧ j = idx c then v else g i j

/-- The assignment `castling_rights_[k] = false`. -/
def clearRight (cr : Fin 4 → Bool) (k : Fin 4) : Fin 4 → Bool :=
  fun i => if i = k then false else cr i

namespace Board

/-- Source function `Board::inBounds`. -/
def inBounds (p : Position) : Bool :=
  decide (0 ≤ p.row) && decide (p.row < 8) && decide (0 ≤ p.col) && decide (p.col < 8)

/-- Source function `Board::getPiece`: `none` is the null pointer. -/
def getPiece (b : Board) (p : Position) : Option Piece :=
  if inBounds p then b.board_ (idx p.row) (idx p.col) else none

/-- Source function `Board::getTurn`. -/
def getTurn (b : Board) : PieceColor := b.turn_

/-- Source function `Board::enPassantTarget`. -/
def enPassantTarget (b : Board) : Position := b.en_passant_target_

/-- Source function `Board::getCastlingRights`. -/
def getCastlingRights (b : Board) : Fin 4 → Bool := b.castling_rights_

/-- The en-passant block of `Board::makeMove` (board.h 114-119). -/
def mmEnpassant (g : Grid) (move : Move) : Grid :=
  if move.isEnpassant then
    let capturedPos : Position := ⟨move.from_.row, move.to_.col⟩
    if inBounds capturedPos then setCell g capturedPos.row capturedPos.col none else g
  else g

/-- The castling block of `Board::makeMove` (board.h 121-131). -/
def mmCastling (g : Grid) (move : Move) (movingPiece : Piece) : Grid :=
  if move.isCastling ∧ movingPiece.type_ = PieceType.King then
    let row := move.from_.row
    if move.to_.col = 6 then
      setCell (setCell g row 5 (g (idx row) (idx 7))) row 7 none
    else if move.to_.col = 2 then
      setCell (setCell g row 3 (g (idx row) (idx 0))) row 0 none
    else g
  else g

/-- The block "Move the piece" of `Board::makeMove` (board.h 134-136). -/
def mmMovePiece (g : Grid) (move : Move) : Grid :=
  setCell
    (setCell g move.to_.row move.to_.col (g (idx move.from_.row) (idx move.from_.col)))
    move.from_.row move.from_.col none

/-- The en-passant-target block of `Board::makeMove` (board.h 138-147). -/
def mmEnPassantTarget (move : Move) (movingPiece : Piece) : Position :=
  if movingPiece.type_ = PieceType.Pawn then
    let delta := move.to_.row - move.from_.row
    if delta = 2 ∨ delta = -2 then
      let dir : Int := if movingPiece.color_ = PieceColor.White then -1 else 1
      ⟨move.from_.row + dir, move.from_.col⟩
    else ⟨-1, -1⟩
  else ⟨-1, -1⟩

/-- The castling-rights block of `Board::makeMove` (board.h 149-171), one
conditional assignment after the other. -/
def mmCastlingRights (cr : Fin 4 → Bool) (move : Move) (movingPiece : Piece) : Fin 4 → Bool :=
  let cr := if movingPiece.type_ = PieceType.King ∧ movingPiece.color_ = PieceColor.White then
    clearRight (clearRight cr 0) 1 else cr
  let cr := if movingPiece.type_ = PieceType.King ∧ movingPiece.color_ = PieceColor.Black then
    clearRight (clearRight cr 2) 3 else cr
  let cr := if movingPiece.type_ = PieceType.Rook ∧ movingPiece.color_ = PieceColor.White then
    let cr := if move.from_.row = 7 ∧ move.from_.col = 0 then clearRight cr 1 else cr
    if move.from_.row = 7 ∧ move.from_.col = 7 then clearRight cr 0 else cr
    else cr
  let cr := if movingPiece.type_ = PieceType.Rook ∧ movingPiece.color_ = PieceColor.Black then
    let cr := if move.from_.row = 0 ∧ move.from_.col = 0 then clearRight cr 3 else cr
    if move.from_.row = 0 ∧ move.from_.col = 7 then clearRight cr 2 else cr
    else cr
  if move.isCapture then
    let cr := if move.to_.row = 7 ∧ move.to_.col = 0 then clearRight cr 1 else cr
    let cr := if move.to_.row = 7 ∧ move.to_.col = 7 then clearRight cr 0 else cr
    let cr := if move.to_.row = 0 ∧ move.to_.col = 0 then clearRight cr 3 else cr
    if move.to_.row = 0 ∧ move.to_.col = 7 then clearRight cr 2 else cr
  else cr

/-- The promotion block of `Board::makeMove` (board.h 173-181): the piece on
the destination is replaced by `Piece(PieceType::Queen, old.value().color())`. -/
def mmPromotion (g : Grid) (move : Move) : Grid :=
  if move.promotion ≠ Promotion.None then
    match g (idx move.to_.row) (idx move.to_.col) with
    | some old => setCell g move.to_.row move.to_.col (some ⟨PieceType.Queen, old.color_⟩)
    | none => g
  else g

/-- Source function `Board::makeMove` (board.h 106-185). -/
def makeMove (b : Board) (move : Move) : Board :=
  if !inBounds move.from_ || !inBounds move.to_ then b
  else
    match b.board_ (idx move.from_.row) (idx move.from_.col) with
    | none => b
    | some movingPiece =>
      let g := mmEnpassant b.board_ move
      let g := mmCastling g move movingPiece
      let g := mmMovePiece g move
      { turn_ := if b.turn_ = PieceColor.White then PieceColor.Black else PieceColor.White
        board_ := mmPromotion g move
        en_passant_target_ := mmEnPassantTarget move movingPiece
        castling_rights_ := mmCastlingRights b.castling_rights_ move movingPiece }

end Board

/-! ## MoveGenerator.h -/

/-- The signature of `MoveGenerator::isSquareAttacked`; `none` stands for a call
that does not return. -/
abbrev AttackQuery := Board → Position → PieceColor → Option Bool

/-- The squares in the order of the loops `for r in 0..7, for c in 0..7`. -/
def allSquares : List Position :=
  (List.range 8).flatMap fun r => (List.range 8).map fun c => ⟨(r : Int), (c : Int)⟩

/-- Runs `f` on each square in turn and concatenates what each call pushes to
`out`; the whole loop fails to return as soon as one call does. -/
def collect (f : Position → Option (List Move)) : List Position → Option (List Move)
  | [] => some []
  | p :: ps =>
    match f p with
    | none => none
    | some ms =>
      match collect f ps with
      | none => none
      | some rest => some (ms ++ rest)

namespace MoveGenerator

/-- The colour `(color == White) ? Black : White`. -/
def opponentOf (color : PieceColor) : PieceColor :=
  if color = PieceColor.White then PieceColor.Black else PieceColor.White

/-- One iteration of the capture loop `for (int dc : {-1, 1})` of
`add_pawnMoves` (MoveGenerator.h 81-116). -/
def pawnCaptures (board : Board) (from_ : Position) (me : Piece) (dir promoteRow : Int)
    (enPass : Position) (dc : Int) : List Move :=
  let cap : Position := ⟨from_.row + dir, from_.col + dc⟩
  if !Board.inBounds cap then []
  else
    let normal : List Move :=
      match board.getPiece cap with
      | some target =>
        if target.color_ ≠ me.color_ then
          if cap.row = promoteRow then
            [Promotion.Queen, Promotion.Rook, Promotion.Bishop, Promotion.Knight].map
              fun pr => ⟨from_, cap, pr, true, false, false⟩
          else [⟨from_, cap, Promotion.None, true, false, false⟩]
        else []
      | none => []
    let ep : List Move :=
      if enPass.row = cap.row ∧ enPass.col = cap.col then
        [⟨from_, cap, Promotion.None, true, true, false⟩]
      else []
    normal ++ ep

/-- Source function `MoveGenerator::add_pawnMoves` (MoveGenerator.h 42-117). The
member the source assigns as `m.Promotion` is the field `promotion` of `Move`. -/
def add_pawnMoves (board : Board) (from_ : Position) : List Move :=
  match board.getPiece from_ with
  | none => []
  | some me =>
    if me.type_ ≠ PieceType.Pawn then []
    else
      let dir : Int := if me.color_ = PieceColor.White then -1 else 1
      let startRow : Int := if me.color_ = PieceColor.White then 6 else 1
      let promoteRow : Int := if me.color_ = PieceColor.White then 0 else 7
      let one : Position := ⟨from_.row + dir, from_.col⟩
      let forward : List Move :=
        if Board.inBounds one ∧ board.getPiece one = none then
          if one.row = promoteRow then
            [Promotion.Queen, Promotion.Rook, Promotion.Knight, Promotion.Bishop].map
              fun pr => ⟨from_, one, pr, false, false, false⟩
          else
            let two : Position := ⟨from_.row + 2 * dir, from_.col⟩
            ⟨from_, one, Promotion.None, false, false, false⟩ ::
              (if from_.row = startRow ∧ Board.inBounds two ∧ board.getPiece two = none then
                [⟨from_, two, Promotion.None, false, false, false⟩]
              else [])
        else []
      let enPass := board.enPassantTarget
      forward ++ ([-1, 1] : List Int).flatMap
        (pawnCaptures board from_ me dir promoteRow enPass)

/-- The body of the loops of `add_knightMoves` and of the adjacent-square loop
of `add_kingMoves`: nothing for an out-of-bounds or friendly-occupied target,
else one move whose capture flag says whether the target is occupied. -/
def stepMove (board : Board) (from_ : Position) (me : Piece) (cap : Position) : List Move :=
  if !Board.inBounds cap then []
  else
    match board.getPiece cap with
    | some target =>
      if target.color_ = me.color_ then []
      else [⟨from_, cap, Promotion.None, true, false, false⟩]
    | none => [⟨from_, cap, Promotion.None, false, false, false⟩]

/-- The offset tables `dr`, `dc` of `add_knightMoves`, paired. -/
def knightOffsets : List (Int × Int) :=
  [(-1, -2), (-1, 2), (1, -2), (1, 2), (-2, -1), (-2, 1), (2, -1), (2, 1)]

/-- Source function `MoveGenerator::add_knightMoves` (MoveGenerator.h 119-139). The source
dereferences `me` without a null test; it is only called on an occupied
square. -/
def add_knightMoves (board : Board) (from_ : Position) : List Move :=
  match board.getPiece from_ with
  | none => []
  | some me =>
    knightOffsets.flatMap fun d => stepMove board from_ me ⟨from_.row + d.1, from_.col + d.2⟩

/-- The lambda `helper` of `add_bishopMoves` and `add_rookMoves`: the moves it
pushes and its return value (`true`: the ray goes on). -/
def helper (board : Board) (from_ : Position) (me : Piece) (cap : Position) : List Move × Bool :=
  match board.getPiece cap with
  | some target =>
    if target.color_ ≠ me.color_ then
      ([⟨from_, cap, Promotion.None, true, false, false⟩], false)
    else ([], false)
  | none => ([⟨from_, cap, Promotion.None, false, false, false⟩], true)

/-- One ray loop `for (p = start; cond(p); p += (dr, dc)) if (!helper(p)) break;`.
The first argument bounds the number of iterations; starting next to an
in-bounds square a ray has at most 7 squares, so 8 is never reached. -/
def ray (board : Board) (from_ : Position) (me : Piece) (cond : Position → Bool)
    (dr dc : Int) : Nat → Position → List Move
  | 0, _ => []
  | n + 1, p =>
    if cond p then
      let r := helper board from_ me p
      if r.2 then r.1 ++ ray board from_ me cond dr dc n ⟨p.row + dr, p.col + dc⟩
      else r.1
    else []

/-- Source function `MoveGenerator::add_bishopMoves` (MoveGenerator.h 141-187). -/
def add_bishopMoves (board : Board) (from_ : Position) : List Move :=
  match board.getPiece from_ with
  | none => []
  | some me =>
    ray board from_ me Board.inBounds 1 1 8 ⟨from_.row + 1, from_.col + 1⟩ ++
    ray board from_ me Board.inBounds (-1) (-1) 8 ⟨from_.row - 1, from_.col - 1⟩ ++
    ray board from_ me Board.inBounds (-1) 1 8 ⟨from_.row - 1, from_.col + 1⟩ ++
    ray board from_ me Board.inBounds 1 (-1) 8 ⟨from_.row + 1, from_.col - 1⟩

/-- Source function `MoveGenerator::add_rookMoves` (MoveGenerator.h 189-239); the loop
conditions are `r < 8`, `r >= 0`, `c < 8`, `c >= 0`. -/
def add_rookMoves (board : Board) (from_ : Position) : List Move :=
  match board.getPiece from_ with
  | none => []
  | some me =>
    ray board from_ me (fun p => decide (p.row < 8)) 1 0 8 ⟨from_.row + 1, from_.col⟩ ++
    ray board from_ me (fun p => decide (0 ≤ p.row)) (-1) 0 8 ⟨from_.row - 1, from_.col⟩ ++
    ray board from_ me (fun p => decide (p.col < 8)) 0 1 8 ⟨from_.row, from_.col + 1⟩ ++
    ray board from_ me (fun p => decide (0 ≤ p.col)) 0 (-1) 8 ⟨from_.row, from_.col - 1⟩

/-- Source function `MoveGenerator::add_queenMoves` (MoveGenerator.h 241-244). -/
def add_queenMoves (board : Board) (from_ : Position) : List Move :=
  add_rookMoves board from_ ++ add_bishopMoves board from_

/-- The offsets of the loops `for dr in -1..1, for dc in -1..1` of
`add_kingMoves`, without `(0, 0)`. -/
def kingOffsets : List (Int × Int) :=
  [(-1, -1), (-1, 0), (-1, 1), (0, -1), (0, 1), (1, -1), (1, 0), (1, 1)]

/-- The short-circuit conjunction
`!isSquareAttacked(board, s1, opp) && !isSquareAttacked(board, s2, opp) && ...`. -/
def noneAttacked (att : AttackQuery) (board : Board) (opp : PieceColor) :
    List Position → Option Bool
  | [] => some true
  | sq :: rest =>
    match att board sq opp with
    | none => none
    | some true => some false
    | some false => noneAttacked att board opp rest

/-- One of the two castling blocks of `add_kingMoves` (MoveGenerator.h 273-292,
293-310): `idxRight` is the index into the castling rights, `between` the
squares that must be empty, `safe` the squares that must not be attacked and
`toCol` the king's destination column. -/
def castleSide (att : AttackQuery) (board : Board) (from_ : Position) (row : Int)
    (opp : PieceColor) (idxRight : Fin 4) (between safe : List Position) (toCol : Int) :
    Option (List Move) :=
  if from_.row = row ∧ from_.col = 4 ∧ board.getCastlingRights idxRight = true then
    if between.all (fun sq => (board.getPiece sq).isNone) then
      match noneAttacked att board opp safe with
      | none => none
      | some true => some [⟨from_, ⟨row, toCol⟩, Promotion.None, false, false, true⟩]
      | some false => some []
    else some []
  else some []

/-- Source function `MoveGenerator::add_kingMoves` (MoveGenerator.h 246-311). -/
def add_kingMoves (att : AttackQuery) (board : Board) (from_ : Position) : Option (List Move) :=
  match board.getPiece from_ with
  | none => some []
  | some me =>
    let adjacent : List Move :=
      kingOffsets.flatMap fun d => stepMove board from_ me ⟨from_.row + d.1, from_.col + d.2⟩
    let color := me.color_
    let opp := opponentOf color
    let row : Int := if color = PieceColor.White then 7 else 0
    let kingside_idx : Fin 4 := if color = PieceColor.White then 0 else 2
    let queenside_idx : Fin 4 := if color = PieceColor.White then 1 else 3
    match castleSide att board from_ row opp kingside_idx
        [⟨row, 5⟩, ⟨row, 6⟩] [⟨row, 4⟩, ⟨row, 5⟩, ⟨row, 6⟩] 6 with
    | none => none
    | some ks =>
      match castleSide att board from_ row opp queenside_idx
          [⟨row, 1⟩, ⟨row, 2⟩, ⟨row, 3⟩] [⟨row, 4⟩, ⟨row, 3⟩, ⟨row, 2⟩] 2 with
      | none => none
      | some qs => some (adjacent ++ ks ++ qs)

/-- Source function `MoveGenerator::generateFrom` (MoveGenerator.h 27-39). -/
def generateFrom (att : AttackQuery) (board : Board) (from_ : Position) : Option (List Move) :=
  match board.getPiece from_ with
  | none => some []
  | some p =>
    match p.type_ with
    | PieceType.Pawn => some (add_pawnMoves board from_)
    | PieceType.Knight => some (add_knightMoves board from_)
    | PieceType.Bishop => some (add_bishopMoves board from_)
    | PieceType.Rook => some (add_rookMoves board from_)
    | PieceType.Queen => some (add_queenMoves board from_)
    | PieceType.King => add_kingMoves att board from_
    | PieceType.None => some []

/-- Source function `MoveGenerator::generateAll` (MoveGenerator.h 7-14). -/
def generateAll (att : AttackQuery) (board : Board) : Option (List Move) :=
  collect (generateFrom att board) allSquares

/-- The loop body of `generateAllSide`: a square holding a piece of another
colour is skipped. -/
def generateSideAt (att : AttackQuery) (board : Board) (side : PieceColor) (pos : Position) :
    Option (List Move) :=
  match board.getPiece pos with
  | some p => if p.color_ ≠ side then some [] else generateFrom att board pos
  | none => generateFrom att board pos

/-- Source function `MoveGenerator::generateAllSide` (MoveGenerator.h 16-25). -/
def generateAllSide (att : AttackQuery) (board : Board) (side : PieceColor) :
    Option (List Move) :=
  collect (generateSideAt att board side) allSquares

/-- Source function `MoveGenerator::isSquareAttacked` (MoveGenerator.h 314-321). Each nested
call uses one unit of fuel; `none` is returned when the fuel is used up. -/
def isSquareAttacked : Nat → AttackQuery
  | 0, _, _, _ => none
  | fuel + 1, board, sq, byColor =>
    match generateAllSide (isSquareAttacked fuel) board byColor with
    | none => none
    | some theirMoves => some (theirMoves.any fun m => decide (m.to_ = sq))

end MoveGenerator

/-! ## board.cpp

The functions of board.cpp reach `isSquareAttacked` through the generator; they
take the fuel they hand to it and return `none` when it is used up. -/

namespace Board

/-- The search loop of `Board::isKingInCheck` (board.cpp 37-49): at the first
square holding a king of `color`, whether some move of `legal` ends there;
`false` when there is no such square. -/
def kingScan (b : Board) (color : PieceColor) (legal : List Move) : List Position → Bool
  | [] => false
  | pos :: rest =>
    match b.getPiece pos with
    | none => kingScan b color legal rest
    | some piece =>
      if piece.color_ ≠ color ∨ piece.type_ ≠ PieceType.King then kingScan b color legal rest
      else legal.any fun m => decide (m.to_ = pos)

/-- Source function `Board::isKingInCheck` (board.cpp 31-53). -/
def isKingInCheck (fuel : Nat) (b : Board) (color : PieceColor) : Option Bool :=
  let opponent := if color = PieceColor.White then PieceColor.Black else PieceColor.White
  match MoveGenerator.generateAllSide (MoveGenerator.isSquareAttacked fuel) b opponent with
  | none => none
  | some legal => some (kingScan b color legal allSquares)

/-- The filtering loop of `Board::legalMoves` and `Board::legalMovesFrom`
(board.cpp 10-14, 23-27): `legal` is the vector built so far. -/
def filterLoop (fuel : Nat) (b : Board) : List Move → List Move → Option (List Move)
  | [], legal => some legal
  | m :: rest, legal =>
    let copy := b.makeMove m
    match copy.isKingInCheck fuel b.turn_ with
    | none => none
    | some inCheck => filterLoop fuel b rest (if !inCheck then legal ++ [m] else legal)

/-- Source function `Board::legalMoves` (board.cpp 5-16). -/
def legalMoves (fuel : Nat) (b : Board) : Option (List Move) :=
  match MoveGenerator.generateAll (MoveGenerator.isSquareAttacked fuel) b with
  | none => none
  | some pseudo => filterLoop fuel b pseudo []

/-- Source function `Board::legalMovesFrom` (board.cpp 18-29). -/
def legalMovesFrom (fuel : Nat) (b : Board) (p : Position) : Option (List Move) :=
  match MoveGenerator.generateFrom (MoveGenerator.isSquareAttacked fuel) b p with
  | none => none
  | some pseudo => filterLoop fuel b pseudo []

/-- The test `m.from == move.from && m.to == move.to` of `Board::tryMakeMove`. -/
def sameSquares (move m : Move) : Bool :=
  decide (m.from_ = move.from_) && decide (m.to_ = move.to_)

/-- Source function `Board::tryMakeMove` (board.h 94-104): the returned flag and the board
afterwards. The loop applies the first element of `legal` that passes the
test and returns `true`, or returns `false` with the board untouched. -/
def tryMakeMove (fuel : Nat) (b : Board) (move : Move) : Option (Bool × Board) :=
  match b.legalMovesFrom fuel move.from_ with
  | none => none
  | some legal =>
    match legal.find? (sameSquares move) with
    | some m => some (true, b.makeMove m)
    | none => some (false, b)

end Board

/-! ## board.h: the constructor and `parseFEN`

A `std::string` is the list of its characters. The column counter of the
placement loop is an `Int`, without wrap-around. -/

/-- The test `std::isspace` of the stream extraction: space, tab, line feed,
vertical tab, form feed, carriage return. -/
def isSpace (c : Char) : Bool :=
  c = ' ' || (decide (9 ≤ c.toNat) && decide (c.toNat ≤ 13))

/-- The extraction `iss >> token`: leading white space is skipped and the
characters up to the next white space are read. The result is the token
(`none`: nothing could be read, the extraction fails) and what is left of the
stream. -/
def readToken (s : List Char) : Option (List Char) × List Char :=
  match s.dropWhile isSpace with
  | [] => (none, [])
  | c :: cs => (some ((c :: cs).takeWhile fun x => !isSpace x),
      (c :: cs).dropWhile fun x => !isSpace x)

/-- The loop `while (std::getline(ps, rank, '/')) ranks.push_back(rank)`:
`cur` holds the characters of the rank being read, last one first. At the end
of the input a rank is pushed only if some character was read for it. -/
def splitRanks : List Char → List Char → List (List Char)
  | cur, [] => if cur = [] then [] else [cur.reverse]
  | cur, c :: cs =>
    if c = '/' then cur.reverse :: splitRanks [] cs else splitRanks (c :: cur) cs

/-- The `switch (lower)` of `parseFEN`. -/
def pieceTypeOfChar (lower : Char) : PieceType :=
  if lower = 'p' then PieceType.Pawn
  else if lower = 'n' then PieceType.Knight
  else if lower = 'b' then PieceType.Bishop
  else if lower = 'r' then PieceType.Rook
  else if lower = 'q' then PieceType.Queen
  else if lower = 'k' then PieceType.King
  else PieceType.None

/-- The loop `for (char ch : rank)` of `parseFEN` for the rank of row `row`,
from column `col` on. -/
def placeRank (row : Int) : List Char → Int → Grid → Grid
  | [], _, g => g
  | ch :: rest, col, g =>
    if ch.isDigit then placeRank row rest (col + ((ch.toNat : Int) - 48)) g
    else
      let color := if ch.isUpper then PieceColor.White else PieceColor.Black
      let type := pieceTypeOfChar ch.toLower
      let g := if type ≠ PieceType.None ∧ 0 ≤ col ∧ col < 8 ∧ 0 ≤ row ∧ row < 8 then
        setCell g row col (some ⟨type, color⟩) else g
      placeRank row rest (col + 1) g

/-- The loop `for (int rr = 0; rr < 8; ++rr)` of `parseFEN` over the ranks
still to be placed, `rr` being the row of the first of them. -/
def placeRanks : List (List Char) → Int → Grid → Grid
  | [], _, g => g
  | rank :: rest, rr, g => placeRanks rest (rr + 1) (placeRank rr rank 0 g)

/-- The en-passant block of `parseFEN` (board.h 256-269). -/
def parseEnPassant (enpass : List Char) : Position :=
  if enpass = ['-'] then ⟨-1, -1⟩
  else
    match enpass with
    | file :: rankch :: _ =>
      let col : Int := (file.toNat : Int) - 97
      let rank : Int := (rankch.toNat : Int) - 48
      let row : Int := 8 - rank
      if 0 ≤ row ∧ row < 8 ∧ 0 ≤ col ∧ col < 8 then ⟨row, col⟩ else ⟨-1, -1⟩
    | _ => ⟨-1, -1⟩

namespace Board

/-- Source function `Board::parseFEN` (board.h 203-270). The castling field is read and
never used. -/
def parseFEN (b : Board) (fen : List Char) : Board :=
  let cleared : Board := { b with board_ := fun _ _ => none }
  match readToken fen with
  | (none, _) => cleared
  | (some placement, s1) =>
    let side := (readToken s1).1.getD []
    let s2 := (readToken s1).2
    let s3 := (readToken s2).2
    let enpass := (readToken s3).1.getD ['-']
    let ranks := splitRanks [] placement
    if ranks.length ≠ 8 then cleared
    else
      { cleared with
        board_ := placeRanks ranks 0 cleared.board_
        turn_ := if side.head? = some 'b' then PieceColor.Black else PieceColor.White
        en_passant_target_ := parseEnPassant enpass }

/-- The default argument `fen` of the constructor of `Board`. -/
def defaultFEN : List Char := "rnbqkbnr/pppppppp/8/8/8/8/PPPPPPPP/RNBQKBNR w KQkq - 0 1".toList

/-- The constructor `Board::Board(startTurn, fen)` (board.h 22-30); the
default member initialiser of `castling_rights_` is all true. -/
def new (startTurn : PieceColor) (fen : List Char) : Board :=
  let b : Board :=
    { turn_ := startTurn
      board_ := fun _ _ => none
      en_passant_target_ := ⟨-1, -1⟩
      castling_rights_ := fun _ => true }
  if fen ≠ [] then b.parseFEN fen else b

end Board

/-! ## Board.h and ArrayBoard.h

The array board keeps its pieces behind raw pointers. The state type stands
for an object whose non-null cells point to live, pairwise distinct `Piece`
objects: a cell is the value it points to (`none` for the null pointer).
Functions that only read the cells are total. Functions that index the array
without a range test, `delete` a piece, or read a piece after its `delete`
return an `Option`, and `none` stands for a run that leaves this
representation:
* an index of `board_` outside 0..7;
* a read through a pointer after `delete` (the test `fromPiece->type()` of
  `make_move` after `delete fromPiece`);
* a `delete` through the copy `tempBoard = *this`, which copies the 64
  pointers and so shares every piece with the board it was copied from: once
  such a piece is deleted the queried board points to a freed object, and what
  the source does from there on depends on what reads of freed memory give.
An `int` is a 32-bit two's-complement integer: `++halfmove_clock_` wraps. A
`std::string` is the list of its characters. -/

/-- The struct `Move` of Board.h. -/
structure ArrayBoard.Move where
  fromRow : Int
  fromCol : Int
  toRow : Int
  toCol : Int
  promotion : PieceType
  deriving DecidableEq

/-- The data members of class `ArrayBoard`. -/
structure ArrayBoard where
  position_history_ : List (List Char)
  halfmove_clock_ : Int
  castling_rights_ : Fin 4 → Bool
  en_passant_target_ : Int × Int
  turn_ : PieceColor
  board_ : Grid

namespace ArrayBoard

/-- The constructor `ArrayBoard::ArrayBoard(startTurn)` with the default member
initialisers. -/
def new (startTurn : PieceColor) : ArrayBoard :=
  { position_history_ := []
    halfmove_clock_ := 0
    castling_rights_ := fun _ => true
    en_passant_target_ := (-1, -1)
    turn_ := startTurn
    board_ := fun _ _ => none }

/-- The range test `nr >= 0 && nr < 8 && nc >= 0 && nc < 8`. -/
def inRange (nr nc : Int) : Bool :=
  decide (0 ≤ nr) && decide (nr < 8) && decide (0 ≤ nc) && decide (nc < 8)

/-- The read `board_[row][col]` for an index that passed a range test (empty
otherwise). -/
def cell (b : ArrayBoard) (row col : Int) : Option Piece :=
  if inRange row col then b.board_ (idx row) (idx col) else none

/-- The character `to_string` writes for a cell. -/
def cellChar (c : Option Piece) : Char :=
  match c with
  | none => '.'
  | some piece =>
    let c : Char :=
      match piece.type_ with
      | PieceType.Pawn => 'P'
      | PieceType.Knight => 'K'
      | PieceType.Bishop => 'B'
      | PieceType.Rook => 'R'
      | PieceType.Queen => 'Q'
      | PieceType.King => 'K'
      | PieceType.None => '.'
    if piece.color_ = PieceColor.Black then c.toLower else c

/-- Source function `ArrayBoard::to_string` (ArrayBoard.h 34-59). -/
def to_string (b : ArrayBoard) : List Char :=
  (List.range 8).flatMap fun row =>
    ((List.range 8).flatMap fun col => [cellChar (b.cell row col), ' ']) ++ [Char.ofNat 10]

/-- Source function `ArrayBoard::current_turn`. -/
def current_turn (b : ArrayBoard) : PieceColor := b.turn_

/-- The test `(color == White && nextRow == 0) || (color == Black && nextRow == 7)`
of `add_pawn_moves`. -/
def promotes (color : PieceColor) (nextRow : Int) : Bool :=
  decide ((color = PieceColor.White ∧ nextRow = 0) ∨ (color = PieceColor.Black ∧ nextRow = 7))

/-- The moves pushed for a pawn step from `(row, col)` to `(nextRow, nc)`: one
per promotion type on the last rank, one without promotion otherwise. -/
def pawnStep (color : PieceColor) (row col nextRow nc : Int) : List Move :=
  if promotes color nextRow then
    [PieceType.Queen, PieceType.Rook, PieceType.Bishop, PieceType.Knight].map
      fun promo => ⟨row, col, nextRow, nc, promo⟩
  else [⟨row, col, nextRow, nc, PieceType.None⟩]

/-- Source function `ArrayBoard::add_pawn_moves` (ArrayBoard.h 293-336). The source
dereferences the piece without a null test; it is only called on an occupied
cell. -/
def add_pawn_moves (b : ArrayBoard) (row col : Int) : List Move :=
  match b.cell row col with
  | none => []
  | some piece =>
    let color := piece.color_
    let dir : Int := if color = PieceColor.White then -1 else 1
    let nextRow := row + dir
    let forward : List Move :=
      if 0 ≤ nextRow ∧ nextRow < 8 ∧ b.cell nextRow col = none then
        let startRow : Int := if color = PieceColor.White then 6 else 1
        let doubleRow := row + 2 * dir
        pawnStep color row col nextRow col ++
          (if row = startRow ∧ b.cell doubleRow col = none then
            [⟨row, col, doubleRow, col, PieceType.None⟩]
          else [])
      else []
    forward ++ ([-1, 1] : List Int).flatMap fun dc =>
      let nc := col + dc
      if 0 ≤ nc ∧ nc < 8 then
        (if 0 ≤ nextRow ∧ nextRow < 8 ∧
            (b.cell nextRow nc).any (fun t => decide (t.color_ ≠ color)) = true then
          pawnStep color row col nextRow nc
        else []) ++
        (if b.en_passant_target_.1 = nextRow ∧ b.en_passant_target_.2 = nc then
          [⟨row, col, nextRow, nc, PieceType.None⟩]
        else [])
      else []

/-- The loop of `add_knight_moves` and the first loop of `add_king_moves` over
a table of offsets `(dr[i], dc[i])`. -/
def stepMoves (b : ArrayBoard) (row col : Int) (offsets : List (Int × Int)) : List Move :=
  match b.cell row col with
  | none => []
  | some piece =>
    offsets.flatMap fun d =>
      let nr := row + d.1
      let nc := col + d.2
      if inRange nr nc then
        match b.cell nr nc with
        | none => [⟨row, col, nr, nc, PieceType.None⟩]
        | some target =>
          if target.color_ ≠ piece.color_ then [⟨row, col, nr, nc, PieceType.None⟩] else []
      else []

/-- The tables `dr`, `dc` of `add_knight_moves`, paired. -/
def knightTable : List (Int × Int) :=
  [(-2, 1), (-1, 2), (1, 2), (2, 1), (2, -1), (1, -2), (-1, -2), (-2, -1)]

/-- The tables `dr`, `dc` of `add_king_moves`, paired. -/
def kingTable : List (Int × Int) :=
  [(-1, -1), (-1, 0), (-1, 1), (0, 1), (1, 1), (1, 0), (1, -1), (0, -1)]

/-- The tables `dr`, `dc` of `add_bishop_moves`, paired. -/
def bishopTable : List (Int × Int) := [(-1, -1), (-1, 1), (1, 1), (1, -1)]

/-- The tables `dr`, `dc` of `add_rook_moves`, paired. -/
def rookTable : List (Int × Int) := [(-1, 0), (0, 1), (1, 0), (0, -1)]

/-- Source function `ArrayBoard::add_knight_moves` (ArrayBoard.h 338-353). -/
def add_knight_moves (b : ArrayBoard) (row col : Int) : List Move :=
  stepMoves b row col knightTable

/-- The `while` loop of `add_bishop_moves` and `add_rook_moves` from `(nr, nc)`
on. The first argument bounds the number of iterations: a ray has at most 8
squares in range. -/
def slide (b : ArrayBoard) (row col : Int) (color : PieceColor) (dr dc : Int) :
    Nat → Int → Int → List Move
  | 0, _, _ => []
  | n + 1, nr, nc =>
    if inRange nr nc then
      match b.cell nr nc with
      | none => ⟨row, col, nr, nc, PieceType.None⟩ :: slide b row col color dr dc n (nr + dr) (nc + dc)
      | some target =>
        if target.color_ ≠ color then [⟨row, col, nr, nc, PieceType.None⟩] else []
    else []

/-- The loop `for (int d = 0; d < 4; ++d)` of `add_bishop_moves` and
`add_rook_moves` over a table of directions. -/
def slideMoves (b : ArrayBoard) (row col : Int) (dirs : List (Int × Int)) : List Move :=
  match b.cell row col with
  | none => []
  | some piece =>
    dirs.flatMap fun d => slide b row col piece.color_ d.1 d.2 8 (row + d.1) (col + d.2)

/-- Source function `ArrayBoard::add_bishop_moves` (ArrayBoard.h 355-377). -/
def add_bishop_moves (b : ArrayBoard) (row col : Int) : List Move :=
  slideMoves b row col bishopTable

/-- Source function `ArrayBoard::add_rook_moves` (ArrayBoard.h 379-401). -/
def add_rook_moves (b : ArrayBoard) (row col : Int) : List Move :=
  slideMoves b row col rookTable

/-- Source function `ArrayBoard::add_queen_moves` (ArrayBoard.h 403-406). -/
def add_queen_moves (b : ArrayBoard) (row col : Int) : List Move :=
  add_bishop_moves b row col ++ add_rook_moves b row col

/-- The `while` loop of the bishop, rook and queen cases of
`is_square_attacked` from `(nr, nc)` on: `true` when the loop returns true.
The first argument bounds the number of iterations. -/
def slideHits (b : ArrayBoard) (targetRow targetCol dr dc : Int) : Nat → Int → Int → Bool
  | 0, _, _ => false
  | n + 1, nr, nc =>
    if inRange nr nc then
      if nr = targetRow ∧ nc = targetCol then true
      else if (b.cell nr nc).isSome then false
      else slideHits b targetRow targetCol dr dc n (nr + dr) (nc + dc)
    else false

/-- The `switch` of `is_square_attacked` for the piece on `(row, col)`: `true`
when it returns true. -/
def attacksFrom (b : ArrayBoard) (targetRow targetCol : Int) (attacker : PieceColor)
    (piece : Piece) (row col : Int) : Bool :=
  match piece.type_ with
  | PieceType.Pawn =>
    let dir : Int := if attacker = PieceColor.White then -1 else 1
    let pawnRow := row + dir
    decide (pawnRow = targetRow ∧ (col - 1 = targetCol ∨ col + 1 = targetCol))
  | PieceType.Knight =>
    knightTable.any fun d => decide (row + d.1 = targetRow ∧ col + d.2 = targetCol)
  | PieceType.Bishop =>
    bishopTable.any fun d => slideHits b targetRow targetCol d.1 d.2 8 (row + d.1) (col + d.2)
  | PieceType.Rook =>
    rookTable.any fun d => slideHits b targetRow targetCol d.1 d.2 8 (row + d.1) (col + d.2)
  | PieceType.Queen =>
    (bishopTable ++ rookTable).any fun d =>
      slideHits b targetRow targetCol d.1 d.2 8 (row + d.1) (col + d.2)
  | PieceType.King =>
    kingTable.any fun d => decide (row + d.1 = targetRow ∧ col + d.2 = targetCol)
  | PieceType.None => false

/-- Source function `ArrayBoard::is_square_attacked` (ArrayBoard.h 476-562). -/
def is_square_attacked (b : ArrayBoard) (targetRow targetCol : Int) (attacker : PieceColor) :
    Bool :=
  allSquares.any fun p =>
    match b.cell p.row p.col with
    | none => false
    | some piece =>
      if piece.color_ ≠ attacker then false
      else attacksFrom b targetRow targetCol attacker piece p.row p.col

/-- One castling test of `add_king_moves` (ArrayBoard.h 429-437, 440-449): the right,
the empty squares, the rook on its corner, the three squares not attacked. -/
def castleOK (b : ArrayBoard) (color : PieceColor) (homeRow : Int) (rightsIdx : Fin 4)
    (empty : List Int) (rookCol : Int) (safe : List Int) : Bool :=
  b.castling_rights_ rightsIdx &&
  empty.all (fun c => (b.cell homeRow c).isNone) &&
  (b.cell homeRow rookCol).any
    (fun r => decide (r.type_ = PieceType.Rook) && decide (r.color_ = color)) &&
  safe.all fun c =>
    !b.is_square_attacked homeRow c
      (if color = PieceColor.White then PieceColor.Black else PieceColor.White)

/-- Source function `ArrayBoard::add_king_moves` (ArrayBoard.h 408-451). -/
def add_king_moves (b : ArrayBoard) (row col : Int) : List Move :=
  match b.cell row col with
  | none => []
  | some piece =>
    let color := piece.color_
    let homeRow : Int := if color = PieceColor.White then 7 else 0
    stepMoves b row col kingTable ++
      (if row = homeRow ∧ col = 4 then
        (if castleOK b color homeRow (if color = PieceColor.White then 0 else 2)
            [5, 6] 7 [4, 5, 6] then
          [⟨homeRow, 4, homeRow, 6, PieceType.None⟩]
        else []) ++
        (if castleOK b color homeRow (if color = PieceColor.White then 1 else 3)
            [3, 2, 1] 0 [4, 3, 2] then
          [⟨homeRow, 4, homeRow, 2, PieceType.None⟩]
        else [])
      else [])

/-- Source function `ArrayBoard::generate_valid_moves_for_piece` (ArrayBoard.h 263-291). -/
def generate_valid_moves_for_piece (b : ArrayBoard) (row col : Int) : List Move :=
  match b.cell row col with
  | none => []
  | some piece =>
    match piece.type_ with
    | PieceType.Pawn => add_pawn_moves b row col
    | PieceType.Knight => add_knight_moves b row col
    | PieceType.Bishop => add_bishop_moves b row col
    | PieceType.Rook => add_rook_moves b row col
    | PieceType.Queen => add_queen_moves b row col
    | PieceType.King => add_king_moves b row col
    | PieceType.None => []

/-- Source function `ArrayBoard::make_move_no_validation` (ArrayBoard.h 454-460): the board
afterwards, and whether `delete toPiece` ran. `none`: an index is out of
range. -/
def make_move_no_validation (b : ArrayBoard) (move : Move) : Option (ArrayBoard × Bool) :=
  if !inRange move.fromRow move.fromCol || !inRange move.toRow move.toCol then none
  else
    let fromPiece := b.cell move.fromRow move.fromCol
    let toPiece := b.cell move.toRow move.toCol
    some ({ b with
        board_ := setCell (setCell b.board_ move.toRow move.toCol fromPiece)
          move.fromRow move.fromCol none },
      toPiece.isSome)

/-- Source function `ArrayBoard::find_king` (ArrayBoard.h 463-473). -/
def find_king (b : ArrayBoard) (color : PieceColor) : Int × Int :=
  match allSquares.find? fun p =>
      (b.cell p.row p.col).any fun piece =>
        decide (piece.type_ = PieceType.King) && decide (piece.color_ = color) with
  | some p => (p.row, p.col)
  | none => (-1, -1)

/-- Source function `ArrayBoard::is_king_in_check` (ArrayBoard.h 565-570). -/
def is_king_in_check (b : ArrayBoard) (color : PieceColor) : Bool :=
  let kingPos := b.find_king color
  if kingPos.1 = -1 then false
  else
    let opponent := if color = PieceColor.White then PieceColor.Black else PieceColor.White
    b.is_square_attacked kingPos.1 kingPos.2 opponent

/-- The loop `for (const Move& move : pseudoMoves)` of
`generate_legal_moves_for_piece` for a piece of colour `color`. Each round
works on `tempBoard = *this`, which shares its pieces with `b`: when
`make_move_no_validation` deletes a piece through the copy, the destination
cell of `b` itself is left pointing to the freed piece. The next round copies
that pointer, and the loops of `is_square_attacked`, `is_insufficient_material`
and of the callers read through every non-null cell they visit; the result is
`none` from the `delete` on. -/
def legalLoop (b : ArrayBoard) (color : PieceColor) : List Move → Option (List Move)
  | [] => some []
  | move :: rest =>
    match b.make_move_no_validation move with
    | none => none
    | some (tempBoard, deleted) =>
      if deleted then none
      else
        match legalLoop b color rest with
        | none => none
        | some legalMoves =>
          some (if !tempBoard.is_king_in_check color then move :: legalMoves else legalMoves)

/-- Source function `ArrayBoard::generate_legal_moves_for_piece` (ArrayBoard.h 573-584). -/
def generate_legal_moves_for_piece (b : ArrayBoard) (row col : Int) : Option (List Move) :=
  match b.cell row col with
  | none => some []
  | some piece => legalLoop b piece.color_ (b.generate_valid_moves_for_piece row col)

/-- The search loop of `is_game_over` and `get_game_result` over the squares
still to be visited: `true` when it stops at a piece of the side to move that
has a legal move. -/
def searchLegal (b : ArrayBoard) : List Position → Option Bool
  | [] => some false
  | p :: rest =>
    match b.cell p.row p.col with
    | none => searchLegal b rest
    | some piece =>
      if piece.color_ = b.turn_ then
        match b.generate_legal_moves_for_piece p.row p.col with
        | none => none
        | some legalMoves => if !legalMoves.isEmpty then some true else searchLegal b rest
      else searchLegal b rest

/-- The search loop of `is_game_over` and `get_game_result` over the 64
squares. -/
def hasLegalMove (b : ArrayBoard) : Option Bool := searchLegal b allSquares

/-- The counters of `is_insufficient_material`. -/
structure Material where
  whitePieces : Nat
  blackPieces : Nat
  whiteBishops : Nat
  blackBishops : Nat
  whiteKnights : Nat
  blackKnights : Nat
  deriving DecidableEq

/-- The body of the counting loop of `is_insufficient_material` for one cell. -/
def tally (m : Material) (c : Option Piece) : Material :=
  match c with
  | none => m
  | some piece =>
    if piece.type_ = PieceType.King then m
    else if piece.color_ = PieceColor.White then
      { m with
        whitePieces := m.whitePieces + 1
        whiteBishops := if piece.type_ = PieceType.Bishop then m.whiteBishops + 1
          else m.whiteBishops
        whiteKnights := if piece.type_ = PieceType.Knight then m.whiteKnights + 1
          else m.whiteKnights }
    else if piece.color_ = PieceColor.Black then
      { m with
        blackPieces := m.blackPieces + 1
        blackBishops := if piece.type_ = PieceType.Bishop then m.blackBishops + 1
          else m.blackBishops
        blackKnights := if piece.type_ = PieceType.Knight then m.blackKnights + 1
          else m.blackKnights }
    else m

/-- The counting loop of `is_insufficient_material` over a list of squares. -/
def countMaterial (b : ArrayBoard) (squares : List Position) : Material :=
  squares.foldl (fun m p => tally m (b.cell p.row p.col)) ⟨0, 0, 0, 0, 0, 0⟩

/-- Source function `ArrayBoard::is_insufficient_material` (ArrayBoard.h 221-250). -/
def is_insufficient_material (b : ArrayBoard) : Bool :=
  let m := countMaterial b allSquares
  if m.whitePieces = 0 ∧ m.blackPieces = 0 then true
  else if (m.whitePieces = 1 ∧ m.whiteBishops = 1 ∧ m.blackPieces = 0) ∨
      (m.whitePieces = 1 ∧ m.whiteKnights = 1 ∧ m.blackPieces = 0) ∨
      (m.blackPieces = 1 ∧ m.blackBishops = 1 ∧ m.whitePieces = 0) ∨
      (m.blackPieces = 1 ∧ m.blackKnights = 1 ∧ m.whitePieces = 0) then true
  else false

/-- Source function `ArrayBoard::is_threefold_repetition` (ArrayBoard.h 253-260). -/
def is_threefold_repetition (b : ArrayBoard) : Bool :=
  let last := b.to_string
  let count := b.position_history_.countP fun pos => decide (pos = last)
  decide (count ≥ 3)

/-- Source function `ArrayBoard::get_game_result` (ArrayBoard.h 195-219). -/
def get_game_result (b : ArrayBoard) : Option (List Char) :=
  match b.hasLegalMove with
  | none => none
  | some hasLegalMove =>
    if !hasLegalMove then
      if b.is_king_in_check b.turn_ then some "checkmate".toList else some "stalemate".toList
    else if b.is_insufficient_material then some "draw: insufficient material".toList
    else if b.is_threefold_repetition then some "draw: threefold repetition".toList
    else if b.halfmove_clock_ ≥ 100 then some "draw: fifty-move rule".toList
    else some "ongoing".toList

end ArrayBoard

/-! ## Auxiliary notions used in the statements -/

/-- Every right that is true in the first record is true in the second. -/
def RightsLE (cr' cr : Fin 4 → Bool) : Prop := ∀ i, cr' i = true → cr i = true

/-- Every answer of the first attack query is also the answer of the second. -/
def AttLE (a a' : AttackQuery) : Prop := ∀ b sq c r, a b sq c = some r → a' b sq c = some r

/-- The check test of the legality filter returns on the copy made for `m`. -/
def checkTestReturns (fuel : Nat) (b : Board) (m : Move) : Bool :=
  ((b.makeMove m).isKingInCheck fuel b.turn_).isSome

/-- The check test of the legality filter passes for `m`: on a copy of the
board after `makeMove m`, `isKingInCheck` of the side that was to move is
false. -/
def checkTestPasses (fuel : Nat) (b : Board) (m : Move) : Bool :=
  decide ((b.makeMove m).isKingInCheck fuel b.turn_ = some false)

/-- The legal moves in the words of the specification: the pseudo-legal moves
whose post-application check test passes, in the same order and with the same
multiplicity. -/
def specLegalMoves (fuel : Nat) (b : Board) (pseudo : List Move) : List Move :=
  pseudo.filter (checkTestPasses fuel b)

/-- The test of the search loop of `isKingInCheck`: the square holds a king of
`color`. -/
def isKingOf (b : Board) (color : PieceColor) (pos : Position) : Bool :=
  match b.getPiece pos with
  | some piece => decide (piece.color_ = color ∧ piece.type_ = PieceType.King)
  | none => false

/-- The square of the first king of `color` in row-major order, if there is one. -/
def firstKing (b : Board) (color : PieceColor) : Option Position :=
  allSquares.find? (isKingOf b color)

/-- In the list, every promotion to rook, bishop or knight comes after the
move that differs from it only by promoting to a queen. -/
def QueenFirst (l : List Move) : Prop :=
  ∀ pre m suf, l = pre ++ m :: suf → m.promotion ≠ Promotion.None →
    m.promotion ≠ Promotion.Queen → { m with promotion := Promotion.Queen } ∈ pre

/-- The rights record `x` is `cr` with exactly the rights selected by `T` made
false. -/
def RightsAre (x cr : Fin 4 → Bool) (T : Fin 4 → Prop) : Prop :=
  ∀ i, x i = true ↔ cr i = true ∧ ¬ T i

/-- The events that make right `i` false, in the words of the specification:
the king of the right's colour moves, the rook of that colour leaves the
right's home corner, or a move flagged as a capture lands on that corner.
The rights are `0` white kingside (corner (7,7)), `1` white queenside (7,0),
`2` black kingside (0,7), `3` black queenside (0,0). -/
def rightTrigger (move : Move) (P : Piece) (i : Fin 4) : Prop :=
  (P.type_ = PieceType.King ∧ P.color_ = PieceColor.White ∧ (i = 0 ∨ i = 1)) ∨
  (P.type_ = PieceType.King ∧ P.color_ = PieceColor.Black ∧ (i = 2 ∨ i = 3)) ∨
  (P.type_ = PieceType.Rook ∧ P.color_ = PieceColor.White ∧ move.from_.row = 7 ∧
    ((move.from_.col = 7 ∧ i = 0) ∨ (move.from_.col = 0 ∧ i = 1))) ∨
  (P.type_ = PieceType.Rook ∧ P.color_ = PieceColor.Black ∧ move.from_.row = 0 ∧
    ((move.from_.col = 7 ∧ i = 2) ∨ (move.from_.col = 0 ∧ i = 3))) ∨
  (move.isCapture = true ∧
    ((move.to_.row = 7 ∧ move.to_.col = 7 ∧ i = 0) ∨ (move.to_.row = 7 ∧ move.to_.col = 0 ∧ i = 1) ∨
     (move.to_.row = 0 ∧ move.to_.col = 7 ∧ i = 2) ∨ (move.to_.row = 0 ∧ move.to_.col = 0 ∧ i = 3)))

/-- The content of the cell of an in-bounds position, `board_[p.row][p.col]`. -/
def cellAt (g : Grid) (p : Position) : Option Piece := g (idx p.row) (idx p.col)

/-- The last rank of a colour: row 0 for White, row 7 for Black (`promoteRow`
in `add_pawnMoves`). -/
def lastRank (color : PieceColor) : Int := if color = PieceColor.White then 0 else 7

/-- The direction of advance of a pawn: row - 1 for White, row + 1 otherwise
(`dir` in `add_pawnMoves`). -/
def pawnDir (color : PieceColor) : Int := if color = PieceColor.White then -1 else 1

/-- The starting rank of a pawn: row 6 for White, row 1 otherwise (`startRow`
in `add_pawnMoves`). -/
def startRank (color : PieceColor) : Int := if color = PieceColor.White then 6 else 1

/-- The non-capturing moves of a pawn of colour `color` on `f`, in the words of
the specification: the square one step forward if it is in bounds and empty
(as promotion variants on the last rank, else as one move without promotion),
and the square two steps forward if the pawn is on its starting rank and the
one-step and two-step squares are both empty. -/
def specPawnForward (b : Board) (f : Position) (color : PieceColor) : List Move :=
  let one : Position := ⟨f.row + pawnDir color, f.col⟩
  let two : Position := ⟨f.row + 2 * pawnDir color, f.col⟩
  (if Board.inBounds one = true ∧ b.getPiece one = none then
      if one.row = lastRank color then
        [Promotion.Queen, Promotion.Rook, Promotion.Knight, Promotion.Bishop].map
          fun pr => ⟨f, one, pr, false, false, false⟩
      else [⟨f, one, Promotion.None, false, false, false⟩]
    else []) ++
  (if f.row = startRank color ∧ b.getPiece one = none ∧ b.getPiece two = none then
      [⟨f, two, Promotion.None, false, false, false⟩]
    else [])

/-- The diagonal-forward square of a pawn of colour `color` on `f`, one column
to the side `dc`. -/
def diagonalSquare (f : Position) (color : PieceColor) (dc : Int) : Position :=
  ⟨f.row + pawnDir color, f.col + dc⟩

/-- The home row of a king: row 7 for White, row 0 otherwise (`row` in
`add_kingMoves`). -/
def homeRow (color : PieceColor) : Int := if color = PieceColor.White then 7 else 0

/-- The index of the kingside castling right of a colour (`kingside_idx`). -/
def kingsideRight (color : PieceColor) : Fin 4 := if color = PieceColor.White then 0 else 2

/-- The index of the queenside castling right of a colour (`queenside_idx`). -/
def queensideRight (color : PieceColor) : Fin 4 := if color = PieceColor.White then 1 else 3

/-- No move generated on the board, pseudo-legal or legal, from one square or
from all of them, is flagged as an en-passant capture. -/
def NoEnpassantOffered (b : Board) : Prop :=
  (∀ att f ms, MoveGenerator.generateFrom att b f = some ms → ∀ m ∈ ms, m.isEnpassant = false) ∧
  (∀ att ms, MoveGenerator.generateAll att b = some ms → ∀ m ∈ ms, m.isEnpassant = false) ∧
  (∀ att side ms, MoveGenerator.generateAllSide att b side = some ms →
    ∀ m ∈ ms, m.isEnpassant = false) ∧
  (∀ fuel f legal, b.legalMovesFrom fuel f = some legal → ∀ m ∈ legal, m.isEnpassant = false) ∧
  (∀ fuel legal, b.legalMoves fuel = some legal → ∀ m ∈ legal, m.isEnpassant = false)

/-- The four orthogonal ray directions `(dr, dc)` of `add_rookMoves`, in the
order of its loops. -/
def rookDirs : List (Int × Int) := [(1, 0), (-1, 0), (0, 1), (0, -1)]

/-- The four diagonal ray directions `(dr, dc)` of `add_bishopMoves`, in the
order of its loops. -/
def bishopDirs : List (Int × Int) := [(1, 1), (-1, -1), (-1, 1), (1, -1)]

/-- The square `k` steps away from `f` in direction `d`. -/
def slideTo (f : Position) (d : Int × Int) (k : Nat) : Position :=
  ⟨f.row + (k : Int) * d.1, f.col + (k : Int) * d.2⟩

/-- The conditions of the specification for a sliding move of the piece `me`
from `f` to the square `k` steps away in direction `d`: that square lies on
the ray (`k` is at least 1 and the square is on the board), every square
strictly between is empty, and the square is empty or holds a piece of
another colour. -/
def SlideOK (b : Board) (f : Position) (me : Piece) (d : Int × Int) (k : Nat) : Prop :=
  1 ≤ k ∧ Board.inBounds (slideTo f d k) = true ∧
    (∀ j, 1 ≤ j → j < k → b.getPiece (slideTo f d j) = none) ∧
    ∀ t, b.getPiece (slideTo f d k) = some t → t.color_ ≠ me.color_

/-- The sliding move from `f` to the square `k` steps away in direction `d`:
no promotion, no en-passant or castling flag, and the capture flag set exactly
when the destination is occupied. -/
def slideMove (b : Board) (f : Position) (d : Int × Int) (k : Nat) : Move :=
  ⟨f, slideTo f d k, Promotion.None, (b.getPiece (slideTo f d k)).isSome, false, false⟩

/-- The moves of the ray loop of direction `d` for the piece `me` on `f`, with
the loop condition `board.inBounds(p)`. -/
def slideRay (b : Board) (f : Position) (me : Piece) (d : Int × Int) : List Move :=
  MoveGenerator.ray b f me Board.inBounds d.1 d.2 8 ⟨f.row + d.1, f.col + d.2⟩

/-- The cell at `p` of the array board holds a piece of colour `color` that is
not a king. -/
def nonKingAt (b : ArrayBoard) (color : PieceColor) (p : Position) : Prop :=
  ∃ piece, b.cell p.row p.col = some piece ∧ piece.type_ ≠ PieceType.King ∧
    piece.color_ = color

/-- The side `color` has no pieces besides kings. -/
def OnlyKings (b : ArrayBoard) (color : PieceColor) : Prop :=
  ∀ p, ¬ nonKingAt b color p

/-- The side `color` has exactly one non-king piece, and it is a bishop or a
knight. -/
def LoneMinor (b : ArrayBoard) (color : PieceColor) : Prop :=
  ∃ p piece, b.cell p.row p.col = some piece ∧ piece.color_ = color ∧
    (piece.type_ = PieceType.Bishop ∨ piece.type_ = PieceType.Knight) ∧
    ∀ q, q ≠ p → ¬ nonKingAt b color q

/-- The test counted by `whitePieces` and `blackPieces`: the cell holds a
piece of colour `color` that is not a king. -/
def nonKingTest (b : ArrayBoard) (color : PieceColor) (p : Position) : Bool :=
  (b.cell p.row p.col).any fun x => decide (x.type_ ≠ PieceType.King) && decide (x.color_ = color)

/-- The test counted by the bishop and knight counters: the cell holds a piece
of colour `color` and type `t`. -/
def pieceTest (b : ArrayBoard) (color : PieceColor) (t : PieceType) (p : Position) : Bool :=
  (b.cell p.row p.col).any fun x => decide (x.type_ = t) && decide (x.color_ = color)

/-- The number of squares in range on the ray from `(nr, nc)` in direction
`(dr, dc)`, the first one included when it is in range. -/
def raySquares (dr dc nr nc : Int) : Nat :=
  if ArrayBoard.inRange nr nc then
    (if dr = 1 then 8 - nr else if dr = -1 then nr + 1
      else if dc = 1 then 8 - nc else nc + 1).toNat
  else 0

/-- The field number `n` (from 0) of an input string: its white-space
delimited tokens are the placement, the side to move, the castling
availability and the en-passant target, in this order; `none` when the string
has no such field. -/
def fenField : Nat → List Char → Option (List Char)
  | 0, fen => (readToken fen).1
  | n + 1, fen => fenField n (readToken fen).2

/-- The flags of the move `m` describe it rightly on the board `b`: the capture
flag is set exactly when the destination holds a piece or the move is flagged
en passant, and the castling flag is set only on a move of a king from column
4 of its home row to column 6 or 2 of that row. -/
def FlagsCorrect (b : Board) (m : Move) : Prop :=
  (m.isCapture = true ↔ (b.getPiece m.to_).isSome = true ∨ m.isEnpassant = true) ∧
  (m.isCastling = true → ∃ c, b.getPiece m.from_ = some ⟨PieceType.King, c⟩ ∧
    m.from_ = ⟨homeRow c, 4⟩ ∧ m.to_.row = m.from_.row ∧
    (m.to_.col = m.from_.col + 2 ∨ m.to_.col = m.from_.col - 2))

/-- The colour a castling right belongs to: rights 0 and 1 are White's, rights
2 and 3 Black's. -/
def rightColor (i : Fin 4) : PieceColor :=
  if i.val < 2 then PieceColor.White else PieceColor.Black

/-- The home corner of the rook of a castling right: column 7 of the home row
for the kingside rights 0 and 2, column 0 for the queenside rights 1 and 3. -/
def rightCorner (i : Fin 4) : Position :=
  ⟨homeRow (rightColor i), if i.val % 2 = 0 then 7 else 0⟩

/-- Every piece on the board is White or Black. -/
def PiecesColoured (b : Board) : Prop :=
  ∀ p X, b.getPiece p = some X → X.color_ = PieceColor.White ∨ X.color_ = PieceColor.Black

/-- The en-passant target is absent or lies on row 2 or row 5. -/
def TargetRowOK (b : Board) : Prop :=
  b.en_passant_target_ = ⟨-1, -1⟩ ∨ b.en_passant_target_.row = 2 ∨ b.en_passant_target_.row = 5

/-- Whenever a castling right is true, a rook of its colour stands on its home
corner and every king of its colour on the board stands on column 4 of its
home row. -/
def RightsBacked (b : Board) : Prop :=
  ∀ i, b.castling_rights_ i = true →
    b.getPiece (rightCorner i) = some ⟨PieceType.Rook, rightColor i⟩ ∧
    ∀ p, b.getPiece p = some ⟨PieceType.King, rightColor i⟩ →
      p = ⟨homeRow (rightColor i), 4⟩

/-- The piece a letter of the placement field names: p, n, b, r, q, k are
pawn, knight, bishop, rook, queen, king; a lowercase letter is Black, an
uppercase letter White. -/
def specPiece (ch : Char) : Option Piece :=
  match [('p', PieceType.Pawn), ('n', PieceType.Knight), ('b', PieceType.Bishop),
      ('r', PieceType.Rook), ('q', PieceType.Queen), ('k', PieceType.King)].lookup ch with
  | some t => some ⟨t, PieceColor.Black⟩
  | none =>
    match [('P', PieceType.Pawn), ('N', PieceType.Knight), ('B', PieceType.Bishop),
        ('R', PieceType.Rook), ('Q', PieceType.Queen), ('K', PieceType.King)].lookup ch with
    | some t => some ⟨t, PieceColor.White⟩
    | none => none

/-- The squares one character of a rank describes: a digit 1-8 stands for
that many empty squares, a letter for one square holding the piece it names. -/
def specSquares (ch : Char) : List (Option Piece) :=
  if '1' ≤ ch ∧ ch ≤ '8' then List.replicate (ch.toNat - '0'.toNat) none
  else
    match specPiece ch with
    | some p => [some p]
    | none => []

/-- The squares a rank of the placement field describes, from file a on. -/
def expandRank (rank : List Char) : List (Option Piece) := rank.flatMap specSquares

/-- The characters allowed in a rank. -/
def rankAlphabet : List Char := "12345678pnbrqkPNBRQK".toList

/-- A rank is made of digits 1-8 and letters from pnbrqkPNBRQK and describes
exactly 8 squares. -/
def RankOK (rank : List Char) : Prop :=
  (∀ ch ∈ rank, ch ∈ rankAlphabet) ∧ (expandRank rank).length = 8

/-- The placement field made of the given ranks, separated by `/`. -/
def joinRanks : List (List Char) → List Char
  | [] => []
  | [rank] => rank
  | rank :: rest => rank ++ '/' :: joinRanks rest

/-- The copy `tempBoard` of `generate_legal_moves_for_piece` after
`make_move_no_validation(move)`: the piece of the origin stands on the
destination and the origin is empty. -/
def movedCopy (b : ArrayBoard) (move : ArrayBoard.Move) : ArrayBoard :=
  { b with
    board_ := setCell (setCell b.board_ move.toRow move.toCol (b.cell move.fromRow move.fromCol))
      move.fromRow move.fromCol none }

/-- The move stays on the board and lands on an empty cell: testing it on a
copy deletes no piece. -/
def Quiet (b : ArrayBoard) (move : ArrayBoard.Move) : Prop :=
  ArrayBoard.inRange move.fromRow move.fromCol = true ∧
  ArrayBoard.inRange move.toRow move.toCol = true ∧ b.cell move.toRow move.toCol = none

/-! ## Concrete boards -/

/-- The grid with no piece. -/
def emptyGrid : Grid := fun _ _ => none

/-- The grid `g` with a piece put on `(r, c)`. -/
def place (g : Grid) (r c : Int) (t : PieceType) (col : PieceColor) : Grid :=
  setCell g r c (some ⟨t, col⟩)

/-- The board built by `Board(PieceColor::White, "4k3/8/8/8/8/8/8/4K3 w - - 0 1")`:
the two kings on their home squares, White to move, no en-passant target, and
the four castling rights at their initial value `true` (`parseFEN` never
assigns `castling_rights_`). -/
def bareKings : Board :=
  { turn_ := PieceColor.White
    board_ := place (place emptyGrid 0 4 PieceType.King PieceColor.Black)
      7 4 PieceType.King PieceColor.White
    en_passant_target_ := ⟨-1, -1⟩
    castling_rights_ := fun _ => true }

/-- White to move; white king h1 `(7,7)`, white rook e1 `(7,4)`; black king e8
`(0,4)`, black rook e7 `(1,4)`; no castling right left. -/
def pinBoard : Board :=
  { turn_ := PieceColor.White
    board_ := place (place (place (place emptyGrid
      0 4 PieceType.King PieceColor.Black)
      1 4 PieceType.Rook PieceColor.Black)
      7 4 PieceType.Rook PieceColor.White)
      7 7 PieceType.King PieceColor.White
    en_passant_target_ := ⟨-1, -1⟩
    castling_rights_ := fun _ => false }

/-- White to move; white pawn a7 `(1,0)`, white king h1 `(7,7)`, black king h8
`(0,7)`; no castling right left. -/
def promoBoard : Board :=
  { turn_ := PieceColor.White
    board_ := place (place (place emptyGrid
      0 7 PieceType.King PieceColor.Black)
      1 0 PieceType.Pawn PieceColor.White)
      7 7 PieceType.King PieceColor.White
    en_passant_target_ := ⟨-1, -1⟩
    castling_rights_ := fun _ => false }

/-- The promotion move a7-a8 of `promoBoard` with promotion `pr`. -/
def promoMove (pr : Promotion) : Move := ⟨⟨1, 0⟩, ⟨0, 0⟩, pr, false, false, false⟩

/-- The rook move e7-a7 of `pinBoard`, as the generator builds it. -/
def pinMove : Move := ⟨⟨1, 4⟩, ⟨1, 0⟩, Promotion.None, false, false, false⟩

/-- The rook move e1-e2 of `pinBoard`, as the generator builds it. -/
def rookUp : Move := ⟨⟨7, 4⟩, ⟨6, 4⟩, Promotion.None, false, false, false⟩

/-- White to move; white king e1 `(7,4)`, white rooks a1 `(7,0)` and h1 `(7,7)`,
black king a8 `(0,0)`; White still has both castling rights. -/
def castleBoard : Board :=
  { turn_ := PieceColor.White
    board_ := place (place (place (place emptyGrid
      0 0 PieceType.King PieceColor.Black)
      7 0 PieceType.Rook PieceColor.White)
      7 4 PieceType.King PieceColor.White)
      7 7 PieceType.Rook PieceColor.White
    en_passant_target_ := ⟨-1, -1⟩
    castling_rights_ := fun i => decide (i = 0 ∨ i = 1) }

/-- White to move after 1.e4 d5 2.e5 f5 reduced to the pawns involved and the
kings off their home squares: white pawn e5 `(3,4)`, black pawns d5 `(3,3)` and
f5 `(3,5)`, en-passant target f6 `(2,5)`. -/
def epBoard : Board :=
  { turn_ := PieceColor.White
    board_ := place (place (place (place (place emptyGrid
      0 7 PieceType.King PieceColor.Black)
      3 3 PieceType.Pawn PieceColor.Black)
      3 4 PieceType.Pawn PieceColor.White)
      3 5 PieceType.Pawn PieceColor.Black)
      7 7 PieceType.King PieceColor.White
    en_passant_target_ := ⟨2, 5⟩
    castling_rights_ := fun _ => false }

/-- The rook move h1-g1 of `castleBoard`. -/
def rookOut : Move := ⟨⟨7, 7⟩, ⟨7, 6⟩, Promotion.None, false, false, false⟩

/-- The rook move g1-h1, back to the home corner. -/
def rookBack : Move := ⟨⟨7, 6⟩, ⟨7, 7⟩, Promotion.None, false, false, false⟩

/-- A candidate of `promoBoard` that no legal move matches: a7-a5. -/
def badCandidate : Move := ⟨⟨1, 0⟩, ⟨3, 0⟩, Promotion.None, false, false, false⟩

/-- The piece types of a back rank, columns a to h. -/
def backRankType (c : Fin 8) : PieceType :=
  match c.val with
  | 0 => PieceType.Rook
  | 1 => PieceType.Knight
  | 2 => PieceType.Bishop
  | 3 => PieceType.Queen
  | 4 => PieceType.King
  | 5 => PieceType.Bishop
  | 6 => PieceType.Knight
  | _ => PieceType.Rook

/-- The standard starting position, White to move, all castling rights true,
no en-passant target: the default-constructed `Board`. -/
def startBoard : Board :=
  { turn_ := PieceColor.White
    board_ := fun r c =>
      match r.val with
      | 0 => some ⟨backRankType c, PieceColor.Black⟩
      | 1 => some ⟨PieceType.Pawn, PieceColor.Black⟩
      | 6 => some ⟨PieceType.Pawn, PieceColor.White⟩
      | 7 => some ⟨backRankType c, PieceColor.White⟩
      | _ => none
    en_passant_target_ := ⟨-1, -1⟩
    castling_rights_ := fun _ => true }

/-- A move descriptor with no promotion and no flag, as the GUI builds it. -/
def quiet (fr fc tr tc : Int) : Move := ⟨⟨fr, fc⟩, ⟨tr, tc⟩, Promotion.None, false, false, false⟩

/-- The moves 1.e4 e5 2.Nf3 Nf6 3.Bc4. -/
def openingMoves : List Move :=
  [quiet 6 4 4 4, quiet 1 4 3 4, quiet 7 6 5 5, quiet 0 6 2 5, quiet 7 5 4 2]

/-- Plays the candidates one after the other through `tryMakeMove`; `none` if
one of them does not return or is refused. -/
def playMoves (fuel : Nat) : Board → List Move → Option Board
  | b, [] => some b
  | b, m :: ms =>
    match b.tryMakeMove fuel m with
    | some (true, b') => playMoves fuel b' ms
    | _ => none

/-- The position after 1.e4 e5 2.Nf3 Nf6 3.Bc4, Black to move. -/
def afterBc4 : Board := openingMoves.foldl Board.makeMove startBoard

/-- The board built by `Board(PieceColor::White, "1n5k/P7/8/8/8/8/8/7K w - b8 0 1")`:
white pawn a7 `(1,0)`, black knight b8 `(0,1)`, black king h8 `(0,7)`, white
king h1 `(7,7)`, White to move, en-passant target b8 `(0,1)`, castling rights
at their initial value `true`. -/
def epPromoBoard : Board :=
  { turn_ := PieceColor.White
    board_ := place (place (place (place emptyGrid
      0 1 PieceType.Knight PieceColor.Black)
      0 7 PieceType.King PieceColor.Black)
      1 0 PieceType.Pawn PieceColor.White)
      7 7 PieceType.King PieceColor.White
    en_passant_target_ := ⟨0, 1⟩
    castling_rights_ := fun _ => true }

/-- The board built by `Board(PieceColor::White, "k7/8/8/8/8/8/8/4K3 w - - 0 1")`:
white king e1 `(7,4)`, black king a8 `(0,0)`, no other piece, White to move, no
en-passant target, castling rights at their initial value `true` (`parseFEN`
never assigns `castling_rights_`). -/
def loneKingBoard : Board :=
  { turn_ := PieceColor.White
    board_ := place (place emptyGrid 0 0 PieceType.King PieceColor.Black)
      7 4 PieceType.King PieceColor.White
    en_passant_target_ := ⟨-1, -1⟩
    castling_rights_ := fun _ => true }


/-- Black to move; black king e8 `(0,4)` with its castling rights, white rook
a1 `(7,0)`, and no white king. -/
def noWhiteKing : Board :=
  { turn_ := PieceColor.Black
    board_ := place (place emptyGrid 0 4 PieceType.King PieceColor.Black)
      7 0 PieceType.Rook PieceColor.White
    en_passant_target_ := ⟨-1, -1⟩
    castling_rights_ := fun _ => true }

/-- An array board with the given side to move and cells, empty history,
clock 0, all castling rights and no en-passant target. -/
def arrayBoardOf (turn : PieceColor) (g : Grid) : ArrayBoard :=
  { ArrayBoard.new turn with board_ := g }

/-- Black to move; black king h8 `(0,7)`, white queen g7 `(1,6)`, white king
f6 `(2,5)`. -/
def mateBoard : ArrayBoard :=
  arrayBoardOf PieceColor.Black
    (place (place (place emptyGrid 0 7 PieceType.King PieceColor.Black)
      1 6 PieceType.Queen PieceColor.White)
      2 5 PieceType.King PieceColor.White)

/-- White to move; white king e1 `(7,4)`, white bishop c1 `(7,2)`, black king
e8 `(0,4)`: king and bishop versus lone king. -/
def kbkBoard : ArrayBoard :=
  arrayBoardOf PieceColor.White
    (place (place (place emptyGrid 0 4 PieceType.King PieceColor.Black)
      7 2 PieceType.Bishop PieceColor.White)
      7 4 PieceType.King PieceColor.White)

/-- The position after 1.f3 e5 2.g4 Qh4, White to move. -/
def foolsMate : ArrayBoard :=
  arrayBoardOf PieceColor.White
    (setCell (place (setCell (place (setCell (place (setCell (place startBoard.board_
      5 5 PieceType.Pawn PieceColor.White) 6 5 none)
      3 4 PieceType.Pawn PieceColor.Black) 1 4 none)
      4 6 PieceType.Pawn PieceColor.White) 6 6 none)
      4 7 PieceType.Queen PieceColor.Black) 0 3 none)

/-- The board built by `Board(PieceColor::White, "k7/8/8/8/8/7p/4p3/4K2R w K - 0 1")`:
white king e1 `(7,4)`, white rook h1 `(7,7)`, black king a8 `(0,0)`, black
pawns e2 `(6,4)` and h3 `(5,7)`, White to move, castling rights at their
initial value `true`. -/
def pawnGuard : Board :=
  { turn_ := PieceColor.White
    board_ := place (place (place (place (place emptyGrid
      0 0 PieceType.King PieceColor.Black)
      5 7 PieceType.Pawn PieceColor.Black)
      6 4 PieceType.Pawn PieceColor.Black)
      7 4 PieceType.King PieceColor.White)
      7 7 PieceType.Rook PieceColor.White
    en_passant_target_ := ⟨-1, -1⟩
    castling_rights_ := fun _ => true }

/-- The states reachable from the standard starting position by a sequence of
successful `tryMakeMove` calls. -/
inductive Reachable : Board → Prop
  | start : Reachable startBoard
  | step (fuel : Nat) (b b' : Board) (move : Move) :
    Reachable b → b.tryMakeMove fuel move = some (true, b') → Reachable b'

/-- The candidates 1.f3 e5 2.g4 Qh4 followed by the black queen taking the
white king on e1. -/
def kingHunt : List Move :=
  [quiet 6 5 5 5, quiet 1 4 3 4, quiet 6 6 4 6, quiet 0 3 4 7, quiet 4 7 7 4]

/-! ## Theorems -/

open Board MoveGenerator

set_option maxRecDepth 100000

/-! ### Supporting lemmas -/

theorem rightsLE_refl (cr : Fin 4 → Bool) : RightsLE cr cr := fun _ h => h

theorem rightsLE_clear {x cr : Fin 4 → Bool} (k : Fin 4) (h : RightsLE x cr) :
    RightsLE (clearRight x k) cr := by
  intro i hi
  unfold clearRight at hi
  split_ifs at hi
  exact h i hi

theorem rightsLE_ite {c : Prop} [Decidable c] {x y cr : Fin 4 → Bool}
    (hx : RightsLE x cr) (hy : RightsLE y cr) : RightsLE (if c then x else y) cr := by
  split_ifs
  · exact hx
  · exact hy

theorem mmCastlingRights_le (cr : Fin 4 → Bool) (move : Move) (p : Piece) :
    RightsLE (mmCastlingRights cr move p) cr := by
  unfold mmCastlingRights
  lift_lets
  intro cr1 cr2 a3 cr3 a4 cr4 c1 c2 c3
  have h1 : RightsLE cr1 cr := rightsLE_ite (rightsLE_clear 1 (rightsLE_clear 0 (rightsLE_refl cr))) (rightsLE_refl cr)
  have h2 : RightsLE cr2 cr := rightsLE_ite (rightsLE_clear 3 (rightsLE_clear 2 h1)) h1
  have k3 : RightsLE a3 cr := rightsLE_ite (rightsLE_clear 1 h2) h2
  have h3 : RightsLE cr3 cr := rightsLE_ite (rightsLE_ite (rightsLE_clear 0 k3) k3) h2
  have k4 : RightsLE a4 cr := rightsLE_ite (rightsLE_clear 3 h3) h3
  have h4 : RightsLE cr4 cr := rightsLE_ite (rightsLE_ite (rightsLE_clear 2 k4) k4) h3
  have g1 : RightsLE c1 cr := rightsLE_ite (rightsLE_clear 1 h4) h4
  have g2 : RightsLE c2 cr := rightsLE_ite (rightsLE_clear 0 g1) g1
  have g3 : RightsLE c3 cr := rightsLE_ite (rightsLE_clear 3 g2) g2
  exact rightsLE_ite (rightsLE_ite (rightsLE_clear 2 g3) g3) h4

/-- The board `makeMove` builds once its two guards have been passed. -/
theorem makeMove_of_piece (b : Board) (move : Move) (p : Piece)
    (hf : inBounds move.from_ = true) (ht : inBounds move.to_ = true)
    (hp : b.board_ (idx move.from_.row) (idx move.from_.col) = some p) :
    b.makeMove move =
      { turn_ := if b.turn_ = PieceColor.White then PieceColor.Black else PieceColor.White
        board_ := mmPromotion (mmMovePiece (mmCastling (mmEnpassant b.board_ move) move p) move) move
        en_passant_target_ := mmEnPassantTarget move p
        castling_rights_ := mmCastlingRights b.castling_rights_ move p } := by
  simp [Board.makeMove, hf, ht, hp]

/-- The early returns of `makeMove`. -/
theorem makeMove_of_guard (b : Board) (move : Move)
    (h : inBounds move.from_ = false ∨ inBounds move.to_ = false ∨
      b.board_ (idx move.from_.row) (idx move.from_.col) = none) :
    b.makeMove move = b := by
  unfold Board.makeMove
  rcases h with h | h | h
  · simp [h]
  · simp [h]
  · simp [h]

theorem makeMove_rights_le (b : Board) (move : Move) :
    RightsLE (b.makeMove move).castling_rights_ b.castling_rights_ := by
  cases hf : inBounds move.from_ with
  | false => rw [makeMove_of_guard b move (Or.inl hf)]; exact rightsLE_refl _
  | true =>
    cases ht : inBounds move.to_ with
    | false => rw [makeMove_of_guard b move (Or.inr (Or.inl ht))]; exact rightsLE_refl _
    | true =>
      cases hp : b.board_ (idx move.from_.row) (idx move.from_.col) with
      | none => rw [makeMove_of_guard b move (Or.inr (Or.inr hp))]; exact rightsLE_refl _
      | some p =>
        rw [makeMove_of_piece b move p hf ht hp]
        exact mmCastlingRights_le _ _ _

theorem foldl_makeMove_rights_le (moves : List Move) (b : Board) :
    RightsLE (moves.foldl Board.makeMove b).castling_rights_ b.castling_rights_ := by
  induction moves generalizing b with
  | nil => exact rightsLE_refl _
  | cons m ms ih => exact fun i h => makeMove_rights_le b m i (ih (b.makeMove m) i h)

theorem tryMakeMove_of_legal (fuel : Nat) (b : Board) (move : Move) (legal : List Move)
    (h : b.legalMovesFrom fuel move.from_ = some legal) :
    b.tryMakeMove fuel move =
      match legal.find? (sameSquares move) with
      | some m => some (true, b.makeMove m)
      | none => some (false, b) := by
  unfold Board.tryMakeMove
  rw [h]

theorem sameSquares_iff (move m : Move) :
    sameSquares move m = true ↔ m.from_ = move.from_ ∧ m.to_ = move.to_ := by
  simp [sameSquares]

theorem collect_eq_some (f : Position → Option (List Move)) (ps : List Position)
    (out : List Move) :
    collect f ps = some out ↔
      ∃ parts, List.Forall₂ (fun p ms => f p = some ms) ps parts ∧ out = parts.flatten := by
  induction ps generalizing out with
  | nil =>
    simp only [collect, Option.some.injEq, List.forall₂_nil_left_iff]
    constructor
    · rintro rfl; exact ⟨[], rfl, rfl⟩
    · rintro ⟨parts, rfl, rfl⟩; rfl
  | cons p ps ih =>
    simp only [collect, List.forall₂_cons_left_iff]
    cases hp : f p with
    | none =>
      constructor
      · intro h; exact absurd h (by simp)
      · rintro ⟨parts, ⟨ms, rest, h, _, _⟩, _⟩
        exact absurd h (by simp)
    | some ms =>
      cases hc : collect f ps with
      | none =>
        constructor
        · intro h; exact absurd h (by simp)
        · rintro ⟨parts, ⟨ms', rest, _, hrest, _⟩, _⟩
          have := (ih (List.flatten rest)).mpr ⟨rest, hrest, rfl⟩
          rw [hc] at this; exact absurd this (by simp)
      | some restOut =>
        obtain ⟨rest, hrest, hro⟩ := (ih restOut).mp hc
        simp only [Option.some.injEq]
        constructor
        · rintro rfl
          exact ⟨ms :: rest, ⟨ms, rest, rfl, hrest, rfl⟩, by simp [hro]⟩
        · rintro ⟨parts, ⟨ms', rest', h1, hrest', rfl⟩, rfl⟩
          have h2 := (ih (List.flatten rest')).mpr ⟨rest', hrest', rfl⟩
          rw [hc] at h2
          have h3 : restOut = List.flatten rest' := by simpa using h2
          simp [h1, h3]

theorem filterLoop_eq_some (fuel : Nat) (b : Board) (pseudo acc legal : List Move) :
    filterLoop fuel b pseudo acc = some legal ↔
      (∀ m ∈ pseudo, checkTestReturns fuel b m = true) ∧
        legal = acc ++ specLegalMoves fuel b pseudo := by
  induction pseudo generalizing acc with
  | nil =>
    simp only [filterLoop, specLegalMoves, List.filter_nil, List.append_nil, Option.some.injEq,
      List.not_mem_nil, false_imp_iff, implies_true, true_and]
    exact eq_comm
  | cons m rest ih =>
    simp only [filterLoop]
    cases hc : (b.makeMove m).isKingInCheck fuel b.turn_ with
    | none => simp [checkTestReturns, hc]
    | some inCheck =>
      simp only [ih]
      cases inCheck <;>
        simp [checkTestReturns, checkTestPasses, specLegalMoves, hc, List.filter_cons]

theorem legalMovesFrom_eq_some (fuel : Nat) (b : Board) (p : Position) (legal : List Move) :
    b.legalMovesFrom fuel p = some legal ↔
      ∃ pseudo, generateFrom (isSquareAttacked fuel) b p = some pseudo ∧
        (∀ m ∈ pseudo, checkTestReturns fuel b m = true) ∧
        legal = specLegalMoves fuel b pseudo := by
  unfold Board.legalMovesFrom
  cases hg : generateFrom (isSquareAttacked fuel) b p with
  | none => simp
  | some pseudo => simp [filterLoop_eq_some]

theorem legalMoves_eq_some (fuel : Nat) (b : Board) (legal : List Move) :
    b.legalMoves fuel = some legal ↔
      ∃ pseudo, generateAll (isSquareAttacked fuel) b = some pseudo ∧
        (∀ m ∈ pseudo, checkTestReturns fuel b m = true) ∧
        legal = specLegalMoves fuel b pseudo := by
  unfold Board.legalMoves
  cases hg : generateAll (isSquareAttacked fuel) b with
  | none => simp
  | some pseudo => simp [filterLoop_eq_some]

/-- The squares visited by the double loop are the 64 in-bounds squares, each
once. -/
theorem allSquares_spec :
    allSquares.length = 64 ∧ allSquares.Nodup ∧ ∀ p, p ∈ allSquares ↔ inBounds p = true := by
  refine ⟨by decide, by decide, ?_⟩
  intro p
  constructor
  · revert p
    decide
  · obtain ⟨r, c⟩ := p
    intro h
    simp only [inBounds, Bool.and_eq_true, decide_eq_true_eq] at h
    obtain ⟨⟨⟨h1, h2⟩, h3⟩, h4⟩ := h
    interval_cases r <;> interval_cases c <;> decide

theorem collect_none_of_mem (f : Position → Option (List Move)) (ps : List Position)
    (p : Position) (hp : p ∈ ps) (h : f p = none) : collect f ps = none := by
  induction ps with
  | nil => cases hp
  | cons q qs ih =>
    simp only [collect]
    rcases List.mem_cons.mp hp with rfl | hq
    · rw [h]
    · rw [ih hq]
      cases f q <;> rfl

/-- The white king on its home square with the kingside right and f1, g1
empty: generating White's moves asks whether e1 is attacked by Black. -/
theorem generateAllSide_white_none (att : AttackQuery) (b : Board)
    (hK : b.getPiece ⟨7, 4⟩ = some ⟨PieceType.King, PieceColor.White⟩)
    (hr : b.castling_rights_ 0 = true)
    (h5 : b.getPiece ⟨7, 5⟩ = none) (h6 : b.getPiece ⟨7, 6⟩ = none)
    (hatt : att b ⟨7, 4⟩ PieceColor.Black = none) :
    generateAllSide att b PieceColor.White = none := by
  apply collect_none_of_mem _ _ ⟨7, 4⟩ (by decide)
  simp [generateSideAt, generateFrom, add_kingMoves, castleSide, noneAttacked, opponentOf,
    Board.getCastlingRights, hK, hr, h5, h6, hatt]

/-- The black king on its home square with the kingside right and f8, g8
empty: generating Black's moves asks whether e8 is attacked by White. -/
theorem generateAllSide_black_none (att : AttackQuery) (b : Board)
    (hK : b.getPiece ⟨0, 4⟩ = some ⟨PieceType.King, PieceColor.Black⟩)
    (hr : b.castling_rights_ 2 = true)
    (h5 : b.getPiece ⟨0, 5⟩ = none) (h6 : b.getPiece ⟨0, 6⟩ = none)
    (hatt : att b ⟨0, 4⟩ PieceColor.White = none) :
    generateAllSide att b PieceColor.Black = none := by
  apply collect_none_of_mem _ _ ⟨0, 4⟩ (by decide)
  simp [generateSideAt, generateFrom, add_kingMoves, castleSide, noneAttacked, opponentOf,
    Board.getCastlingRights, hK, hr, h5, h6, hatt]

/-- On a board where both kings stand on their home squares, both kingside
rights are true and the squares f1, g1, f8, g8 are empty, no amount of fuel
lets `isSquareAttacked` return, for either colour and any square. -/
theorem isSquareAttacked_none_of_castle_ready (b : Board)
    (hW : b.getPiece ⟨7, 4⟩ = some ⟨PieceType.King, PieceColor.White⟩)
    (hB : b.getPiece ⟨0, 4⟩ = some ⟨PieceType.King, PieceColor.Black⟩)
    (hrW : b.castling_rights_ 0 = true) (hrB : b.castling_rights_ 2 = true)
    (hW5 : b.getPiece ⟨7, 5⟩ = none) (hW6 : b.getPiece ⟨7, 6⟩ = none)
    (hB5 : b.getPiece ⟨0, 5⟩ = none) (hB6 : b.getPiece ⟨0, 6⟩ = none)
    (fuel : Nat) :
    ∀ sq, isSquareAttacked fuel b sq PieceColor.White = none ∧
      isSquareAttacked fuel b sq PieceColor.Black = none := by
  induction fuel with
  | zero => intro sq; exact ⟨rfl, rfl⟩
  | succ n ih =>
    intro sq
    constructor
    · simp only [isSquareAttacked]
      rw [generateAllSide_white_none _ b hW hrW hW5 hW6 (ih _).2]
    · simp only [isSquareAttacked]
      rw [generateAllSide_black_none _ b hB hrB hB5 hB6 (ih _).1]

theorem kingScan_eq (b : Board) (color : PieceColor) (legal : List Move) (ps : List Position) :
    kingScan b color legal ps =
      match ps.find? (isKingOf b color) with
      | some k => legal.any fun m => decide (m.to_ = k)
      | none => false := by
  induction ps with
  | nil => rfl
  | cons pos rest ih =>
    simp only [kingScan, List.find?_cons, isKingOf]
    cases hp : b.getPiece pos with
    | none => simpa using ih
    | some piece =>
      by_cases hk : piece.color_ = color ∧ piece.type_ = PieceType.King
      · simp [hk]
      · have hk' : piece.color_ ≠ color ∨ piece.type_ ≠ PieceType.King := by tauto
        simp only [hk', if_true, hk, decide_False]
        exact ih

/-- The result of `isKingInCheck` is `isSquareAttacked` (one level deeper) at the first king
of the colour, and `false` when there is no such king. -/
theorem isKingInCheck_eq (fuel : Nat) (b : Board) (color : PieceColor) :
    b.isKingInCheck fuel color =
      match generateAllSide (isSquareAttacked fuel) b (opponentOf color), firstKing b color with
      | none, _ => none
      | some _, none => some false
      | some _, some k => isSquareAttacked (fuel + 1) b k (opponentOf color) := by
  unfold Board.isKingInCheck firstKing
  simp only [isSquareAttacked, opponentOf]
  cases hg : generateAllSide (isSquareAttacked fuel) b
      (if color = PieceColor.White then PieceColor.Black else PieceColor.White) with
  | none => rfl
  | some legal =>
    simp only [kingScan_eq]
    cases allSquares.find? (isKingOf b color) <;> rfl

theorem mem_specLegalMoves (fuel : Nat) (b : Board) (pseudo : List Move) (m : Move) :
    m ∈ specLegalMoves fuel b pseudo ↔
      m ∈ pseudo ∧ (b.makeMove m).isKingInCheck fuel b.turn_ = some false := by
  simp [specLegalMoves, checkTestPasses]

theorem inBounds_iff (p : Position) :
    inBounds p = true ↔ 0 ≤ p.row ∧ p.row < 8 ∧ 0 ≤ p.col ∧ p.col < 8 := by
  simp only [inBounds, Bool.and_eq_true, decide_eq_true_eq]
  tauto

theorem idx_inj {a c : Int} (ha : 0 ≤ a ∧ a < 8) (hc : 0 ≤ c ∧ c < 8) :
    idx a = idx c ↔ a = c := by
  simp only [idx, Fin.ofNat, Fin.mk.injEq]
  omega

theorem getPiece_eq_cellAt (b : Board) (p : Position) (hp : inBounds p = true) :
    b.getPiece p = cellAt b.board_ p := by
  simp [Board.getPiece, cellAt, hp]

theorem inBounds_of_getPiece (b : Board) (p : Position) (x : Piece)
    (h : b.getPiece p = some x) : inBounds p = true := by
  cases hp : inBounds p with
  | true => rfl
  | false => simp [Board.getPiece, hp] at h

/-- Reading a cell after the assignment `board_[q.row][q.col] = v`. -/
theorem cellAt_setCell (g : Grid) (p q : Position) (v : Option Piece)
    (hp : inBounds p = true) (hq : inBounds q = true) :
    cellAt (setCell g q.row q.col v) p = if p = q then v else cellAt g p := by
  rw [inBounds_iff] at hp hq
  have h1 := idx_inj (a := p.row) (c := q.row) ⟨hp.1, hp.2.1⟩ ⟨hq.1, hq.2.1⟩
  have h2 := idx_inj (a := p.col) (c := q.col) ⟨hp.2.2.1, hp.2.2.2⟩ ⟨hq.2.2.1, hq.2.2.2⟩
  obtain ⟨pr, pc⟩ := p
  obtain ⟨qr, qc⟩ := q
  simp only [cellAt, setCell, h1, h2, Position.mk.injEq]

theorem mmEnpassant_cell (g : Grid) (move : Move) (p : Position)
    (hp : inBounds p = true) (hf : inBounds move.from_ = true) (ht : inBounds move.to_ = true) :
    cellAt (mmEnpassant g move) p =
      if move.isEnpassant = true ∧ p = ⟨move.from_.row, move.to_.col⟩ then none
      else cellAt g p := by
  have hc : inBounds ⟨move.from_.row, move.to_.col⟩ = true := by
    rw [inBounds_iff] at hf ht ⊢
    exact ⟨hf.1, hf.2.1, ht.2.2.1, ht.2.2.2⟩
  unfold mmEnpassant
  by_cases he : move.isEnpassant = true
  · simp only [he, if_true, hc, true_and]
    exact cellAt_setCell g p ⟨move.from_.row, move.to_.col⟩ none hp hc
  · simp [he]

theorem mmCastling_cell (g : Grid) (move : Move) (P : Piece) (p : Position)
    (hp : inBounds p = true) (hf : inBounds move.from_ = true) :
    cellAt (mmCastling g move P) p =
      if move.isCastling = true ∧ P.type_ = PieceType.King then
        if move.to_.col = 6 then
          if p = ⟨move.from_.row, 7⟩ then none
          else if p = ⟨move.from_.row, 5⟩ then cellAt g ⟨move.from_.row, 7⟩
          else cellAt g p
        else if move.to_.col = 2 then
          if p = ⟨move.from_.row, 0⟩ then none
          else if p = ⟨move.from_.row, 3⟩ then cellAt g ⟨move.from_.row, 0⟩
          else cellAt g p
        else cellAt g p
      else cellAt g p := by
  have hb : ∀ c : Int, 0 ≤ c → c < 8 → inBounds ⟨move.from_.row, c⟩ = true := by
    intro c h0 h8
    rw [inBounds_iff] at hf ⊢
    exact ⟨hf.1, hf.2.1, h0, h8⟩
  unfold mmCastling
  by_cases hc : move.isCastling = true ∧ P.type_ = PieceType.King
  · simp only [hc, and_self, if_true]
    by_cases h6 : move.to_.col = 6
    · simp only [h6, if_true]
      rw [cellAt_setCell _ p ⟨move.from_.row, 7⟩ none hp (hb 7 (by decide) (by decide)),
        cellAt_setCell _ p ⟨move.from_.row, 5⟩ _ hp (hb 5 (by decide) (by decide))]
      rfl
    · simp only [h6, if_false]
      by_cases h2 : move.to_.col = 2
      · simp only [h2, if_true]
        rw [cellAt_setCell _ p ⟨move.from_.row, 0⟩ none hp (hb 0 (by decide) (by decide)),
          cellAt_setCell _ p ⟨move.from_.row, 3⟩ _ hp (hb 3 (by decide) (by decide))]
        rfl
      · simp only [h2, if_false]
  · simp only [hc, if_false]

theorem mmMovePiece_cell (g : Grid) (move : Move) (p : Position)
    (hp : inBounds p = true) (hf : inBounds move.from_ = true) (ht : inBounds move.to_ = true) :
    cellAt (mmMovePiece g move) p =
      if p = move.from_ then none
      else if p = move.to_ then cellAt g move.from_
      else cellAt g p := by
  unfold mmMovePiece
  rw [cellAt_setCell _ p move.from_ none hp hf, cellAt_setCell _ p move.to_ _ hp ht]
  rfl

theorem mmPromotion_cell (g : Grid) (move : Move) (p : Position)
    (hp : inBounds p = true) (ht : inBounds move.to_ = true) :
    cellAt (mmPromotion g move) p =
      if move.promotion ≠ Promotion.None ∧ p = move.to_ then
        (cellAt g move.to_).map fun old => ⟨PieceType.Queen, old.color_⟩
      else cellAt g p := by
  unfold mmPromotion
  by_cases hpr : move.promotion = Promotion.None
  · simp [hpr]
  · simp only [ne_eq, hpr, not_false_eq_true, if_true, true_and]
    cases hc : g (idx move.to_.row) (idx move.to_.col) with
    | none =>
      have hc' : cellAt g move.to_ = none := hc
      by_cases hpt : p = move.to_
      · simp [hpt, hc']
      · simp [hpt]
    | some old =>
      have hc' : cellAt g move.to_ = some old := hc
      simp only [hc', Option.map_some']
      exact cellAt_setCell g p move.to_ _ hp ht

/-- The cell `p` after `makeMove`, for a move that passes the guards. -/
theorem makeMove_getPiece (b : Board) (move : Move) (P : Piece) (p : Position)
    (hP : b.getPiece move.from_ = some P) (ht : inBounds move.to_ = true)
    (hp : inBounds p = true) :
    (b.makeMove move).getPiece p =
      cellAt (mmPromotion (mmMovePiece (mmCastling (mmEnpassant b.board_ move) move P) move)
        move) p := by
  have hf := inBounds_of_getPiece b _ _ hP
  have hP' : b.board_ (idx move.from_.row) (idx move.from_.col) = some P := by
    rw [getPiece_eq_cellAt b _ hf] at hP; exact hP
  rw [makeMove_of_piece b move P hf ht hP', getPiece_eq_cellAt _ _ hp]

/-- The cell `p` after `makeMove`, block by block. -/
theorem makeMove_getPiece_cases (b : Board) (move : Move) (P : Piece) (p : Position)
    (hP : b.getPiece move.from_ = some P) (ht : inBounds move.to_ = true)
    (hp : inBounds p = true) :
    (b.makeMove move).getPiece p =
      if move.promotion ≠ Promotion.None ∧ p = move.to_ then
        (cellAt (mmMovePiece (mmCastling (mmEnpassant b.board_ move) move P) move) move.to_).map
          fun old => ⟨PieceType.Queen, old.color_⟩
      else if p = move.from_ then none
      else if p = move.to_ then cellAt (mmCastling (mmEnpassant b.board_ move) move P) move.from_
      else cellAt (mmCastling (mmEnpassant b.board_ move) move P) p := by
  have hf := inBounds_of_getPiece b _ _ hP
  rw [makeMove_getPiece b move P p hP ht hp, mmPromotion_cell _ _ _ hp ht,
    mmMovePiece_cell _ _ _ hp hf ht]

/-- The origin cell as the block "Move the piece" finds it: the moving piece,
unless the en-passant block or the rook relocation has overwritten it. -/
theorem origin_before_move (b : Board) (move : Move) (P : Piece)
    (hP : b.getPiece move.from_ = some P) (ht : inBounds move.to_ = true)
    (hep : move.isEnpassant = true → move.to_.col ≠ move.from_.col)
    (hcs : move.isCastling = true → P.type_ = PieceType.King → move.from_.col = 4) :
    cellAt (mmCastling (mmEnpassant b.board_ move) move P) move.from_ = some P := by
  have hf := inBounds_of_getPiece b _ _ hP
  have hP' : cellAt b.board_ move.from_ = some P := by
    rw [← getPiece_eq_cellAt b _ hf]; exact hP
  have hne : ∀ c : Int, c ≠ 4 → move.isCastling = true → P.type_ = PieceType.King →
      move.from_ ≠ ⟨move.from_.row, c⟩ := by
    intro c hc h1 h2 h
    have := hcs h1 h2
    have h' := congrArg Position.col h
    simp only at h'
    omega
  have hepne : move.isEnpassant = true → move.from_ ≠ ⟨move.from_.row, move.to_.col⟩ := by
    intro he h
    have h' := congrArg Position.col h
    simp only at h'
    exact hep he h'.symm
  rw [mmCastling_cell _ _ _ _ hf hf, mmEnpassant_cell _ _ _ hf hf ht]
  by_cases hc : move.isCastling = true ∧ P.type_ = PieceType.King
  · have n7 := hne 7 (by decide) hc.1 hc.2
    have n5 := hne 5 (by decide) hc.1 hc.2
    have n0 := hne 0 (by decide) hc.1 hc.2
    have n3 := hne 3 (by decide) hc.1 hc.2
    by_cases he : move.isEnpassant = true
    · have := hepne he
      simp [hc, n7, n5, n0, n3, he, this, hP']
    · simp [hc, n7, n5, n0, n3, he, hP']
  · by_cases he : move.isEnpassant = true
    · have := hepne he
      simp [hc, he, this, hP']
    · simp [hc, he, hP']

/-- Origin and destination after `makeMove`, for a move between two different
in-bounds squares whose origin cell reaches the block "Move the piece"
untouched. -/
theorem makeMove_origin_destination (b : Board) (move : Move) (P : Piece)
    (hP : b.getPiece move.from_ = some P) (ht : inBounds move.to_ = true)
    (hne : move.from_ ≠ move.to_)
    (hep : move.isEnpassant = true → move.to_.col ≠ move.from_.col)
    (hcs : move.isCastling = true → P.type_ = PieceType.King → move.from_.col = 4) :
    (b.makeMove move).getPiece move.from_ = none ∧
    (move.promotion = Promotion.None → (b.makeMove move).getPiece move.to_ = some P) ∧
    (move.promotion = Promotion.Queen →
      (b.makeMove move).getPiece move.to_ = some ⟨PieceType.Queen, P.color_⟩) := by
  have hf := inBounds_of_getPiece b _ _ hP
  have ho := origin_before_move b move P hP ht hep hcs
  have hne' : move.to_ ≠ move.from_ := fun h => hne h.symm
  refine ⟨?_, ?_, ?_⟩
  · rw [makeMove_getPiece_cases b move P _ hP ht hf]
    simp [hne]
  · intro hpr
    rw [makeMove_getPiece_cases b move P _ hP ht ht]
    simp [hpr, hne', ho]
  · intro hpr
    rw [makeMove_getPiece_cases b move P _ hP ht ht, mmMovePiece_cell _ _ _ ht hf ht]
    simp [hpr, hne', ho]

theorem sameSquares_promotion (cand : Move) (X : Promotion) :
    sameSquares { cand with promotion := X } = sameSquares cand := rfl

theorem attLE_refl (a : AttackQuery) : AttLE a a := fun _ _ _ _ h => h

theorem noneAttacked_mono {a a' : AttackQuery} (h : AttLE a a') (b : Board) (opp : PieceColor)
    (sqs : List Position) (r : Bool) (hr : noneAttacked a b opp sqs = some r) :
    noneAttacked a' b opp sqs = some r := by
  induction sqs with
  | nil => exact hr
  | cons sq rest ih =>
    simp only [noneAttacked] at hr ⊢
    cases ha : a b sq opp with
    | none => rw [ha] at hr; exact absurd hr (by simp)
    | some v =>
      rw [h b sq opp v ha]
      rw [ha] at hr
      cases v with
      | true => exact hr
      | false => exact ih hr

theorem castleSide_mono {a a' : AttackQuery} (h : AttLE a a') (b : Board) (from_ : Position)
    (row : Int) (opp : PieceColor) (i : Fin 4) (between safe : List Position) (toCol : Int)
    (ms : List Move) (hr : castleSide a b from_ row opp i between safe toCol = some ms) :
    castleSide a' b from_ row opp i between safe toCol = some ms := by
  unfold castleSide at hr ⊢
  split_ifs at hr ⊢
  · cases hn : noneAttacked a b opp safe with
    | none => rw [hn] at hr; exact absurd hr (by simp)
    | some v =>
      rw [noneAttacked_mono h b opp safe v hn]
      rw [hn] at hr
      exact hr
  · exact hr
  · exact hr

theorem add_kingMoves_mono {a a' : AttackQuery} (h : AttLE a a') (b : Board) (from_ : Position)
    (ms : List Move) (hr : add_kingMoves a b from_ = some ms) :
    add_kingMoves a' b from_ = some ms := by
  unfold add_kingMoves at hr ⊢
  cases hp : b.getPiece from_ with
  | none => rw [hp] at hr; exact hr
  | some me =>
    rw [hp] at hr
    simp only at hr ⊢
    cases hk : castleSide a b from_ (if me.color_ = PieceColor.White then 7 else 0)
        (opponentOf me.color_) (if me.color_ = PieceColor.White then 0 else 2)
        [⟨if me.color_ = PieceColor.White then 7 else 0, 5⟩,
          ⟨if me.color_ = PieceColor.White then 7 else 0, 6⟩]
        [⟨if me.color_ = PieceColor.White then 7 else 0, 4⟩,
          ⟨if me.color_ = PieceColor.White then 7 else 0, 5⟩,
          ⟨if me.color_ = PieceColor.White then 7 else 0, 6⟩] 6 with
    | none => rw [hk] at hr; exact absurd hr (by simp)
    | some ks =>
      rw [hk] at hr
      rw [castleSide_mono h _ _ _ _ _ _ _ _ _ hk]
      simp only at hr ⊢
      cases hq : castleSide a b from_ (if me.color_ = PieceColor.White then 7 else 0)
          (opponentOf me.color_) (if me.color_ = PieceColor.White then 1 else 3)
          [⟨if me.color_ = PieceColor.White then 7 else 0, 1⟩,
            ⟨if me.color_ = PieceColor.White then 7 else 0, 2⟩,
            ⟨if me.color_ = PieceColor.White then 7 else 0, 3⟩]
          [⟨if me.color_ = PieceColor.White then 7 else 0, 4⟩,
            ⟨if me.color_ = PieceColor.White then 7 else 0, 3⟩,
            ⟨if me.color_ = PieceColor.White then 7 else 0, 2⟩] 2 with
      | none => rw [hq] at hr; exact absurd hr (by simp)
      | some qs =>
        rw [hq] at hr
        rw [castleSide_mono h _ _ _ _ _ _ _ _ _ hq]
        exact hr

theorem generateFrom_mono {a a' : AttackQuery} (h : AttLE a a') (b : Board) (from_ : Position)
    (ms : List Move) (hr : generateFrom a b from_ = some ms) :
    generateFrom a' b from_ = some ms := by
  unfold generateFrom at hr ⊢
  cases hp : b.getPiece from_ with
  | none => rw [hp] at hr; exact hr
  | some p =>
    rw [hp] at hr
    simp only at hr ⊢
    cases ht : p.type_ <;> rw [ht] at hr <;> simp only at hr ⊢ <;>
      first
      | exact hr
      | exact add_kingMoves_mono h b from_ ms hr

theorem collect_mono (f f' : Position → Option (List Move))
    (h : ∀ p ms, f p = some ms → f' p = some ms) (ps : List Position) (out : List Move)
    (hr : collect f ps = some out) : collect f' ps = some out := by
  rw [collect_eq_some] at hr ⊢
  obtain ⟨parts, hparts, rfl⟩ := hr
  exact ⟨parts, hparts.imp (fun {p ms} hp => h p ms hp), rfl⟩

theorem generateAllSide_mono {a a' : AttackQuery} (h : AttLE a a') (b : Board)
    (side : PieceColor) (ms : List Move) (hr : generateAllSide a b side = some ms) :
    generateAllSide a' b side = some ms := by
  refine collect_mono _ _ ?_ _ _ hr
  intro p out hp
  unfold generateSideAt at hp ⊢
  cases hg : b.getPiece p with
  | none => rw [hg] at hp; exact generateFrom_mono h b p out hp
  | some x =>
    rw [hg] at hp
    simp only at hp ⊢
    split_ifs at hp ⊢
    · exact hp
    · exact generateFrom_mono h b p out hp

theorem generateAll_mono {a a' : AttackQuery} (h : AttLE a a') (b : Board)
    (ms : List Move) (hr : generateAll a b = some ms) : generateAll a' b = some ms :=
  collect_mono _ _ (fun p out hp => generateFrom_mono h b p out hp) _ _ hr

theorem isSquareAttacked_succ (fuel : Nat) :
    AttLE (isSquareAttacked fuel) (isSquareAttacked (fuel + 1)) := by
  induction fuel with
  | zero => intro b sq c r h; exact absurd h (by simp [isSquareAttacked])
  | succ n ih =>
    intro b sq c r h
    simp only [isSquareAttacked] at h ⊢
    cases hg : generateAllSide (isSquareAttacked n) b c with
    | none => rw [hg] at h; exact absurd h (by simp)
    | some theirs =>
      rw [hg] at h
      have := generateAllSide_mono ih b c theirs hg
      simp only [isSquareAttacked] at this
      rw [this]
      exact h

/-- More fuel never changes an answer of `isSquareAttacked`. -/
theorem isSquareAttacked_mono {n n' : Nat} (hn : n ≤ n') :
    AttLE (isSquareAttacked n) (isSquareAttacked n') := by
  induction hn with
  | refl => exact attLE_refl _
  | step _ ih => exact fun b sq c r h => isSquareAttacked_succ _ b sq c r (ih b sq c r h)

theorem isKingInCheck_mono {n n' : Nat} (hn : n ≤ n') (b : Board) (color : PieceColor)
    (r : Bool) (h : b.isKingInCheck n color = some r) : b.isKingInCheck n' color = some r := by
  unfold Board.isKingInCheck at h ⊢
  simp only at h ⊢
  cases hg : generateAllSide (isSquareAttacked n) b
      (if color = PieceColor.White then PieceColor.Black else PieceColor.White) with
  | none => rw [hg] at h; exact absurd h (by simp)
  | some legal =>
    rw [hg] at h
    rw [generateAllSide_mono (isSquareAttacked_mono hn) b _ legal hg]
    exact h

theorem filterLoop_mono {n n' : Nat} (hn : n ≤ n') (b : Board) (pseudo acc legal : List Move)
    (h : filterLoop n b pseudo acc = some legal) : filterLoop n' b pseudo acc = some legal := by
  induction pseudo generalizing acc with
  | nil => exact h
  | cons m rest ih =>
    simp only [filterLoop] at h ⊢
    cases hc : (b.makeMove m).isKingInCheck n b.turn_ with
    | none => rw [hc] at h; exact absurd h (by simp)
    | some v =>
      rw [hc] at h
      rw [isKingInCheck_mono hn _ _ v hc]
      exact ih _ h

/-- More fuel never changes a result of `legalMovesFrom`. -/
theorem legalMovesFrom_mono {n n' : Nat} (hn : n ≤ n') (b : Board) (p : Position)
    (legal : List Move) (h : b.legalMovesFrom n p = some legal) :
    b.legalMovesFrom n' p = some legal := by
  unfold Board.legalMovesFrom at h ⊢
  cases hg : generateFrom (isSquareAttacked n) b p with
  | none => rw [hg] at h; exact absurd h (by simp)
  | some pseudo =>
    rw [hg] at h
    rw [generateFrom_mono (isSquareAttacked_mono hn) b p pseudo hg]
    exact filterLoop_mono hn b pseudo [] legal h

/-- More fuel never changes a result of `legalMoves`. -/
theorem legalMoves_mono {n n' : Nat} (hn : n ≤ n') (b : Board)
    (legal : List Move) (h : b.legalMoves n = some legal) :
    b.legalMoves n' = some legal := by
  unfold Board.legalMoves at h ⊢
  cases hg : generateAll (isSquareAttacked n) b with
  | none => rw [hg] at h; exact absurd h (by simp)
  | some pseudo =>
    rw [hg] at h
    rw [generateAll_mono (isSquareAttacked_mono hn) b pseudo hg]
    exact filterLoop_mono hn b pseudo [] legal h

/-- More fuel never changes a result of `tryMakeMove`. -/
theorem tryMakeMove_mono {n n' : Nat} (hn : n ≤ n') (b : Board) (move : Move)
    (r : Bool × Board) (h : b.tryMakeMove n move = some r) :
    b.tryMakeMove n' move = some r := by
  cases hl : b.legalMovesFrom n move.from_ with
  | none => simp [Board.tryMakeMove, hl] at h
  | some legal =>
    rw [tryMakeMove_of_legal n b move legal hl] at h
    rw [tryMakeMove_of_legal n' b move legal (legalMovesFrom_mono hn b _ legal hl)]
    exact h

theorem playMoves_step (fuel : Nat) (b : Board) (m : Move) (ms legal : List Move)
    (h : b.legalMovesFrom fuel m.from_ = some legal)
    (hfind : legal.find? (sameSquares m) = some m) :
    playMoves fuel b (m :: ms) = playMoves fuel (b.makeMove m) ms := by
  simp only [playMoves]
  rw [tryMakeMove_of_legal fuel b m legal h, hfind]

/-- The position `afterBc4` is reached from the starting position by five
accepted `tryMakeMove` calls. -/
theorem afterBc4_reached : playMoves 0 startBoard openingMoves = some afterBc4 := by
  unfold openingMoves
  rw [playMoves_step 0 _ _ _ [quiet 6 4 5 4, quiet 6 4 4 4] (by decide) (by decide),
    playMoves_step 0 _ _ _ [quiet 1 4 2 4, quiet 1 4 3 4] (by decide) (by decide),
    playMoves_step 0 _ _ _ [quiet 7 6 6 4, quiet 7 6 5 5, quiet 7 6 5 7] (by decide) (by decide),
    playMoves_step 0 _ _ _ [quiet 0 6 1 4, quiet 0 6 2 5, quiet 0 6 2 7] (by decide) (by decide),
    playMoves_step 0 _ _ _
      [quiet 7 5 6 4, quiet 7 5 5 3, quiet 7 5 4 2, quiet 7 5 3 1, quiet 7 5 2 0]
      (by decide) (by decide)]
  rfl

/-- In the position after 1.e4 e5 2.Nf3 Nf6 3.Bc4 the legality test of the
first move of the bishop f8 never returns: on the copy both kings are ready
to castle kingside. -/
theorem legalMovesFrom_afterBc4_none (fuel : Nat) :
    afterBc4.legalMovesFrom fuel ⟨0, 5⟩ = none := by
  have hg : generateFrom (isSquareAttacked fuel) afterBc4 ⟨0, 5⟩ =
      some (quiet 0 5 1 4 :: [quiet 0 5 2 3, quiet 0 5 3 2, quiet 0 5 4 1, quiet 0 5 5 0]) := by
    have hp : afterBc4.getPiece ⟨0, 5⟩ = some ⟨PieceType.Bishop, PieceColor.Black⟩ := by decide
    have hb : add_bishopMoves afterBc4 ⟨0, 5⟩ =
        quiet 0 5 1 4 :: [quiet 0 5 2 3, quiet 0 5 3 2, quiet 0 5 4 1, quiet 0 5 5 0] := by
      decide
    simp only [generateFrom, hp, hb]
  have hatt := (isSquareAttacked_none_of_castle_ready (afterBc4.makeMove (quiet 0 5 1 4))
    (by decide) (by decide) (by decide) (by decide) (by decide) (by decide) (by decide)
    (by decide) fuel ⟨7, 4⟩).2
  have hside := generateAllSide_white_none (isSquareAttacked fuel)
    (afterBc4.makeMove (quiet 0 5 1 4)) (by decide) (by decide) (by decide) (by decide) hatt
  have hturn : afterBc4.turn_ = PieceColor.Black := by decide
  unfold Board.legalMovesFrom
  rw [hg]
  simp only [filterLoop, Board.isKingInCheck, hturn]
  simp only [reduceCtorEq, if_false]
  rw [hside]

theorem queenFirst_append {l1 l2 : List Move} (h1 : QueenFirst l1) (h2 : QueenFirst l2) :
    QueenFirst (l1 ++ l2) := by
  intro pre m suf heq hn hq
  rcases List.append_eq_append_iff.mp heq with ⟨a', rfl, h⟩ | ⟨c', h, hc⟩
  · exact List.mem_append_right _ (h2 a' m suf h hn hq)
  · cases c' with
    | nil =>
      simp only [List.nil_append] at hc
      exact absurd (h2 [] m suf hc.symm hn hq) (by simp)
    | cons x c'' =>
      simp only [List.cons_append, List.cons.injEq] at hc
      obtain ⟨hx, _⟩ := hc
      subst hx
      exact h1 pre _ c'' h hn hq

theorem queenFirst_of_no_promotion {l : List Move}
    (h : ∀ m ∈ l, m.promotion = Promotion.None) : QueenFirst l := by
  intro pre m suf heq hn _
  exact absurd (h m (by rw [heq]; simp)) hn

theorem queenFirst_block (f t : Position) (c e k : Bool) (x y z : Promotion) :
    QueenFirst ([Promotion.Queen, x, y, z].map fun pr => (⟨f, t, pr, c, e, k⟩ : Move)) := by
  intro pre m suf heq hn hq
  simp only [List.map_cons, List.map_nil] at heq
  rcases pre with _ | ⟨p1, _ | ⟨p2, _ | ⟨p3, _ | ⟨p4, rest⟩⟩⟩⟩ <;>
    simp only [List.nil_append, List.cons_append, List.cons.injEq] at heq
  · obtain ⟨rfl, _⟩ := heq
    exact absurd rfl hq
  · obtain ⟨rfl, rfl, _⟩ := heq
    simp
  · obtain ⟨rfl, _, rfl, _⟩ := heq
    simp
  · obtain ⟨rfl, _, _, rfl, _⟩ := heq
    simp
  · obtain ⟨_, _, _, _, h⟩ := heq
    exact absurd h (by simp)

theorem stepMove_no_promotion (b : Board) (f : Position) (me : Piece) (cap : Position) :
    ∀ m ∈ stepMove b f me cap, m.promotion = Promotion.None := by
  intro m hm
  unfold stepMove at hm
  split_ifs at hm
  · simp at hm
  · split at hm
    · split_ifs at hm
      · simp at hm
      · simp only [List.mem_singleton] at hm; rw [hm]
    · simp only [List.mem_singleton] at hm; rw [hm]

theorem helper_no_promotion (b : Board) (f : Position) (me : Piece) (cap : Position) :
    ∀ m ∈ (helper b f me cap).1, m.promotion = Promotion.None := by
  intro m hm
  unfold helper at hm
  split at hm
  · split_ifs at hm
    · simp only [List.mem_singleton] at hm; rw [hm]
    · simp at hm
  · simp only [List.mem_singleton] at hm; rw [hm]

theorem ray_no_promotion (b : Board) (f : Position) (me : Piece) (cond : Position → Bool)
    (dr dc : Int) (n : Nat) (p : Position) :
    ∀ m ∈ ray b f me cond dr dc n p, m.promotion = Promotion.None := by
  induction n generalizing p with
  | zero => intro m hm; simp [ray] at hm
  | succ k ih =>
    intro m hm
    simp only [ray] at hm
    split_ifs at hm
    · rcases List.mem_append.mp hm with h | h
      · exact helper_no_promotion b f me p m h
      · exact ih _ m h
    · exact helper_no_promotion b f me p m hm
    · simp at hm

theorem add_knightMoves_no_promotion (b : Board) (f : Position) :
    ∀ m ∈ add_knightMoves b f, m.promotion = Promotion.None := by
  intro m hm
  unfold add_knightMoves at hm
  split at hm
  · simp at hm
  · obtain ⟨d, _, hd⟩ := List.mem_flatMap.mp hm
    exact stepMove_no_promotion _ _ _ _ m hd

theorem add_bishopMoves_no_promotion (b : Board) (f : Position) :
    ∀ m ∈ add_bishopMoves b f, m.promotion = Promotion.None := by
  intro m hm
  unfold add_bishopMoves at hm
  split at hm
  · simp at hm
  · simp only [List.mem_append] at hm
    rcases hm with ((h | h) | h) | h <;> exact ray_no_promotion _ _ _ _ _ _ _ _ m h

theorem add_rookMoves_no_promotion (b : Board) (f : Position) :
    ∀ m ∈ add_rookMoves b f, m.promotion = Promotion.None := by
  intro m hm
  unfold add_rookMoves at hm
  split at hm
  · simp at hm
  · simp only [List.mem_append] at hm
    rcases hm with ((h | h) | h) | h <;> exact ray_no_promotion _ _ _ _ _ _ _ _ m h

theorem add_queenMoves_no_promotion (b : Board) (f : Position) :
    ∀ m ∈ add_queenMoves b f, m.promotion = Promotion.None := by
  intro m hm
  unfold add_queenMoves at hm
  rcases List.mem_append.mp hm with h | h
  · exact add_rookMoves_no_promotion b f m h
  · exact add_bishopMoves_no_promotion b f m h

theorem castleSide_no_promotion (att : AttackQuery) (b : Board) (f : Position) (row : Int)
    (opp : PieceColor) (i : Fin 4) (between safe : List Position) (toCol : Int)
    (ms : List Move) (h : castleSide att b f row opp i between safe toCol = some ms) :
    ∀ m ∈ ms, m.promotion = Promotion.None := by
  intro m hm
  unfold castleSide at h
  split_ifs at h
  · split at h
    · exact absurd h (by simp)
    · simp only [Option.some.injEq] at h
      subst h
      simp only [List.mem_singleton] at hm
      rw [hm]
    · simp only [Option.some.injEq] at h
      subst h
      simp at hm
  · simp only [Option.some.injEq] at h
    subst h
    simp at hm
  · simp only [Option.some.injEq] at h
    subst h
    simp at hm

theorem add_kingMoves_no_promotion (att : AttackQuery) (b : Board) (f : Position)
    (ms : List Move) (h : add_kingMoves att b f = some ms) :
    ∀ m ∈ ms, m.promotion = Promotion.None := by
  intro m hm
  unfold add_kingMoves at h
  split at h
  · simp only [Option.some.injEq] at h
    subst h
    simp at hm
  · simp only at h
    split at h
    · exact absurd h (by simp)
    · rename_i ks hks
      split at h
      · exact absurd h (by simp)
      · rename_i qs hqs
        simp only [Option.some.injEq] at h
        subst h
        simp only [List.mem_append] at hm
        rcases hm with (h | h) | h
        · obtain ⟨d, _, hd⟩ := List.mem_flatMap.mp h
          exact stepMove_no_promotion _ _ _ _ m hd
        · exact castleSide_no_promotion _ _ _ _ _ _ _ _ _ _ hks m h
        · exact castleSide_no_promotion _ _ _ _ _ _ _ _ _ _ hqs m h

theorem pawnCaptures_queenFirst (b : Board) (f : Position) (me : Piece) (dir promoteRow : Int)
    (enPass : Position) (dc : Int) :
    QueenFirst (pawnCaptures b f me dir promoteRow enPass dc) := by
  unfold pawnCaptures
  dsimp only
  by_cases hb : (!inBounds ⟨f.row + dir, f.col + dc⟩) = true
  · rw [if_pos hb]
    exact queenFirst_of_no_promotion (by simp)
  · rw [if_neg hb]
    apply queenFirst_append
    · split
      · split_ifs
        · exact queenFirst_block _ _ _ _ _ _ _ _
        · exact queenFirst_of_no_promotion (by simp)
        · exact queenFirst_of_no_promotion (by simp)
      · exact queenFirst_of_no_promotion (by simp)
    · split_ifs
      · exact queenFirst_of_no_promotion (by simp)
      · exact queenFirst_of_no_promotion (by simp)

theorem add_pawnMoves_queenFirst (b : Board) (f : Position) :
    QueenFirst (add_pawnMoves b f) := by
  unfold add_pawnMoves
  cases hp : b.getPiece f with
  | none => exact queenFirst_of_no_promotion (by simp)
  | some me =>
    dsimp only
    by_cases hty : me.type_ ≠ PieceType.Pawn
    · rw [if_pos hty]
      exact queenFirst_of_no_promotion (by simp)
    · rw [if_neg hty]
      simp only [List.flatMap_cons, List.flatMap_nil, List.append_nil]
      apply queenFirst_append
      · split_ifs <;>
          first
          | exact queenFirst_block _ _ _ _ _ _ _ _
          | exact queenFirst_of_no_promotion (by simp)
      · exact queenFirst_append (pawnCaptures_queenFirst _ _ _ _ _ _ _)
          (pawnCaptures_queenFirst _ _ _ _ _ _ _)

theorem generateFrom_queenFirst (att : AttackQuery) (b : Board) (f : Position)
    (ms : List Move) (h : generateFrom att b f = some ms) : QueenFirst ms := by
  unfold generateFrom at h
  split at h
  · simp only [Option.some.injEq] at h
    subst h
    exact queenFirst_of_no_promotion (by simp)
  · split at h <;> try (simp only [Option.some.injEq] at h; subst h)
    · exact add_pawnMoves_queenFirst b f
    · exact queenFirst_of_no_promotion (add_knightMoves_no_promotion b f)
    · exact queenFirst_of_no_promotion (add_bishopMoves_no_promotion b f)
    · exact queenFirst_of_no_promotion (add_rookMoves_no_promotion b f)
    · exact queenFirst_of_no_promotion (add_queenMoves_no_promotion b f)
    · exact queenFirst_of_no_promotion (add_kingMoves_no_promotion att b f ms h)
    · exact queenFirst_of_no_promotion (by simp)

/-- The promotion type is not read by `makeMove`, only whether there is one. -/
theorem makeMove_promotion_queen (b : Board) (m : Move) (h : m.promotion ≠ Promotion.None) :
    b.makeMove { m with promotion := Promotion.Queen } = b.makeMove m := by
  have hq : Promotion.Queen ≠ Promotion.None := by decide
  unfold Board.makeMove mmPromotion
  simp only [h, hq, ne_eq, not_false_eq_true, if_true]
  rfl

theorem checkTestPasses_promotion_queen (fuel : Nat) (b : Board) (m : Move)
    (h : m.promotion ≠ Promotion.None) :
    checkTestPasses fuel b { m with promotion := Promotion.Queen } = checkTestPasses fuel b m := by
  unfold checkTestPasses
  rw [makeMove_promotion_queen b m h]

/-- The move found by the search of `tryMakeMove` never promotes to a rook,
bishop or knight. -/
theorem find_legal_no_underpromotion (fuel : Nat) (b : Board) (p : Position) (cand : Move)
    (legal : List Move) (m : Move)
    (h : b.legalMovesFrom fuel p = some legal)
    (hfind : legal.find? (sameSquares cand) = some m) :
    m.promotion = Promotion.None ∨ m.promotion = Promotion.Queen := by
  obtain ⟨pseudo, hg, _, rfl⟩ := (legalMovesFrom_eq_some fuel b p legal).mp h
  have hqf := generateFrom_queenFirst _ b p pseudo hg
  unfold specLegalMoves at hfind
  rw [List.find?_filter] at hfind
  obtain ⟨hpm, pre, suf, hsplit, hpre⟩ := List.find?_eq_some.mp hfind
  by_contra hcon
  push_neg at hcon
  have hq := hqf pre m suf hsplit hcon.1 hcon.2
  have := hpre _ hq
  simp only [Bool.and_eq_true, Bool.not_eq_true'] at hpm this
  rw [checkTestPasses_promotion_queen fuel b m hcon.1] at this
  have hs : sameSquares cand { m with promotion := Promotion.Queen } = sameSquares cand m := rfl
  rw [hs, hpm] at this
  exact absurd this (by simp)

theorem castleSide_of_no_right (att : AttackQuery) (b : Board) (f : Position) (row : Int)
    (opp : PieceColor) (i : Fin 4) (between safe : List Position) (toCol : Int)
    (h : b.castling_rights_ i = false) :
    castleSide att b f row opp i between safe toCol = some [] := by
  simp [castleSide, Board.getCastlingRights, h]

theorem add_kingMoves_of_no_rights (att : AttackQuery) (b : Board) (f : Position)
    (h : ∀ i, b.castling_rights_ i = false) : (add_kingMoves att b f).isSome = true := by
  unfold add_kingMoves
  cases b.getPiece f with
  | none => rfl
  | some me =>
    simp only [castleSide_of_no_right att b _ _ _ _ _ _ _ (h _)]
    rfl

theorem generateFrom_of_no_rights (att : AttackQuery) (b : Board) (f : Position)
    (h : ∀ i, b.castling_rights_ i = false) : (generateFrom att b f).isSome = true := by
  unfold generateFrom
  cases b.getPiece f with
  | none => rfl
  | some p =>
    simp only
    cases p.type_ <;> first | rfl | exact add_kingMoves_of_no_rights att b f h

theorem collect_isSome (f : Position → Option (List Move)) (ps : List Position)
    (h : ∀ p, (f p).isSome = true) : (collect f ps).isSome = true := by
  induction ps with
  | nil => rfl
  | cons p ps ih =>
    simp only [collect]
    obtain ⟨ms, hms⟩ := Option.isSome_iff_exists.mp (h p)
    obtain ⟨rest, hrest⟩ := Option.isSome_iff_exists.mp ih
    rw [hms, hrest]
    rfl

theorem generateAllSide_of_no_rights (att : AttackQuery) (b : Board) (side : PieceColor)
    (h : ∀ i, b.castling_rights_ i = false) : (generateAllSide att b side).isSome = true := by
  apply collect_isSome
  intro p
  unfold generateSideAt
  cases b.getPiece p with
  | none => exact generateFrom_of_no_rights att b p h
  | some x =>
    simp only
    split_ifs
    · rfl
    · exact generateFrom_of_no_rights att b p h

theorem isKingInCheck_of_no_rights (fuel : Nat) (b : Board) (color : PieceColor)
    (h : ∀ i, b.castling_rights_ i = false) : (b.isKingInCheck fuel color).isSome = true := by
  unfold Board.isKingInCheck
  simp only
  obtain ⟨ms, hms⟩ := Option.isSome_iff_exists.mp
    (generateAllSide_of_no_rights (isSquareAttacked fuel) b
      (if color = PieceColor.White then PieceColor.Black else PieceColor.White) h)
  rw [hms]
  rfl

theorem makeMove_no_rights (b : Board) (m : Move) (h : ∀ i, b.castling_rights_ i = false) :
    ∀ i, (b.makeMove m).castling_rights_ i = false := by
  intro i
  cases hc : (b.makeMove m).castling_rights_ i with
  | false => rfl
  | true =>
    have := makeMove_rights_le b m i hc
    rw [h i] at this
    exact absurd this (by simp)

theorem filterLoop_of_no_rights (fuel : Nat) (b : Board) (pseudo acc : List Move)
    (h : ∀ i, b.castling_rights_ i = false) : (filterLoop fuel b pseudo acc).isSome = true := by
  induction pseudo generalizing acc with
  | nil => rfl
  | cons m rest ih =>
    simp only [filterLoop]
    obtain ⟨v, hv⟩ := Option.isSome_iff_exists.mp
      (isKingInCheck_of_no_rights fuel (b.makeMove m) b.turn_ (makeMove_no_rights b m h))
    rw [hv]
    exact ih _

/-- On a board with no castling right left every query returns, whatever the
fuel: the castling blocks never ask for an attack test. -/
theorem returns_of_no_rights (fuel : Nat) (b : Board)
    (h : ∀ i, b.castling_rights_ i = false) :
    (∀ p, (b.legalMovesFrom fuel p).isSome = true) ∧ (b.legalMoves fuel).isSome = true ∧
    (∀ move, (b.tryMakeMove fuel move).isSome = true) ∧
    (∀ color, (b.isKingInCheck fuel color).isSome = true) := by
  have hfrom : ∀ p, (b.legalMovesFrom fuel p).isSome = true := by
    intro p
    unfold Board.legalMovesFrom
    obtain ⟨ms, hms⟩ := Option.isSome_iff_exists.mp
      (generateFrom_of_no_rights (isSquareAttacked fuel) b p h)
    rw [hms]
    exact filterLoop_of_no_rights fuel b ms [] h
  refine ⟨hfrom, ?_, ?_, fun color => isKingInCheck_of_no_rights fuel b color h⟩
  · unfold Board.legalMoves
    obtain ⟨ms, hms⟩ := Option.isSome_iff_exists.mp
      (collect_isSome _ allSquares
        (fun p => generateFrom_of_no_rights (isSquareAttacked fuel) b p h))
    unfold generateAll
    rw [hms]
    exact filterLoop_of_no_rights fuel b ms [] h
  · intro move
    obtain ⟨legal, hl⟩ := Option.isSome_iff_exists.mp (hfrom move.from_)
    rw [tryMakeMove_of_legal fuel b move legal hl]
    cases legal.find? (sameSquares move) <;> rfl

theorem ray_succ (b : Board) (f : Position) (me : Piece) (cond : Position → Bool)
    (dr dc : Int) (n : Nat) (p : Position) :
    ray b f me cond dr dc (n + 1) p =
      if cond p = true then
        if (helper b f me p).2 = true then
          (helper b f me p).1 ++ ray b f me cond dr dc n ⟨p.row + dr, p.col + dc⟩
        else (helper b f me p).1
      else [] := rfl

/-- One more unit of the step bound changes nothing once the bound exceeds a
measure that every step of the ray decreases. -/
theorem ray_succ_of_measure (b : Board) (f : Position) (me : Piece) (cond : Position → Bool)
    (dr dc : Int) (μ : Position → Nat)
    (hμ : ∀ p, cond p = true → μ ⟨p.row + dr, p.col + dc⟩ < μ p) :
    ∀ n p, μ p < n → ray b f me cond dr dc (n + 1) p = ray b f me cond dr dc n p := by
  intro n
  induction n with
  | zero => intro p hp; exact absurd hp (Nat.not_lt_zero _)
  | succ k ih =>
    intro p hp
    rw [ray_succ b f me cond dr dc (k + 1) p, ray_succ b f me cond dr dc k p]
    by_cases hc : cond p = true
    · have hlt := hμ p hc
      rw [ih ⟨p.row + dr, p.col + dc⟩ (by omega)]
    · rw [if_neg hc, if_neg hc]

theorem ray_of_measure (b : Board) (f : Position) (me : Piece) (cond : Position → Bool)
    (dr dc : Int) (μ : Position → Nat)
    (hμ : ∀ p, cond p = true → μ ⟨p.row + dr, p.col + dc⟩ < μ p)
    (n : Nat) (p : Position) (hp : μ p < 8) (hn : 8 ≤ n) :
    ray b f me cond dr dc n p = ray b f me cond dr dc 8 p := by
  induction hn with
  | refl => rfl
  | step hle ih =>
    rename_i m
    have hm : μ p < m := Nat.lt_of_lt_of_le hp hle
    rw [ray_succ_of_measure b f me cond dr dc μ hμ m p hm, ih]

/-- The step bound 8 of the ray loops is never reached from an in-bounds
origin: any larger bound gives the same moves for the four bishop rays and
the four rook rays. -/
theorem ray_bound_adequate (b : Board) (f : Position) (me : Piece) (n : Nat)
    (hf : inBounds f = true) (hn : 8 ≤ n) :
    (ray b f me Board.inBounds 1 1 n ⟨f.row + 1, f.col + 1⟩ =
      ray b f me Board.inBounds 1 1 8 ⟨f.row + 1, f.col + 1⟩ ∧
     ray b f me Board.inBounds (-1) (-1) n ⟨f.row - 1, f.col - 1⟩ =
      ray b f me Board.inBounds (-1) (-1) 8 ⟨f.row - 1, f.col - 1⟩ ∧
     ray b f me Board.inBounds (-1) 1 n ⟨f.row - 1, f.col + 1⟩ =
      ray b f me Board.inBounds (-1) 1 8 ⟨f.row - 1, f.col + 1⟩ ∧
     ray b f me Board.inBounds 1 (-1) n ⟨f.row + 1, f.col - 1⟩ =
      ray b f me Board.inBounds 1 (-1) 8 ⟨f.row + 1, f.col - 1⟩) ∧
    (ray b f me (fun p => decide (p.row < 8)) 1 0 n ⟨f.row + 1, f.col⟩ =
      ray b f me (fun p => decide (p.row < 8)) 1 0 8 ⟨f.row + 1, f.col⟩ ∧
     ray b f me (fun p => decide (0 ≤ p.row)) (-1) 0 n ⟨f.row - 1, f.col⟩ =
      ray b f me (fun p => decide (0 ≤ p.row)) (-1) 0 8 ⟨f.row - 1, f.col⟩ ∧
     ray b f me (fun p => decide (p.col < 8)) 0 1 n ⟨f.row, f.col + 1⟩ =
      ray b f me (fun p => decide (p.col < 8)) 0 1 8 ⟨f.row, f.col + 1⟩ ∧
     ray b f me (fun p => decide (0 ≤ p.col)) 0 (-1) n ⟨f.row, f.col - 1⟩ =
      ray b f me (fun p => decide (0 ≤ p.col)) 0 (-1) 8 ⟨f.row, f.col - 1⟩) := by
  rw [inBounds_iff] at hf
  obtain ⟨h1, h2, h3, h4⟩ := hf
  have down : ∀ p : Position, (8 - p.row).toNat < 8 ↔ 0 < p.row := by intro p; omega
  refine ⟨⟨?_, ?_, ?_, ?_⟩, ?_, ?_, ?_, ?_⟩
  · apply ray_of_measure b f me _ _ _ (fun p => (8 - p.row).toNat) _ n _ _ hn
    · intro p hp
      rw [inBounds_iff] at hp
      simp only
      omega
    · simp only; omega
  · apply ray_of_measure b f me _ _ _ (fun p => (p.row + 1).toNat) _ n _ _ hn
    · intro p hp
      rw [inBounds_iff] at hp
      simp only
      omega
    · simp only; omega
  · apply ray_of_measure b f me _ _ _ (fun p => (p.row + 1).toNat) _ n _ _ hn
    · intro p hp
      rw [inBounds_iff] at hp
      simp only
      omega
    · simp only; omega
  · apply ray_of_measure b f me _ _ _ (fun p => (8 - p.row).toNat) _ n _ _ hn
    · intro p hp
      rw [inBounds_iff] at hp
      simp only
      omega
    · simp only; omega
  · apply ray_of_measure b f me _ _ _ (fun p => (8 - p.row).toNat) _ n _ _ hn
    · intro p hp
      simp only [decide_eq_true_eq] at hp ⊢
      omega
    · simp only; omega
  · apply ray_of_measure b f me _ _ _ (fun p => (p.row + 1).toNat) _ n _ _ hn
    · intro p hp
      simp only [decide_eq_true_eq] at hp ⊢
      omega
    · simp only; omega
  · apply ray_of_measure b f me _ _ _ (fun p => (8 - p.col).toNat) _ n _ _ hn
    · intro p hp
      simp only [decide_eq_true_eq] at hp ⊢
      omega
    · simp only; omega
  · apply ray_of_measure b f me _ _ _ (fun p => (p.col + 1).toNat) _ n _ _ hn
    · intro p hp
      simp only [decide_eq_true_eq] at hp ⊢
      omega
    · simp only; omega

theorem rightsAre_refl (cr : Fin 4 → Bool) : RightsAre cr cr (fun _ => False) := by
  intro i; simp

theorem rightsAre_clear {x cr : Fin 4 → Bool} {T : Fin 4 → Prop} (k : Fin 4)
    (h : RightsAre x cr T) : RightsAre (clearRight x k) cr (fun i => T i ∨ i = k) := by
  intro i
  unfold clearRight
  by_cases hk : i = k
  · simp [hk]
  · simp only [hk, if_false, or_false]
    exact h i

theorem rightsAre_guard {c : Prop} [Decidable c] {x y cr : Fin 4 → Bool} {T S : Fin 4 → Prop}
    (hx : RightsAre x cr (fun i => T i ∨ S i)) (hy : RightsAre y cr T) :
    RightsAre (if c then x else y) cr (fun i => T i ∨ (c ∧ S i)) := by
  intro i
  by_cases hc : c
  · simp only [hc, if_true, true_and]
    exact hx i
  · simp only [hc, if_false, false_and, or_false]
    exact hy i

theorem rightsAre_assoc {x cr : Fin 4 → Bool} {T S R : Fin 4 → Prop}
    (h : RightsAre x cr (fun i => (T i ∨ S i) ∨ R i)) :
    RightsAre x cr (fun i => T i ∨ (S i ∨ R i)) := by
  intro i
  have := h i
  simp only [or_assoc] at this ⊢
  exact this

theorem rightsAre_congr {x cr : Fin 4 → Bool} {T T' : Fin 4 → Prop}
    (h : RightsAre x cr T) (hT : ∀ i, T i ↔ T' i) : RightsAre x cr T' := by
  intro i
  rw [h i, hT i]

theorem mmCastlingRights_are (cr : Fin 4 → Bool) (move : Move) (P : Piece) :
    RightsAre (mmCastlingRights cr move P) cr (rightTrigger move P) := by
  unfold mmCastlingRights
  lift_lets
  intro cr1 cr2 a3 cr3 a4 cr4 c1 c2 c3
  have h1 : RightsAre cr1 cr _ :=
    rightsAre_guard (c := P.type_ = PieceType.King ∧ P.color_ = PieceColor.White)
      (rightsAre_assoc (rightsAre_clear 1 (rightsAre_clear 0 (rightsAre_refl cr))))
      (rightsAre_refl cr)
  have h2 : RightsAre cr2 cr _ :=
    rightsAre_guard (c := P.type_ = PieceType.King ∧ P.color_ = PieceColor.Black)
      (rightsAre_assoc (rightsAre_clear 3 (rightsAre_clear 2 h1))) h1
  have k3 : RightsAre a3 cr _ :=
    rightsAre_guard (c := move.from_.row = 7 ∧ move.from_.col = 0) (rightsAre_clear 1 h2) h2
  have h3 : RightsAre cr3 cr _ :=
    rightsAre_guard (c := P.type_ = PieceType.Rook ∧ P.color_ = PieceColor.White)
      (rightsAre_assoc (rightsAre_guard (c := move.from_.row = 7 ∧ move.from_.col = 7)
        (rightsAre_clear 0 k3) k3)) h2
  have k4 : RightsAre a4 cr _ :=
    rightsAre_guard (c := move.from_.row = 0 ∧ move.from_.col = 0) (rightsAre_clear 3 h3) h3
  have h4 : RightsAre cr4 cr _ :=
    rightsAre_guard (c := P.type_ = PieceType.Rook ∧ P.color_ = PieceColor.Black)
      (rightsAre_assoc (rightsAre_guard (c := move.from_.row = 0 ∧ move.from_.col = 7)
        (rightsAre_clear 2 k4) k4)) h3
  have g1 : RightsAre c1 cr _ :=
    rightsAre_guard (c := move.to_.row = 7 ∧ move.to_.col = 0) (rightsAre_clear 1 h4) h4
  have g2 : RightsAre c2 cr _ :=
    rightsAre_assoc (rightsAre_guard (c := move.to_.row = 7 ∧ move.to_.col = 7)
      (rightsAre_clear 0 g1) g1)
  have g3 : RightsAre c3 cr _ :=
    rightsAre_assoc (rightsAre_guard (c := move.to_.row = 0 ∧ move.to_.col = 0)
      (rightsAre_clear 3 g2) g2)
  have g4 := rightsAre_assoc (rightsAre_guard (c := move.to_.row = 0 ∧ move.to_.col = 7)
      (rightsAre_clear 2 g3) g3)
  have hfin := rightsAre_guard (c := move.isCapture = true) g4 h4
  refine rightsAre_congr hfin ?_
  intro i
  unfold rightTrigger
  simp only [false_or]
  fin_cases i <;> simp <;> tauto

theorem makeMove_right_of_trigger (b : Board) (move : Move) (P : Piece) (i : Fin 4)
    (hP : b.getPiece move.from_ = some P) (ht : inBounds move.to_ = true)
    (h : rightTrigger move P i) : (b.makeMove move).castling_rights_ i = false := by
  have hf := inBounds_of_getPiece b _ _ hP
  have hP' : b.board_ (idx move.from_.row) (idx move.from_.col) = some P := by
    rw [getPiece_eq_cellAt b _ hf] at hP; exact hP
  rw [makeMove_of_piece b move P hf ht hP']
  cases hv : mmCastlingRights b.castling_rights_ move P i with
  | false => exact hv
  | true => exact absurd h ((mmCastlingRights_are _ move P i).mp hv).2

theorem makeMove_target_of_piece (b : Board) (move : Move) (P : Piece)
    (hP : b.getPiece move.from_ = some P) (ht : inBounds move.to_ = true) :
    (b.makeMove move).en_passant_target_ = mmEnPassantTarget move P := by
  have hf := inBounds_of_getPiece b _ _ hP
  have hP' : b.board_ (idx move.from_.row) (idx move.from_.col) = some P := by
    rw [getPiece_eq_cellAt b _ hf] at hP; exact hP
  rw [makeMove_of_piece b move P hf ht hP']

theorem forward_eq_spec (b : Board) (f : Position) (dir start last : Int)
    (hf : inBounds f = true)
    (h : (dir = -1 ∧ start = 6 ∧ last = 0) ∨ (dir = 1 ∧ start = 1 ∧ last = 7)) :
    (if inBounds ⟨f.row + dir, f.col⟩ = true ∧ b.getPiece ⟨f.row + dir, f.col⟩ = none then
        if f.row + dir = last then
          [Promotion.Queen, Promotion.Rook, Promotion.Knight, Promotion.Bishop].map
            fun pr => (⟨f, ⟨f.row + dir, f.col⟩, pr, false, false, false⟩ : Move)
        else
          ⟨f, ⟨f.row + dir, f.col⟩, Promotion.None, false, false, false⟩ ::
            (if f.row = start ∧ inBounds ⟨f.row + 2 * dir, f.col⟩ = true ∧
                b.getPiece ⟨f.row + 2 * dir, f.col⟩ = none then
              [⟨f, ⟨f.row + 2 * dir, f.col⟩, Promotion.None, false, false, false⟩]
            else [])
      else []) =
    (if inBounds ⟨f.row + dir, f.col⟩ = true ∧ b.getPiece ⟨f.row + dir, f.col⟩ = none then
        if f.row + dir = last then
          [Promotion.Queen, Promotion.Rook, Promotion.Knight, Promotion.Bishop].map
            fun pr => (⟨f, ⟨f.row + dir, f.col⟩, pr, false, false, false⟩ : Move)
        else [⟨f, ⟨f.row + dir, f.col⟩, Promotion.None, false, false, false⟩]
      else []) ++
    (if f.row = start ∧ b.getPiece ⟨f.row + dir, f.col⟩ = none ∧
          b.getPiece ⟨f.row + 2 * dir, f.col⟩ = none then
        [⟨f, ⟨f.row + 2 * dir, f.col⟩, Promotion.None, false, false, false⟩]
      else []) := by
  rw [inBounds_iff] at hf
  have hb1 : f.row = start → inBounds ⟨f.row + dir, f.col⟩ = true := by
    intro hs; rw [inBounds_iff]; simp only; omega
  have hb2 : f.row = start → inBounds ⟨f.row + 2 * dir, f.col⟩ = true := by
    intro hs; rw [inBounds_iff]; simp only; omega
  have hl : f.row + dir = last → ¬ f.row = start := by omega
  by_cases h1 : inBounds ⟨f.row + dir, f.col⟩ = true ∧ b.getPiece ⟨f.row + dir, f.col⟩ = none
  · rw [if_pos h1, if_pos h1]
    by_cases hlast : f.row + dir = last
    · rw [if_pos hlast, if_pos hlast, if_neg (fun hc => hl hlast hc.1), List.append_nil]
    · rw [if_neg hlast, if_neg hlast]
      by_cases hs : f.row = start
      · by_cases h2 : b.getPiece ⟨f.row + 2 * dir, f.col⟩ = none
        · rw [if_pos ⟨hs, hb2 hs, h2⟩, if_pos ⟨hs, h1.2, h2⟩]; rfl
        · rw [if_neg (fun hc => h2 hc.2.2), if_neg (fun hc => h2 hc.2.2)]; rfl
      · rw [if_neg (fun hc => hs hc.1), if_neg (fun hc => hs hc.1)]; rfl
  · rw [if_neg h1, if_neg h1, List.nil_append]
    rw [if_neg]
    rintro ⟨hs, he, _⟩
    exact h1 ⟨hb1 hs, he⟩

/-- The moves pushed by `add_pawnMoves` for a pawn: the forward moves, then the
captures to the left, then the captures to the right. -/
theorem add_pawnMoves_eq (b : Board) (f : Position) (me : Piece)
    (hP : b.getPiece f = some me) (hty : me.type_ = PieceType.Pawn) :
    add_pawnMoves b f =
      specPawnForward b f me.color_ ++
        (pawnCaptures b f me (pawnDir me.color_) (lastRank me.color_) b.en_passant_target_ (-1) ++
         pawnCaptures b f me (pawnDir me.color_) (lastRank me.color_) b.en_passant_target_ 1) := by
  have hf := inBounds_of_getPiece b _ _ hP
  unfold add_pawnMoves
  rw [hP]
  dsimp only
  rw [if_neg (by simp [hty])]
  simp only [List.flatMap_cons, List.flatMap_nil, List.append_nil, Board.enPassantTarget]
  unfold specPawnForward
  dsimp only
  rw [← forward_eq_spec b f (pawnDir me.color_) (startRank me.color_) (lastRank me.color_) hf
    (by unfold pawnDir startRank lastRank; by_cases hW : me.color_ = PieceColor.White <;> simp [hW])]
  rfl

theorem position_eq_iff (p q : Position) : p = q ↔ p.row = q.row ∧ p.col = q.col := by
  obtain ⟨a, c⟩ := p
  obtain ⟨a', c'⟩ := q
  simp

/-- The moves pushed by one iteration of the capture loop of `add_pawnMoves`. -/
theorem mem_pawnCaptures (b : Board) (f : Position) (me : Piece) (dir pr : Int)
    (enPass : Position) (dc : Int) (m : Move) :
    m ∈ pawnCaptures b f me dir pr enPass dc ↔
      inBounds ⟨f.row + dir, f.col + dc⟩ = true ∧
      ((∃ t, b.getPiece ⟨f.row + dir, f.col + dc⟩ = some t ∧ t.color_ ≠ me.color_ ∧
          ((f.row + dir = pr ∧
              ∃ X ∈ [Promotion.Queen, Promotion.Rook, Promotion.Bishop, Promotion.Knight],
                m = ⟨f, ⟨f.row + dir, f.col + dc⟩, X, true, false, false⟩) ∨
           (f.row + dir ≠ pr ∧
              m = ⟨f, ⟨f.row + dir, f.col + dc⟩, Promotion.None, true, false, false⟩))) ∨
       (enPass = ⟨f.row + dir, f.col + dc⟩ ∧
          m = ⟨f, ⟨f.row + dir, f.col + dc⟩, Promotion.None, true, true, false⟩)) := by
  unfold pawnCaptures
  dsimp only
  by_cases hb : inBounds ⟨f.row + dir, f.col + dc⟩ = true
  · have hep : (enPass.row = f.row + dir ∧ enPass.col = f.col + dc) ↔
        enPass = ⟨f.row + dir, f.col + dc⟩ :=
      (position_eq_iff enPass ⟨f.row + dir, f.col + dc⟩).symm
    simp only [hb, Bool.not_true, Bool.false_eq_true, if_false, true_and, List.mem_append]
    apply or_congr
    · cases ht : b.getPiece ⟨f.row + dir, f.col + dc⟩ with
      | none => simp
      | some t =>
        simp only [Option.some.injEq, exists_eq_left']
        by_cases hc : t.color_ ≠ me.color_
        · rw [if_pos hc]
          by_cases hpr : f.row + dir = pr
          · rw [if_pos hpr]
            simp only [List.mem_map, hc, ne_eq, not_false_eq_true, hpr, true_and, not_true_eq_false,
              false_and, or_false]
            constructor
            · rintro ⟨X, hX, rfl⟩; exact ⟨X, hX, rfl⟩
            · rintro ⟨X, hX, rfl⟩; exact ⟨X, hX, rfl⟩
          · rw [if_neg hpr]
            simp [hc, hpr]
        · rw [if_neg hc]
          simp [hc]
    · by_cases he : enPass.row = f.row + dir ∧ enPass.col = f.col + dc
      · rw [if_pos he]
        simp [hep.mp he]
      · rw [if_neg he]
        have : ¬ enPass = ⟨f.row + dir, f.col + dc⟩ := fun h => he (hep.mpr h)
        simp [this]
  · simp [hb]

/-- Every move pushed by the capture loop goes from the origin to the diagonal
square, which is in bounds, and is flagged as a capture and not as castling. -/
theorem pawnCaptures_shape (b : Board) (f : Position) (me : Piece) (dir pr : Int)
    (enPass : Position) (dc : Int) (m : Move)
    (hm : m ∈ pawnCaptures b f me dir pr enPass dc) :
    m.from_ = f ∧ m.to_ = ⟨f.row + dir, f.col + dc⟩ ∧ inBounds m.to_ = true ∧
      m.isCapture = true ∧ m.isCastling = false ∧
      (m.isEnpassant = true → enPass = m.to_ ∧ m.promotion = Promotion.None) := by
  obtain ⟨hb, h | h⟩ := (mem_pawnCaptures b f me dir pr enPass dc m).mp hm
  · obtain ⟨t, _, _, h | h⟩ := h
    · obtain ⟨_, X, _, rfl⟩ := h
      exact ⟨rfl, rfl, hb, rfl, rfl, fun h => absurd h (by simp)⟩
    · obtain ⟨_, rfl⟩ := h
      exact ⟨rfl, rfl, hb, rfl, rfl, fun h => absurd h (by simp)⟩
  · obtain ⟨he, rfl⟩ := h
    exact ⟨rfl, rfl, hb, rfl, rfl, fun _ => ⟨he, rfl⟩⟩

/-- The forward moves carry no flag and stay in the origin's column. -/
theorem specPawnForward_shape (b : Board) (f : Position) (c : PieceColor) (m : Move)
    (hm : m ∈ specPawnForward b f c) :
    m.from_ = f ∧ m.to_.col = f.col ∧ m.isCapture = false ∧ m.isEnpassant = false ∧
      m.isCastling = false := by
  unfold specPawnForward at hm
  dsimp only at hm
  rcases List.mem_append.mp hm with h | h
  · split_ifs at h
    · simp only [List.mem_map] at h
      obtain ⟨X, _, rfl⟩ := h
      exact ⟨rfl, rfl, rfl, rfl, rfl⟩
    · simp only [List.mem_singleton] at h
      subst h
      exact ⟨rfl, rfl, rfl, rfl, rfl⟩
    · simp at h
  · split_ifs at h
    · simp only [List.mem_singleton] at h
      subst h
      exact ⟨rfl, rfl, rfl, rfl, rfl⟩
    · simp at h

/-- The body of the step loops: one move when the target is in bounds and not
occupied by a piece of the mover's colour, none otherwise. -/
theorem stepMove_eq (b : Board) (f : Position) (me : Piece) (cap : Position) :
    stepMove b f me cap =
      if inBounds cap = true ∧ ∀ t, b.getPiece cap = some t → t.color_ ≠ me.color_ then
        [⟨f, cap, Promotion.None, (b.getPiece cap).isSome, false, false⟩]
      else [] := by
  unfold stepMove
  by_cases hb : inBounds cap = true
  · simp only [hb, Bool.not_true, Bool.false_eq_true, if_false, true_and]
    cases ht : b.getPiece cap with
    | none => simp
    | some t =>
      simp only [Option.some.injEq, forall_eq', Option.isSome_some]
      by_cases hc : t.color_ = me.color_
      · simp [hc]
      · simp [hc]
  · simp [hb]

theorem helper_flags (b : Board) (f : Position) (me : Piece) (cap : Position) (m : Move)
    (hm : m ∈ (helper b f me cap).1) :
    m.from_ = f ∧ m.isEnpassant = false ∧ m.isCastling = false := by
  unfold helper at hm
  split at hm
  · split_ifs at hm
    · simp only [List.mem_singleton] at hm; subst hm; exact ⟨rfl, rfl, rfl⟩
    · simp at hm
  · simp only [List.mem_singleton] at hm; subst hm; exact ⟨rfl, rfl, rfl⟩

theorem ray_flags (b : Board) (f : Position) (me : Piece) (cond : Position → Bool)
    (dr dc : Int) (n : Nat) (p : Position) (m : Move)
    (hm : m ∈ ray b f me cond dr dc n p) :
    m.from_ = f ∧ m.isEnpassant = false ∧ m.isCastling = false := by
  induction n generalizing p with
  | zero => simp [ray] at hm
  | succ k ih =>
    rw [ray_succ] at hm
    split_ifs at hm
    · rcases List.mem_append.mp hm with h | h
      · exact helper_flags b f me p m h
      · exact ih _ h
    · exact helper_flags b f me p m hm
    · simp at hm

theorem add_bishopMoves_flags (b : Board) (f : Position) (m : Move)
    (hm : m ∈ add_bishopMoves b f) :
    m.from_ = f ∧ m.isEnpassant = false ∧ m.isCastling = false := by
  unfold add_bishopMoves at hm
  split at hm
  · simp at hm
  · simp only [List.mem_append] at hm
    rcases hm with ((h | h) | h) | h <;> exact ray_flags _ _ _ _ _ _ _ _ m h

theorem add_rookMoves_flags (b : Board) (f : Position) (m : Move)
    (hm : m ∈ add_rookMoves b f) :
    m.from_ = f ∧ m.isEnpassant = false ∧ m.isCastling = false := by
  unfold add_rookMoves at hm
  split at hm
  · simp at hm
  · simp only [List.mem_append] at hm
    rcases hm with ((h | h) | h) | h <;> exact ray_flags _ _ _ _ _ _ _ _ m h

theorem add_queenMoves_flags (b : Board) (f : Position) (m : Move)
    (hm : m ∈ add_queenMoves b f) :
    m.from_ = f ∧ m.isEnpassant = false ∧ m.isCastling = false := by
  unfold add_queenMoves at hm
  rcases List.mem_append.mp hm with h | h
  · exact add_rookMoves_flags b f m h
  · exact add_bishopMoves_flags b f m h

theorem stepMove_flags (b : Board) (f : Position) (me : Piece) (cap : Position) (m : Move)
    (hm : m ∈ stepMove b f me cap) :
    m.from_ = f ∧ m.to_ = cap ∧ m.isEnpassant = false ∧ m.isCastling = false := by
  rw [stepMove_eq] at hm
  split_ifs at hm
  · simp only [List.mem_singleton] at hm; subst hm; exact ⟨rfl, rfl, rfl, rfl⟩
  · simp at hm

theorem add_knightMoves_flags (b : Board) (f : Position) (m : Move)
    (hm : m ∈ add_knightMoves b f) :
    m.from_ = f ∧ m.isEnpassant = false ∧ m.isCastling = false := by
  unfold add_knightMoves at hm
  split at hm
  · simp at hm
  · obtain ⟨d, _, hd⟩ := List.mem_flatMap.mp hm
    have := stepMove_flags _ _ _ _ m hd
    exact ⟨this.1, this.2.2.1, this.2.2.2⟩

theorem add_pawnMoves_flags (b : Board) (f : Position) (m : Move)
    (hm : m ∈ add_pawnMoves b f) :
    m.from_ = f ∧ m.isCastling = false ∧
      (m.isEnpassant = true → b.en_passant_target_ = m.to_ ∧ inBounds m.to_ = true) := by
  cases hP : b.getPiece f with
  | none => simp [add_pawnMoves, hP] at hm
  | some me =>
    by_cases hty : me.type_ = PieceType.Pawn
    · rw [add_pawnMoves_eq b f me hP hty] at hm
      simp only [List.mem_append] at hm
      rcases hm with h | h | h
      · have := specPawnForward_shape b f _ m h
        exact ⟨this.1, this.2.2.2.2, fun he => absurd he (by simp [this.2.2.2.1])⟩
      · have := pawnCaptures_shape _ _ _ _ _ _ _ m h
        exact ⟨this.1, this.2.2.2.2.1, fun he => ⟨(this.2.2.2.2.2 he).1, this.2.2.1⟩⟩
      · have := pawnCaptures_shape _ _ _ _ _ _ _ m h
        exact ⟨this.1, this.2.2.2.2.1, fun he => ⟨(this.2.2.2.2.2 he).1, this.2.2.1⟩⟩
    · simp [add_pawnMoves, hP, hty] at hm

theorem noneAttacked_eq_true (att : AttackQuery) (b : Board) (opp : PieceColor)
    (sqs : List Position) :
    noneAttacked att b opp sqs = some true ↔ ∀ sq ∈ sqs, att b sq opp = some false := by
  induction sqs with
  | nil => simp [noneAttacked]
  | cons sq rest ih =>
    simp only [noneAttacked, List.mem_cons, forall_eq_or_imp]
    cases ha : att b sq opp with
    | none => simp
    | some v =>
      cases v with
      | true => simp
      | false => simp [ih]

/-- What a castling block of `add_kingMoves` pushes: nothing, or the castling
move, and then all the conditions of the block hold. -/
theorem castleSide_eq_some (att : AttackQuery) (b : Board) (f : Position) (row : Int)
    (opp : PieceColor) (i : Fin 4) (between safe : List Position) (toCol : Int)
    (ms : List Move) (h : castleSide att b f row opp i between safe toCol = some ms) :
    ms = [] ∨
      (ms = [⟨f, ⟨row, toCol⟩, Promotion.None, false, false, true⟩] ∧
        f = ⟨row, 4⟩ ∧ b.castling_rights_ i = true ∧
        (∀ sq ∈ between, b.getPiece sq = none) ∧
        ∀ sq ∈ safe, att b sq opp = some false) := by
  unfold castleSide at h
  split_ifs at h with h1 h2
  · cases hn : noneAttacked att b opp safe with
    | none => rw [hn] at h; exact absurd h (by simp)
    | some v =>
      rw [hn] at h
      cases v with
      | false => simp only [Option.some.injEq] at h; exact Or.inl h.symm
      | true =>
        simp only [Option.some.injEq] at h
        refine Or.inr ⟨h.symm, ?_, h1.2.2, ?_, (noneAttacked_eq_true att b opp safe).mp hn⟩
        · exact (position_eq_iff f ⟨row, 4⟩).mpr ⟨h1.1, h1.2.1⟩
        · intro sq hsq
          have := List.all_eq_true.mp h2 sq hsq
          simpa using this
  · simp only [Option.some.injEq] at h; exact Or.inl h.symm
  · simp only [Option.some.injEq] at h; exact Or.inl h.symm

/-- The moves pushed by `add_kingMoves`: the adjacent squares, then what the
kingside block pushes, then what the queenside block pushes. -/
theorem add_kingMoves_eq_some (att : AttackQuery) (b : Board) (f : Position) (me : Piece)
    (ms : List Move) (hP : b.getPiece f = some me) (h : add_kingMoves att b f = some ms) :
    ∃ ks qs,
      castleSide att b f (homeRow me.color_) (opponentOf me.color_) (kingsideRight me.color_)
        [⟨homeRow me.color_, 5⟩, ⟨homeRow me.color_, 6⟩]
        [⟨homeRow me.color_, 4⟩, ⟨homeRow me.color_, 5⟩, ⟨homeRow me.color_, 6⟩] 6 = some ks ∧
      castleSide att b f (homeRow me.color_) (opponentOf me.color_) (queensideRight me.color_)
        [⟨homeRow me.color_, 1⟩, ⟨homeRow me.color_, 2⟩, ⟨homeRow me.color_, 3⟩]
        [⟨homeRow me.color_, 4⟩, ⟨homeRow me.color_, 3⟩, ⟨homeRow me.color_, 2⟩] 2 = some qs ∧
      ms = (kingOffsets.flatMap fun d => stepMove b f me ⟨f.row + d.1, f.col + d.2⟩) ++ ks ++ qs := by
  unfold add_kingMoves at h
  rw [hP] at h
  dsimp only at h
  unfold homeRow kingsideRight queensideRight
  split at h
  · exact absurd h (by simp)
  · rename_i ks hks
    split at h
    · exact absurd h (by simp)
    · rename_i qs hqs
      simp only [Option.some.injEq] at h
      exact ⟨ks, qs, hks, hqs, h.symm⟩

/-- The dispatch of `generateFrom` on the piece of the origin. -/
theorem generateFrom_cases (att : AttackQuery) (b : Board) (f : Position) (ms : List Move)
    (h : generateFrom att b f = some ms) :
    (b.getPiece f = none ∧ ms = []) ∨
    ∃ me, b.getPiece f = some me ∧
      ((me.type_ = PieceType.Pawn ∧ ms = add_pawnMoves b f) ∨
       (me.type_ = PieceType.Knight ∧ ms = add_knightMoves b f) ∨
       (me.type_ = PieceType.Bishop ∧ ms = add_bishopMoves b f) ∨
       (me.type_ = PieceType.Rook ∧ ms = add_rookMoves b f) ∨
       (me.type_ = PieceType.Queen ∧ ms = add_queenMoves b f) ∨
       (me.type_ = PieceType.King ∧ add_kingMoves att b f = some ms) ∨
       (me.type_ = PieceType.None ∧ ms = [])) := by
  unfold generateFrom at h
  cases hP : b.getPiece f with
  | none =>
    rw [hP] at h
    simp only [Option.some.injEq] at h
    exact Or.inl ⟨rfl, h.symm⟩
  | some me =>
    rw [hP] at h
    refine Or.inr ⟨me, rfl, ?_⟩
    dsimp only at h
    cases hty : me.type_ <;> rw [hty] at h <;> simp only [Option.some.injEq] at h
    · exact Or.inr (Or.inr (Or.inr (Or.inr (Or.inr (Or.inr ⟨rfl, h.symm⟩)))))
    · exact Or.inl ⟨rfl, h.symm⟩
    · exact Or.inr (Or.inl ⟨rfl, h.symm⟩)
    · exact Or.inr (Or.inr (Or.inl ⟨rfl, h.symm⟩))
    · exact Or.inr (Or.inr (Or.inr (Or.inl ⟨rfl, h.symm⟩)))
    · exact Or.inr (Or.inr (Or.inr (Or.inr (Or.inl ⟨rfl, h.symm⟩))))
    · exact Or.inr (Or.inr (Or.inr (Or.inr (Or.inr (Or.inl ⟨rfl, h⟩)))))

theorem castleSide_flags (att : AttackQuery) (b : Board) (f : Position) (row : Int)
    (opp : PieceColor) (i : Fin 4) (between safe : List Position) (toCol : Int)
    (ms : List Move) (h : castleSide att b f row opp i between safe toCol = some ms) (m : Move)
    (hm : m ∈ ms) : m.from_ = f ∧ m.isEnpassant = false ∧ m.isCastling = true := by
  rcases castleSide_eq_some att b f row opp i between safe toCol ms h with rfl | ⟨rfl, _⟩
  · simp at hm
  · simp only [List.mem_singleton] at hm
    subst hm
    exact ⟨rfl, rfl, rfl⟩

/-- Every generated move starts on the origin, and a generated move flagged as
en passant ends on the board's en-passant target, which is then in bounds. -/
theorem generateFrom_enpassant (att : AttackQuery) (b : Board) (f : Position) (ms : List Move)
    (h : generateFrom att b f = some ms) (m : Move) (hm : m ∈ ms) :
    m.from_ = f ∧
      (m.isEnpassant = true → b.en_passant_target_ = m.to_ ∧ inBounds m.to_ = true) := by
  have no : ∀ {x : Move}, x.from_ = f ∧ x.isEnpassant = false ∧ x.isCastling = false →
      x.from_ = f ∧
        (x.isEnpassant = true → b.en_passant_target_ = x.to_ ∧ inBounds x.to_ = true) :=
    fun hx => ⟨hx.1, fun he => absurd he (by simp [hx.2.1])⟩
  rcases generateFrom_cases att b f ms h with ⟨_, rfl⟩ | ⟨me, hP, hc⟩
  · simp at hm
  · rcases hc with ⟨_, rfl⟩ | ⟨_, rfl⟩ | ⟨_, rfl⟩ | ⟨_, rfl⟩ | ⟨_, rfl⟩ | ⟨_, hk⟩ | ⟨_, rfl⟩
    · have := add_pawnMoves_flags b f m hm
      exact ⟨this.1, this.2.2⟩
    · exact no (add_knightMoves_flags b f m hm)
    · exact no (add_bishopMoves_flags b f m hm)
    · exact no (add_rookMoves_flags b f m hm)
    · exact no (add_queenMoves_flags b f m hm)
    · obtain ⟨ks, qs, hks, hqs, rfl⟩ := add_kingMoves_eq_some att b f me ms hP hk
      simp only [List.mem_append] at hm
      rcases hm with (h | h) | h
      · obtain ⟨d, _, hd⟩ := List.mem_flatMap.mp h
        have := stepMove_flags _ _ _ _ m hd
        exact ⟨this.1, fun he => absurd he (by simp [this.2.2.1])⟩
      · have := castleSide_flags _ _ _ _ _ _ _ _ _ _ hks m h
        exact ⟨this.1, fun he => absurd he (by simp [this.2.1])⟩
      · have := castleSide_flags _ _ _ _ _ _ _ _ _ _ hqs m h
        exact ⟨this.1, fun he => absurd he (by simp [this.2.1])⟩
    · simp at hm

theorem mem_collect (f : Position → Option (List Move)) (ps : List Position) (out : List Move)
    (h : collect f ps = some out) (m : Move) (hm : m ∈ out) :
    ∃ p ∈ ps, ∃ ms, f p = some ms ∧ m ∈ ms := by
  induction ps generalizing out with
  | nil => simp only [collect, Option.some.injEq] at h; subst h; simp at hm
  | cons p ps ih =>
    simp only [collect] at h
    cases hp : f p with
    | none => rw [hp] at h; exact absurd h (by simp)
    | some ms =>
      rw [hp] at h
      cases hc : collect f ps with
      | none => rw [hc] at h; exact absurd h (by simp)
      | some rest =>
        rw [hc] at h
        simp only [Option.some.injEq] at h
        subst h
        rcases List.mem_append.mp hm with h1 | h1
        · exact ⟨p, List.mem_cons_self _ _, ms, hp, h1⟩
        · obtain ⟨q, hq, ms', hms', hm'⟩ := ih rest hc h1
          exact ⟨q, List.mem_cons_of_mem _ hq, ms', hms', hm'⟩

theorem noEnpassant_of_target (b : Board) (hT : inBounds b.en_passant_target_ = false) :
    NoEnpassantOffered b := by
  have hfrom : ∀ att f ms, generateFrom att b f = some ms → ∀ m ∈ ms, m.isEnpassant = false := by
    intro att f ms h m hm
    cases he : m.isEnpassant with
    | false => rfl
    | true =>
      have := (generateFrom_enpassant att b f ms h m hm).2 he
      rw [this.1, this.2] at hT
      exact absurd hT (by simp)
  have hall : ∀ att ms, generateAll att b = some ms → ∀ m ∈ ms, m.isEnpassant = false := by
    intro att ms h m hm
    obtain ⟨p, _, ms', hms', hm'⟩ := mem_collect _ _ _ h m hm
    exact hfrom att p ms' hms' m hm'
  refine ⟨hfrom, hall, ?_, ?_, ?_⟩
  · intro att side ms h m hm
    obtain ⟨p, _, ms', hms', hm'⟩ := mem_collect _ _ _ h m hm
    unfold generateSideAt at hms'
    split at hms'
    · split_ifs at hms'
      · simp only [Option.some.injEq] at hms'; subst hms'; simp at hm'
      · exact hfrom att p ms' hms' m hm'
    · exact hfrom att p ms' hms' m hm'
  · intro fuel f legal h m hm
    obtain ⟨pseudo, hg, _, rfl⟩ := (legalMovesFrom_eq_some fuel b f legal).mp h
    exact hfrom _ f pseudo hg m ((mem_specLegalMoves fuel b pseudo m).mp hm).1
  · intro fuel legal h m hm
    obtain ⟨pseudo, hg, _, rfl⟩ := (legalMoves_eq_some fuel b legal).mp h
    exact hall _ pseudo hg m ((mem_specLegalMoves fuel b pseudo m).mp hm).1

theorem filter_eq_nil_of (p : Move → Bool) (l : List Move) (h : ∀ m ∈ l, p m = false) :
    l.filter p = [] := by
  rw [List.filter_eq_nil_iff]
  intro m hm
  rw [h m hm]
  simp

theorem filter_eq_self_of (p : Move → Bool) (l : List Move) (h : ∀ m ∈ l, p m = true) :
    l.filter p = l := List.filter_eq_self.mpr h

/-- The capture loop on a last-rank diagonal square holding a piece of another
colour: the four promotion captures, then the en-passant capture when the
square is the en-passant target. -/
theorem pawnCaptures_last_rank (b : Board) (f : Position) (me t : Piece) (dir pr : Int)
    (enPass : Position) (dc : Int)
    (ht : b.getPiece ⟨f.row + dir, f.col + dc⟩ = some t) (hc : t.color_ ≠ me.color_)
    (hrow : f.row + dir = pr) :
    pawnCaptures b f me dir pr enPass dc =
      ([Promotion.Queen, Promotion.Rook, Promotion.Bishop, Promotion.Knight].map
        fun X => (⟨f, ⟨f.row + dir, f.col + dc⟩, X, true, false, false⟩ : Move)) ++
      (if enPass = ⟨f.row + dir, f.col + dc⟩ then
        [⟨f, ⟨f.row + dir, f.col + dc⟩, Promotion.None, true, true, false⟩] else []) := by
  have hb := inBounds_of_getPiece b _ _ ht
  unfold pawnCaptures
  dsimp only
  rw [if_neg (by simp [hb]), ht]
  dsimp only
  rw [if_pos hc, if_pos hrow]
  congr 1
  by_cases he : enPass = ⟨f.row + dir, f.col + dc⟩
  · rw [if_pos he, if_pos ((position_eq_iff _ _).mp he)]
  · rw [if_neg he, if_neg (fun h => he ((position_eq_iff enPass ⟨f.row + dir, f.col + dc⟩).mpr h))]

theorem filter_pawnCaptures_other (b : Board) (f : Position) (me : Piece) (dir pr : Int)
    (enPass : Position) (dc dc' : Int) (hne : dc ≠ dc') (q : Move → Bool) :
    (pawnCaptures b f me dir pr enPass dc').filter
      (fun m => decide (m.to_ = ⟨f.row + dir, f.col + dc⟩) && q m) = [] := by
  apply filter_eq_nil_of
  intro m hm
  have := (pawnCaptures_shape _ _ _ _ _ _ _ m hm).2.1
  have hto : ¬ m.to_ = ⟨f.row + dir, f.col + dc⟩ := by
    rw [this]
    intro h
    have h' := congrArg Position.col h
    simp only at h'
    omega
  simp [hto]

theorem filter_forward_diagonal (b : Board) (f : Position) (c : PieceColor) (d : Position)
    (hd : d.col ≠ f.col) (q : Move → Bool) :
    (specPawnForward b f c).filter (fun m => decide (m.to_ = d) && q m) = [] := by
  apply filter_eq_nil_of
  intro m hm
  have := (specPawnForward_shape b f c m hm).2.1
  have hto : ¬ m.to_ = d := by
    intro h
    rw [h] at this
    exact hd this
  simp [hto]

theorem generateFrom_pawn (att : AttackQuery) (b : Board) (f : Position) (me : Piece)
    (hP : b.getPiece f = some me) (hty : me.type_ = PieceType.Pawn) :
    generateFrom att b f = some (add_pawnMoves b f) := by
  unfold generateFrom
  rw [hP]
  dsimp only
  rw [hty]

/-- The moves of a pawn onto a diagonal square `d` of its last rank that holds
a piece of another colour, selected by destination and a further test `q`. -/
theorem filter_diagonal_last_rank (b : Board) (f : Position) (me t : Piece) (dc : Int)
    (hP : b.getPiece f = some me) (hty : me.type_ = PieceType.Pawn)
    (hrow : f.row + pawnDir me.color_ = lastRank me.color_) (hdc : dc = -1 ∨ dc = 1)
    (ht : b.getPiece (diagonalSquare f me.color_ dc) = some t) (hc : t.color_ ≠ me.color_)
    (q : Move → Bool) :
    (add_pawnMoves b f).filter
        (fun m => decide (m.to_ = diagonalSquare f me.color_ dc) && q m) =
      (([Promotion.Queen, Promotion.Rook, Promotion.Bishop, Promotion.Knight].map
        fun X => (⟨f, diagonalSquare f me.color_ dc, X, true, false, false⟩ : Move)) ++
      (if b.en_passant_target_ = diagonalSquare f me.color_ dc then
        [(⟨f, diagonalSquare f me.color_ dc, Promotion.None, true, true, false⟩ : Move)]
        else [])).filter q := by
  rw [add_pawnMoves_eq b f me hP hty]
  unfold diagonalSquare at ht ⊢
  have hfw := filter_forward_diagonal b f me.color_ ⟨f.row + pawnDir me.color_, f.col + dc⟩
    (by simp only; omega) q
  have hsame : ∀ l : List Move, (∀ m ∈ l, m.to_ = ⟨f.row + pawnDir me.color_, f.col + dc⟩) →
      l.filter (fun m => decide (m.to_ = ⟨f.row + pawnDir me.color_, f.col + dc⟩) && q m) =
        l.filter q := by
    intro l hl
    apply List.filter_congr
    intro m hm
    simp [hl m hm]
  have hcap := pawnCaptures_last_rank b f me t (pawnDir me.color_) (lastRank me.color_)
    b.en_passant_target_ dc ht hc hrow
  have hthis := hsame (pawnCaptures b f me (pawnDir me.color_) (lastRank me.color_)
    b.en_passant_target_ dc) (fun m hm => (pawnCaptures_shape _ _ _ _ _ _ _ m hm).2.1)
  rw [hcap] at hthis
  rw [List.filter_append, List.filter_append, hfw, List.nil_append]
  rcases hdc with rfl | rfl
  · rw [filter_pawnCaptures_other b f me _ _ _ (-1) 1 (by decide) q, List.append_nil, hcap, hthis]
  · rw [filter_pawnCaptures_other b f me _ _ _ 1 (-1) (by decide) q, List.nil_append, hcap, hthis]

/-- The flags of the moves of `generateFrom` for a piece that is not a king. -/
theorem generateFrom_castling_king (att : AttackQuery) (b : Board) (f : Position)
    (ms : List Move) (h : generateFrom att b f = some ms) (m : Move) (hm : m ∈ ms)
    (hc : m.isCastling = true) :
    ∃ me, b.getPiece f = some me ∧ me.type_ = PieceType.King ∧
      add_kingMoves att b f = some ms := by
  have no : ∀ {x : Move}, x.isCastling = false → x.isCastling = true → False :=
    fun h0 h1 => by rw [h0] at h1; exact absurd h1 (by decide)
  rcases generateFrom_cases att b f ms h with ⟨_, rfl⟩ | ⟨me, hP, hcases⟩
  · simp at hm
  · rcases hcases with ⟨_, rfl⟩ | ⟨_, rfl⟩ | ⟨_, rfl⟩ | ⟨_, rfl⟩ | ⟨_, rfl⟩ | ⟨hk, hk2⟩ | ⟨_, rfl⟩
    · exact (no (add_pawnMoves_flags b f m hm).2.1 hc).elim
    · exact (no (add_knightMoves_flags b f m hm).2.2 hc).elim
    · exact (no (add_bishopMoves_flags b f m hm).2.2 hc).elim
    · exact (no (add_rookMoves_flags b f m hm).2.2 hc).elim
    · exact (no (add_queenMoves_flags b f m hm).2.2 hc).elim
    · exact ⟨me, hP, hk, hk2⟩
    · simp at hm

/-- The moves of a pawn onto a diagonal-forward square are the moves of the
iteration of the capture loop for that side. -/
theorem mem_add_pawnMoves_diagonal (b : Board) (f : Position) (me : Piece)
    (hP : b.getPiece f = some me) (hty : me.type_ = PieceType.Pawn) (dc : Int)
    (hdc : dc = -1 ∨ dc = 1) (m : Move) :
    (m ∈ add_pawnMoves b f ∧ m.to_ = diagonalSquare f me.color_ dc) ↔
      m ∈ pawnCaptures b f me (pawnDir me.color_) (lastRank me.color_)
        b.en_passant_target_ dc := by
  rw [add_pawnMoves_eq b f me hP hty]
  unfold diagonalSquare
  simp only [List.mem_append]
  constructor
  · rintro ⟨h | h | h, hto⟩
    · have := (specPawnForward_shape b f _ m h).2.1
      rw [hto] at this
      simp only at this
      rcases hdc with rfl | rfl <;> omega
    · have := (pawnCaptures_shape _ _ _ _ _ _ _ m h).2.1
      rw [hto] at this
      simp only [Position.mk.injEq, true_and] at this
      have hd : dc = -1 := by omega
      rw [hd]; exact h
    · have := (pawnCaptures_shape _ _ _ _ _ _ _ m h).2.1
      rw [hto] at this
      simp only [Position.mk.injEq, true_and] at this
      have hd : dc = 1 := by omega
      rw [hd]; exact h
  · intro h
    have hto := (pawnCaptures_shape _ _ _ _ _ _ _ m h).2.1
    rcases hdc with rfl | rfl
    · exact ⟨Or.inr (Or.inl h), hto⟩
    · exact ⟨Or.inr (Or.inr h), hto⟩

/-- The moves of a run of the step loop over distinct offsets that end on the
square at offset `d`: those of the iteration for `d`, if there is one. -/
theorem filter_flatMap_stepMove (b : Board) (f : Position) (me : Piece) (d : Int × Int)
    (offs : List (Int × Int)) (hnd : offs.Nodup) :
    (offs.flatMap fun e => stepMove b f me ⟨f.row + e.1, f.col + e.2⟩).filter
        (fun m => decide (m.to_ = ⟨f.row + d.1, f.col + d.2⟩)) =
      if d ∈ offs then stepMove b f me ⟨f.row + d.1, f.col + d.2⟩ else [] := by
  induction offs with
  | nil => simp
  | cons a rest ih =>
    have hnd2 := List.nodup_cons.mp hnd
    rw [List.flatMap_cons, List.filter_append, ih hnd2.2]
    by_cases had : a = d
    · subst had
      rw [if_neg hnd2.1, List.append_nil, if_pos (List.mem_cons_self _ _)]
      apply filter_eq_self_of
      intro m hm
      simp [(stepMove_flags _ _ _ _ m hm).2.1]
    · have hnil : (stepMove b f me ⟨f.row + a.1, f.col + a.2⟩).filter
          (fun m => decide (m.to_ = ⟨f.row + d.1, f.col + d.2⟩)) = [] := by
        apply filter_eq_nil_of
        intro m hm
        rw [(stepMove_flags _ _ _ _ m hm).2.1]
        simp only [decide_eq_false_iff_not, Position.mk.injEq, not_and]
        intro h1 h2
        apply had
        apply Prod.ext <;> omega
      rw [hnil, List.nil_append]
      by_cases hd : d ∈ rest
      · rw [if_pos hd, if_pos (List.mem_cons_of_mem _ hd)]
      · rw [if_neg hd, if_neg (by simp [hd, Ne.symm had])]

theorem mem_flatMap_stepMove (b : Board) (f : Position) (me : Piece)
    (offs : List (Int × Int)) (m : Move)
    (hm : m ∈ offs.flatMap fun e => stepMove b f me ⟨f.row + e.1, f.col + e.2⟩) :
    (∃ d ∈ offs, m.to_ = ⟨f.row + d.1, f.col + d.2⟩) ∧ m.from_ = f ∧
      inBounds m.to_ = true ∧ (∀ t, b.getPiece m.to_ = some t → t.color_ ≠ me.color_) ∧
      m.isCapture = (b.getPiece m.to_).isSome ∧ m.promotion = Promotion.None ∧
      m.isEnpassant = false ∧ m.isCastling = false := by
  obtain ⟨d, hd, hmd⟩ := List.mem_flatMap.mp hm
  rw [stepMove_eq] at hmd
  split_ifs at hmd with hc
  · simp only [List.mem_singleton] at hmd
    subst hmd
    exact ⟨⟨d, hd, rfl⟩, rfl, hc.1, hc.2, rfl, rfl, rfl, rfl⟩
  · simp at hmd

theorem generateFrom_knight (att : AttackQuery) (b : Board) (f : Position) (me : Piece)
    (hP : b.getPiece f = some me) (hty : me.type_ = PieceType.Knight) :
    generateFrom att b f = some (add_knightMoves b f) := by
  unfold generateFrom
  rw [hP]
  dsimp only
  rw [hty]

theorem generateFrom_king (att : AttackQuery) (b : Board) (f : Position) (me : Piece)
    (hP : b.getPiece f = some me) (hty : me.type_ = PieceType.King) :
    generateFrom att b f = add_kingMoves att b f := by
  unfold generateFrom
  rw [hP]
  dsimp only
  rw [hty]

/-- The non-castling moves returned for a king are those of its adjacent-square
loop. -/
theorem add_kingMoves_adjacent (att : AttackQuery) (b : Board) (f : Position) (me : Piece)
    (ms : List Move) (hP : b.getPiece f = some me) (h : add_kingMoves att b f = some ms) :
    ms.filter (fun m => !m.isCastling) =
      kingOffsets.flatMap fun e => stepMove b f me ⟨f.row + e.1, f.col + e.2⟩ := by
  obtain ⟨ks, qs, hK, hQ, rfl⟩ := add_kingMoves_eq_some att b f me ms hP h
  rw [List.filter_append, List.filter_append,
    filter_eq_self_of _ _ (fun m hm => by
      simp [(mem_flatMap_stepMove b f me kingOffsets m hm).2.2.2.2.2.2.2]),
    filter_eq_nil_of _ ks (fun m hm => by
      simp [(castleSide_flags _ _ _ _ _ _ _ _ _ _ hK m hm).2.2]),
    filter_eq_nil_of _ qs (fun m hm => by
      simp [(castleSide_flags _ _ _ _ _ _ _ _ _ _ hQ m hm).2.2]),
    List.append_nil, List.append_nil]

theorem mem_knightOffsets (d : Int × Int) :
    d ∈ knightOffsets ↔
      (d.1.natAbs = 1 ∧ d.2.natAbs = 2) ∨ (d.1.natAbs = 2 ∧ d.2.natAbs = 1) := by
  obtain ⟨x, y⟩ := d
  unfold knightOffsets
  simp only [List.mem_cons, Prod.mk.injEq, List.mem_singleton, List.mem_nil_iff, or_false]
  omega

theorem mem_kingOffsets (d : Int × Int) :
    d ∈ kingOffsets ↔ d.1.natAbs ≤ 1 ∧ d.2.natAbs ≤ 1 ∧ d ≠ (0, 0) := by
  obtain ⟨x, y⟩ := d
  unfold kingOffsets
  simp only [List.mem_cons, Prod.mk.injEq, List.mem_singleton, List.mem_nil_iff, or_false,
    ne_eq, not_and]
  omega

theorem noneAttacked_isSome (att : AttackQuery) (b : Board) (opp : PieceColor)
    (sqs : List Position) (h : ∀ sq, (att b sq opp).isSome = true) :
    (noneAttacked att b opp sqs).isSome = true := by
  induction sqs with
  | nil => rfl
  | cons sq rest ih =>
    unfold noneAttacked
    have := h sq
    cases ha : att b sq opp with
    | none => rw [ha] at this; exact absurd this (by decide)
    | some v => cases v <;> simp [ih]

theorem castleSide_isSome (att : AttackQuery) (b : Board) (f : Position) (row : Int)
    (opp : PieceColor) (i : Fin 4) (between safe : List Position) (toCol : Int)
    (h : ∀ sq, (att b sq opp).isSome = true) :
    (castleSide att b f row opp i between safe toCol).isSome = true := by
  unfold castleSide
  have := noneAttacked_isSome att b opp safe h
  split_ifs
  · cases hn : noneAttacked att b opp safe with
    | none => rw [hn] at this; exact absurd this (by decide)
    | some v => cases v <;> rfl
  · rfl
  · rfl

/-- The king's generator returns whenever the attack query answers. -/
theorem add_kingMoves_isSome (att : AttackQuery) (b : Board) (f : Position) (me : Piece)
    (hP : b.getPiece f = some me)
    (h : ∀ sq, (att b sq (opponentOf me.color_)).isSome = true) :
    (add_kingMoves att b f).isSome = true := by
  unfold add_kingMoves
  rw [hP]
  dsimp only
  have h1 := castleSide_isSome att b f (if me.color_ = PieceColor.White then 7 else 0)
    (opponentOf me.color_) (if me.color_ = PieceColor.White then 0 else 2)
    [⟨if me.color_ = PieceColor.White then 7 else 0, 5⟩,
      ⟨if me.color_ = PieceColor.White then 7 else 0, 6⟩]
    [⟨if me.color_ = PieceColor.White then 7 else 0, 4⟩,
      ⟨if me.color_ = PieceColor.White then 7 else 0, 5⟩,
      ⟨if me.color_ = PieceColor.White then 7 else 0, 6⟩] 6 h
  have h2 := castleSide_isSome att b f (if me.color_ = PieceColor.White then 7 else 0)
    (opponentOf me.color_) (if me.color_ = PieceColor.White then 1 else 3)
    [⟨if me.color_ = PieceColor.White then 7 else 0, 1⟩,
      ⟨if me.color_ = PieceColor.White then 7 else 0, 2⟩,
      ⟨if me.color_ = PieceColor.White then 7 else 0, 3⟩]
    [⟨if me.color_ = PieceColor.White then 7 else 0, 4⟩,
      ⟨if me.color_ = PieceColor.White then 7 else 0, 3⟩,
      ⟨if me.color_ = PieceColor.White then 7 else 0, 2⟩] 2 h
  split
  · rename_i hk; rw [hk] at h1; exact absurd h1 (by decide)
  · split
    · rename_i hq; rw [hq] at h2; exact absurd h2 (by decide)
    · rfl

theorem idx_val (i : Fin 8) : idx (i.val : Int) = i := by
  apply Fin.ext
  simp only [idx, Fin.ofNat, Int.toNat_ofNat]
  omega

/-- The board is cleared and nothing else is changed when `parseFEN` returns
early. -/
theorem parseFEN_of_bad_ranks (b : Board) (fen : List Char)
    (h : (splitRanks [] ((readToken fen).1.getD [])).length ≠ 8) :
    b.parseFEN fen = { b with board_ := fun _ _ => none } := by
  unfold Board.parseFEN
  cases hr : readToken fen with
  | mk tok rest =>
    rw [hr] at h
    cases tok with
    | none => rfl
    | some placement =>
      simp only [Option.getD_some] at h
      simp only [h, ne_eq, not_false_eq_true, if_true]

/-- The generator dispatch returns, whatever the attack query, on a square that
does not hold a king. -/
theorem generateFrom_isSome_of_not_king (att : AttackQuery) (b : Board) (f : Position)
    (h : ∀ piece, b.getPiece f = some piece → piece.type_ ≠ PieceType.King) :
    (generateFrom att b f).isSome = true := by
  unfold generateFrom
  cases hP : b.getPiece f with
  | none => rfl
  | some p =>
    have := h p hP
    dsimp only
    cases hty : p.type_ <;> first | rfl | exact absurd hty this

/-- The generator dispatch returns on every square when the attack query
answers for the colour opposed to the piece on the square. -/
theorem generateFrom_isSome_of_att (att : AttackQuery) (b : Board) (f : Position)
    (h : ∀ piece, b.getPiece f = some piece →
      ∀ sq, (att b sq (opponentOf piece.color_)).isSome = true) :
    (generateFrom att b f).isSome = true := by
  unfold generateFrom
  cases hP : b.getPiece f with
  | none => rfl
  | some p =>
    dsimp only
    cases hty : p.type_ <;> first | rfl | exact add_kingMoves_isSome att b f p hP (h p hP)

/-- A side without a king has its pseudo-legal moves generated whatever the
attack query does. -/
theorem generateAllSide_isSome_of_no_king (att : AttackQuery) (b : Board) (side : PieceColor)
    (h : ∀ p piece, b.getPiece p = some piece →
      ¬ (piece.type_ = PieceType.King ∧ piece.color_ = side)) :
    (generateAllSide att b side).isSome = true := by
  apply collect_isSome
  intro p
  unfold generateSideAt
  cases hP : b.getPiece p with
  | none =>
    apply generateFrom_isSome_of_not_king
    intro piece hpiece
    rw [hP] at hpiece
    exact absurd hpiece (by simp)
  | some x =>
    dsimp only
    split_ifs with hc
    · rfl
    · apply generateFrom_isSome_of_not_king
      intro piece hpiece
      rw [hP] at hpiece
      simp only [Option.some.injEq] at hpiece
      subst hpiece
      intro hk
      exact h p x hP ⟨hk, by simpa using hc⟩

theorem generateAllSide_isSome_of_att (att : AttackQuery) (b : Board) (side : PieceColor)
    (h : ∀ sq, (att b sq (opponentOf side)).isSome = true) :
    (generateAllSide att b side).isSome = true := by
  apply collect_isSome
  intro p
  unfold generateSideAt
  cases hP : b.getPiece p with
  | none =>
    apply generateFrom_isSome_of_not_king
    intro piece hpiece
    rw [hP] at hpiece
    exact absurd hpiece (by simp)
  | some x =>
    dsimp only
    split_ifs with hc
    · rfl
    · apply generateFrom_isSome_of_att
      intro piece hpiece sq
      rw [hP] at hpiece
      simp only [Option.some.injEq] at hpiece
      subst hpiece
      have hx : x.color_ = side := by simpa using hc
      rw [hx]
      exact h sq

theorem firstKing_eq_none (b : Board) (color : PieceColor) :
    firstKing b color = none ↔
      ∀ p piece, b.getPiece p = some piece →
        ¬ (piece.type_ = PieceType.King ∧ piece.color_ = color) := by
  unfold firstKing
  rw [List.find?_eq_none]
  constructor
  · intro h p piece hp hk
    have hin : p ∈ allSquares := (allSquares_spec.2.2 p).mpr (inBounds_of_getPiece b p piece hp)
    have := h p hin
    simp [isKingOf, hp, hk.1, hk.2] at this
  · intro h p _
    unfold isKingOf
    cases hp : b.getPiece p with
    | none => simp
    | some piece =>
      have := h p piece hp
      simp only [decide_eq_true_eq]
      tauto

theorem ray_pos_shift (p : Position) (dr dc : Int) (j : Nat) :
    (⟨p.row + dr + (j : Int) * dr, p.col + dc + (j : Int) * dc⟩ : Position) =
      ⟨p.row + ((j + 1 : Nat) : Int) * dr, p.col + ((j + 1 : Nat) : Int) * dc⟩ := by
  congr 1 <;> push_cast <;> ring

theorem ray_pos_zero (p : Position) (dr dc : Int) :
    (⟨p.row + ((0 : Nat) : Int) * dr, p.col + ((0 : Nat) : Int) * dc⟩ : Position) = p := by
  simp

/-- The moves pushed by a ray loop, by the number `k` of squares it passed
before the destination. -/
theorem mem_ray (b : Board) (f : Position) (me : Piece) (cond : Position → Bool)
    (dr dc : Int) (m : Move) (n : Nat) (p : Position) :
    m ∈ ray b f me cond dr dc n p ↔
      ∃ k, k < n ∧
        (∀ j, j ≤ k → cond ⟨p.row + (j : Int) * dr, p.col + (j : Int) * dc⟩ = true) ∧
        (∀ j, j < k → b.getPiece ⟨p.row + (j : Int) * dr, p.col + (j : Int) * dc⟩ = none) ∧
        (∀ t, b.getPiece ⟨p.row + (k : Int) * dr, p.col + (k : Int) * dc⟩ = some t →
          t.color_ ≠ me.color_) ∧
        m = ⟨f, ⟨p.row + (k : Int) * dr, p.col + (k : Int) * dc⟩, Promotion.None,
          (b.getPiece ⟨p.row + (k : Int) * dr, p.col + (k : Int) * dc⟩).isSome, false, false⟩ := by
  induction n generalizing p with
  | zero => simp [ray]
  | succ n ih =>
    rw [ray_succ]
    by_cases hc : cond p = true
    · rw [if_pos hc]
      cases hP : b.getPiece p with
      | none =>
        have hh : helper b f me p = ([⟨f, p, Promotion.None, false, false, false⟩], true) := by
          simp [helper, hP]
        rw [hh]
        simp only [if_true, List.singleton_append, List.mem_cons]
        rw [ih ⟨p.row + dr, p.col + dc⟩]
        simp only [ray_pos_shift]
        constructor
        · rintro (rfl | ⟨k, hk, h1, h2, h3, h4⟩)
          · refine ⟨0, Nat.succ_pos _, ?_, ?_, ?_, ?_⟩
            · intro j hj
              obtain rfl : j = 0 := by omega
              rw [ray_pos_zero]; exact hc
            · intro j hj; omega
            · intro t ht
              rw [ray_pos_zero, hP] at ht
              exact absurd ht (by simp)
            · rw [ray_pos_zero, hP]; rfl
          · refine ⟨k + 1, by omega, ?_, ?_, h3, h4⟩
            · intro j hj
              cases j with
              | zero => rw [ray_pos_zero]; exact hc
              | succ i => exact h1 i (by omega)
            · intro j hj
              cases j with
              | zero => rw [ray_pos_zero]; exact hP
              | succ i => exact h2 i (by omega)
        · rintro ⟨k, hk, h1, h2, h3, h4⟩
          cases k with
          | zero =>
            left
            rw [h4, ray_pos_zero, hP]; rfl
          | succ i =>
            right
            exact ⟨i, by omega, fun j hj => h1 (j + 1) (by omega),
              fun j hj => h2 (j + 1) (by omega), h3, h4⟩
      | some t =>
        have hk0 : ∀ k : Nat,
            (∀ j, j < k → b.getPiece ⟨p.row + (j : Int) * dr, p.col + (j : Int) * dc⟩ = none) →
            k = 0 := by
          intro k h
          cases k with
          | zero => rfl
          | succ i =>
            have := h 0 (Nat.succ_pos _)
            rw [ray_pos_zero, hP] at this
            exact absurd this (by simp)
        by_cases hcol : t.color_ = me.color_
        · have hh : helper b f me p = ([], false) := by
            simp [helper, hP, hcol]
          rw [hh]
          simp only [Bool.false_eq_true, if_false, List.not_mem_nil, false_iff]
          rintro ⟨k, hk, h1, h2, h3, h4⟩
          obtain rfl := hk0 k h2
          rw [ray_pos_zero] at h3
          exact h3 t hP hcol
        · have hh : helper b f me p = ([⟨f, p, Promotion.None, true, false, false⟩], false) := by
            simp [helper, hP, hcol]
          rw [hh]
          simp only [Bool.false_eq_true, if_false, List.mem_singleton]
          constructor
          · rintro rfl
            refine ⟨0, Nat.succ_pos _, ?_, ?_, ?_, ?_⟩
            · intro j hj
              obtain rfl : j = 0 := by omega
              rw [ray_pos_zero]; exact hc
            · intro j hj; omega
            · intro t' ht'
              rw [ray_pos_zero, hP] at ht'
              simp only [Option.some.injEq] at ht'
              subst ht'
              exact hcol
            · rw [ray_pos_zero, hP]; rfl
          · rintro ⟨k, hk, h1, h2, h3, h4⟩
            obtain rfl := hk0 k h2
            rw [h4, ray_pos_zero, hP]; rfl
    · rw [if_neg hc]
      simp only [List.not_mem_nil, false_iff]
      rintro ⟨k, _, h, _⟩
      have := h 0 (Nat.zero_le _)
      rw [ray_pos_zero] at this
      exact hc this

/-- The destinations of the moves pushed by a ray loop are the first squares
of the ray, each once and in order. -/
theorem ray_destinations (b : Board) (f : Position) (me : Piece) (cond : Position → Bool)
    (dr dc : Int) (n : Nat) (p : Position) :
    ∃ k, k ≤ n ∧ (ray b f me cond dr dc n p).map (fun m => m.to_) =
      (List.range k).map fun j => ⟨p.row + (j : Int) * dr, p.col + (j : Int) * dc⟩ := by
  induction n generalizing p with
  | zero => exact ⟨0, le_refl _, rfl⟩
  | succ n ih =>
    rw [ray_succ]
    by_cases hc : cond p = true
    · rw [if_pos hc]
      cases hP : b.getPiece p with
      | none =>
        have hh : helper b f me p = ([⟨f, p, Promotion.None, false, false, false⟩], true) := by
          simp [helper, hP]
        rw [hh]
        obtain ⟨k, hk, hmap⟩ := ih ⟨p.row + dr, p.col + dc⟩
        refine ⟨k + 1, by omega, ?_⟩
        simp only [if_true, List.singleton_append, List.map_cons, hmap, List.range_succ_eq_map,
          List.map_map, ray_pos_zero]
        congr 1
        apply List.map_congr_left
        intro j _
        exact ray_pos_shift p dr dc j
      | some t =>
        by_cases hcol : t.color_ = me.color_
        · have hh : helper b f me p = ([], false) := by
            simp [helper, hP, hcol]
          rw [hh]
          exact ⟨0, Nat.zero_le _, rfl⟩
        · have hh : helper b f me p = ([⟨f, p, Promotion.None, true, false, false⟩], false) := by
            simp [helper, hP, hcol]
          rw [hh]
          refine ⟨1, by omega, ?_⟩
          simp [List.range_succ_eq_map]
    · rw [if_neg hc]
      exact ⟨0, Nat.zero_le _, rfl⟩

/-- Two loop conditions that agree on the squares of a ray give the same
moves. -/
theorem ray_cond_congr (b : Board) (f : Position) (me : Piece) (cond cond' : Position → Bool)
    (dr dc : Int) (n : Nat) (p : Position)
    (h : ∀ j : Nat, cond ⟨p.row + (j : Int) * dr, p.col + (j : Int) * dc⟩ =
      cond' ⟨p.row + (j : Int) * dr, p.col + (j : Int) * dc⟩) :
    ray b f me cond dr dc n p = ray b f me cond' dr dc n p := by
  induction n generalizing p with
  | zero => rfl
  | succ n ih =>
    rw [ray_succ, ray_succ]
    have h0 := h 0
    rw [ray_pos_zero] at h0
    rw [h0, ih ⟨p.row + dr, p.col + dc⟩ (fun j => by
      have := h (j + 1)
      rw [← ray_pos_shift] at this
      exact this)]

theorem add_bishopMoves_eq_flatMap (b : Board) (f : Position) (me : Piece)
    (hP : b.getPiece f = some me) :
    add_bishopMoves b f = bishopDirs.flatMap (slideRay b f me) := by
  unfold add_bishopMoves
  rw [hP]
  simp only [bishopDirs, slideRay, List.flatMap_cons, List.flatMap_nil, List.append_nil,
    List.append_assoc, sub_eq_add_neg]

theorem add_rookMoves_eq_flatMap (b : Board) (f : Position) (me : Piece)
    (hP : b.getPiece f = some me) :
    add_rookMoves b f = rookDirs.flatMap (slideRay b f me) := by
  have hf := (inBounds_iff f).mp (inBounds_of_getPiece b f me hP)
  unfold add_rookMoves
  rw [hP]
  simp only [rookDirs, slideRay, List.flatMap_cons, List.flatMap_nil, List.append_nil,
    List.append_assoc, sub_eq_add_neg, add_zero]
  have e1 := ray_cond_congr b f me (fun p => decide (p.row < 8)) Board.inBounds 1 0 8
    ⟨f.row + 1, f.col⟩ (fun j => by
      simp only [inBounds, mul_zero, add_zero, mul_one]
      have h1 : (0 : Int) ≤ f.row + 1 + j := by omega
      simp [h1, hf.2.2.1, hf.2.2.2])
  have e2 := ray_cond_congr b f me (fun p => decide (0 ≤ p.row)) Board.inBounds (-1) 0 8
    ⟨f.row + -1, f.col⟩ (fun j => by
      simp only [inBounds, mul_zero, add_zero, mul_neg, mul_one]
      have h1 : f.row + -1 + -(j : Int) < 8 := by omega
      simp [h1, hf.2.2.1, hf.2.2.2])
  have e3 := ray_cond_congr b f me (fun p => decide (p.col < 8)) Board.inBounds 0 1 8
    ⟨f.row, f.col + 1⟩ (fun j => by
      simp only [inBounds, mul_zero, add_zero, mul_one]
      have h1 : (0 : Int) ≤ f.col + 1 + j := by omega
      simp [h1, hf.1, hf.2.1])
  have e4 := ray_cond_congr b f me (fun p => decide (0 ≤ p.col)) Board.inBounds 0 (-1) 8
    ⟨f.row, f.col + -1⟩ (fun j => by
      simp only [inBounds, mul_zero, add_zero, mul_neg, mul_one]
      have h1 : f.col + -1 + -(j : Int) < 8 := by omega
      simp [h1, hf.1, hf.2.1])
  rw [e1, e2, e3, e4]

theorem add_queenMoves_eq_flatMap (b : Board) (f : Position) (me : Piece)
    (hP : b.getPiece f = some me) :
    add_queenMoves b f = (rookDirs ++ bishopDirs).flatMap (slideRay b f me) := by
  unfold add_queenMoves
  rw [add_rookMoves_eq_flatMap b f me hP, add_bishopMoves_eq_flatMap b f me hP,
    List.flatMap_append]

/-- On a ray from a square of the board, a square of the board is at most 7
steps away and the squares before it are on the board. -/
theorem slide_bounds (f : Position) (d : Int × Int) (k : Nat) (hf : inBounds f = true)
    (hd : d ∈ rookDirs ++ bishopDirs) (hin : inBounds (slideTo f d k) = true) :
    k ≤ 7 ∧ ∀ j, j ≤ k → inBounds (slideTo f d j) = true := by
  rw [inBounds_iff] at hf hin
  simp only [rookDirs, bishopDirs, List.cons_append, List.nil_append, List.mem_cons,
    List.mem_singleton, List.mem_nil_iff, or_false] at hd
  unfold slideTo at hin
  simp only at hin
  constructor
  · rcases hd with rfl | rfl | rfl | rfl | rfl | rfl | rfl | rfl <;> simp only at hin <;> omega
  · intro j hj
    rw [inBounds_iff]
    unfold slideTo
    simp only
    have hj' : (j : Int) ≤ k := by exact_mod_cast hj
    rcases hd with rfl | rfl | rfl | rfl | rfl | rfl | rfl | rfl <;> simp only at hin ⊢ <;> omega

/-- Two squares on rays from the same origin coincide only if they are the
same number of steps away in the same direction. -/
theorem slide_inj (f : Position) (d e : Int × Int) (k l : Nat)
    (hd : d ∈ rookDirs ++ bishopDirs) (he : e ∈ rookDirs ++ bishopDirs)
    (hk : 1 ≤ k) (hl : 1 ≤ l) (h : slideTo f d k = slideTo f e l) : d = e ∧ k = l := by
  simp only [rookDirs, bishopDirs, List.cons_append, List.nil_append, List.mem_cons,
    List.mem_singleton, List.mem_nil_iff, or_false] at hd he
  unfold slideTo at h
  simp only [Position.mk.injEq] at h
  obtain ⟨h1, h2⟩ := h
  rcases hd with rfl | rfl | rfl | rfl | rfl | rfl | rfl | rfl <;>
    rcases he with rfl | rfl | rfl | rfl | rfl | rfl | rfl | rfl <;>
    simp only at h1 h2 <;> constructor <;> first | rfl | omega

theorem slideTo_succ (f : Position) (d : Int × Int) (j : Nat) :
    (⟨f.row + d.1 + (j : Int) * d.1, f.col + d.2 + (j : Int) * d.2⟩ : Position) =
      slideTo f d (j + 1) :=
  ray_pos_shift f d.1 d.2 j

/-- The moves of one ray of a sliding piece, in the words of the
specification. -/
theorem mem_slideRay (b : Board) (f : Position) (me : Piece) (d : Int × Int) (m : Move)
    (hf : inBounds f = true) (hd : d ∈ rookDirs ++ bishopDirs) :
    m ∈ slideRay b f me d ↔ ∃ k, SlideOK b f me d k ∧ m = slideMove b f d k := by
  unfold slideRay
  rw [mem_ray]
  simp only [slideTo_succ]
  constructor
  · rintro ⟨k, _, h1, h2, h3, h4⟩
    refine ⟨k + 1, ⟨by omega, h1 k (le_refl _), ?_, h3⟩, h4⟩
    intro j hj1 hjk
    obtain ⟨i, rfl⟩ : ∃ i, j = i + 1 := ⟨j - 1, by omega⟩
    exact h2 i (by omega)
  · rintro ⟨k, ⟨hk1, hin, hempty, hcol⟩, hm⟩
    obtain ⟨i, rfl⟩ : ∃ i, k = i + 1 := ⟨k - 1, by omega⟩
    have hb := slide_bounds f d (i + 1) hf hd hin
    exact ⟨i, by omega, fun j hj => hb.2 (j + 1) (by omega),
      fun j hj => hempty (j + 1) (by omega) (by omega), hcol, hm⟩

/-- The destinations of one ray are squares at least one step away on it,
each at most once. -/
theorem slideRay_destinations (b : Board) (f : Position) (me : Piece) (d : Int × Int)
    (hd : d ∈ rookDirs ++ bishopDirs) :
    ((slideRay b f me d).map fun m => m.to_).Nodup ∧
    ∀ t ∈ (slideRay b f me d).map (fun m => m.to_), ∃ k, 1 ≤ k ∧ t = slideTo f d k := by
  unfold slideRay
  obtain ⟨k, _, hmap⟩ := ray_destinations b f me Board.inBounds d.1 d.2 8
    ⟨f.row + d.1, f.col + d.2⟩
  rw [hmap]
  simp only [slideTo_succ]
  constructor
  · apply List.Nodup.map_on _ (List.nodup_range k)
    intro x _ y _ hxy
    have := (slide_inj f d d (x + 1) (y + 1) hd hd (by omega) (by omega) hxy).2
    omega
  · intro t ht
    obtain ⟨j, _, rfl⟩ := List.mem_map.mp ht
    exact ⟨j + 1, by omega, rfl⟩

/-- The moves of the rays of a list of distinct directions: membership in the
words of the specification, and no destination twice. -/
theorem flatMap_slideRay (b : Board) (f : Position) (me : Piece) (dirs : List (Int × Int))
    (hf : inBounds f = true) (hsub : ∀ d ∈ dirs, d ∈ rookDirs ++ bishopDirs)
    (hnd : dirs.Nodup) :
    (∀ m, m ∈ dirs.flatMap (slideRay b f me) ↔
      ∃ d ∈ dirs, ∃ k, SlideOK b f me d k ∧ m = slideMove b f d k) ∧
    ((dirs.flatMap (slideRay b f me)).map fun m => m.to_).Nodup := by
  constructor
  · intro m
    rw [List.mem_flatMap]
    constructor
    · rintro ⟨d, hd, hm⟩
      exact ⟨d, hd, (mem_slideRay b f me d m hf (hsub d hd)).mp hm⟩
    · rintro ⟨d, hd, hk⟩
      exact ⟨d, hd, (mem_slideRay b f me d m hf (hsub d hd)).mpr hk⟩
  · rw [List.map_flatMap, List.nodup_flatMap]
    constructor
    · intro d hd
      exact (slideRay_destinations b f me d (hsub d hd)).1
    · apply List.Pairwise.imp_of_mem _ hnd
      intro d e hd he hne t htd hte
      obtain ⟨k, hk, rfl⟩ := (slideRay_destinations b f me d (hsub d hd)).2 t htd
      obtain ⟨l, hl, heq⟩ := (slideRay_destinations b f me e (hsub e he)).2 _ hte
      exact hne (slide_inj f d e k l (hsub d hd) (hsub e he) hk hl heq).1

theorem generateFrom_slider (att : AttackQuery) (b : Board) (f : Position) (me : Piece)
    (hP : b.getPiece f = some me) :
    (me.type_ = PieceType.Rook → generateFrom att b f = some (add_rookMoves b f)) ∧
    (me.type_ = PieceType.Bishop → generateFrom att b f = some (add_bishopMoves b f)) ∧
    (me.type_ = PieceType.Queen → generateFrom att b f = some (add_queenMoves b f)) := by
  unfold generateFrom
  rw [hP]
  dsimp only
  refine ⟨fun h => ?_, fun h => ?_, fun h => ?_⟩ <;> rw [h]

theorem cell_eq_none_of_not_mem (b : ArrayBoard) (p : Position) (hp : p ∉ allSquares) :
    b.cell p.row p.col = none := by
  unfold ArrayBoard.cell
  have : ArrayBoard.inRange p.row p.col = false := by
    cases h : ArrayBoard.inRange p.row p.col with
    | false => rfl
    | true =>
      exfalso
      apply hp
      rw [allSquares_spec.2.2 p]
      exact h
  rw [this]
  rfl

theorem countP_eq_one_iff {α : Type} (P : α → Bool) (l : List α) (hnd : l.Nodup) :
    l.countP P = 1 ↔ ∃ p ∈ l, P p = true ∧ ∀ q ∈ l, q ≠ p → P q = false := by
  induction l with
  | nil => simp
  | cons a l ih =>
    have hnd' := List.nodup_cons.mp hnd
    rw [List.countP_cons]
    by_cases ha : P a = true
    · simp only [ha, if_true, add_left_eq_self, List.countP_eq_zero]
      constructor
      · intro h
        refine ⟨a, List.mem_cons_self _ _, ha, ?_⟩
        intro q hq hne
        rcases List.mem_cons.mp hq with rfl | hq'
        · exact absurd rfl hne
        · have := h q hq'
          simpa using this
      · rintro ⟨p, hp, hPp, huniq⟩ q hq
        have hqa : q ≠ a := fun h => hnd'.1 (h ▸ hq)
        by_cases hpa : p = a
        · subst hpa
          simp [huniq q (List.mem_cons_of_mem _ hq) hqa]
        · have := huniq a (List.mem_cons_self _ _) (Ne.symm hpa)
          rw [ha] at this
          exact absurd this (by simp)
    · have ha' : P a = false := by simpa using ha
      simp only [ha', Bool.false_eq_true, if_false, add_zero]
      rw [ih hnd'.2]
      constructor
      · rintro ⟨p, hp, hPp, huniq⟩
        refine ⟨p, List.mem_cons_of_mem _ hp, hPp, ?_⟩
        intro q hq hne
        rcases List.mem_cons.mp hq with rfl | hq'
        · exact ha'
        · exact huniq q hq' hne
      · rintro ⟨p, hp, hPp, huniq⟩
        rcases List.mem_cons.mp hp with rfl | hp'
        · rw [ha'] at hPp; exact absurd hPp (by simp)
        · exact ⟨p, hp', hPp, fun q hq hne => huniq q (List.mem_cons_of_mem _ hq) hne⟩

theorem tally_fields (b : ArrayBoard) (m : ArrayBoard.Material) (p : Position) :
    (ArrayBoard.tally m (b.cell p.row p.col)).whitePieces =
      m.whitePieces + (if nonKingTest b PieceColor.White p = true then 1 else 0) ∧
    (ArrayBoard.tally m (b.cell p.row p.col)).blackPieces =
      m.blackPieces + (if nonKingTest b PieceColor.Black p = true then 1 else 0) ∧
    (ArrayBoard.tally m (b.cell p.row p.col)).whiteBishops =
      m.whiteBishops +
        (if pieceTest b PieceColor.White PieceType.Bishop p = true then 1 else 0) ∧
    (ArrayBoard.tally m (b.cell p.row p.col)).blackBishops =
      m.blackBishops +
        (if pieceTest b PieceColor.Black PieceType.Bishop p = true then 1 else 0) ∧
    (ArrayBoard.tally m (b.cell p.row p.col)).whiteKnights =
      m.whiteKnights +
        (if pieceTest b PieceColor.White PieceType.Knight p = true then 1 else 0) ∧
    (ArrayBoard.tally m (b.cell p.row p.col)).blackKnights =
      m.blackKnights +
        (if pieceTest b PieceColor.Black PieceType.Knight p = true then 1 else 0) := by
  unfold nonKingTest pieceTest ArrayBoard.tally
  cases b.cell p.row p.col with
  | none => simp
  | some piece =>
    obtain ⟨t, c⟩ := piece
    cases t <;> cases c <;> simp

/-- The counters after the counting loop over a list of squares. -/
theorem foldl_tally (b : ArrayBoard) (l : List Position) (m : ArrayBoard.Material) :
    (l.foldl (fun m p => ArrayBoard.tally m (b.cell p.row p.col)) m).whitePieces =
      m.whitePieces + l.countP (nonKingTest b PieceColor.White) ∧
    (l.foldl (fun m p => ArrayBoard.tally m (b.cell p.row p.col)) m).blackPieces =
      m.blackPieces + l.countP (nonKingTest b PieceColor.Black) ∧
    (l.foldl (fun m p => ArrayBoard.tally m (b.cell p.row p.col)) m).whiteBishops =
      m.whiteBishops + l.countP (pieceTest b PieceColor.White PieceType.Bishop) ∧
    (l.foldl (fun m p => ArrayBoard.tally m (b.cell p.row p.col)) m).blackBishops =
      m.blackBishops + l.countP (pieceTest b PieceColor.Black PieceType.Bishop) ∧
    (l.foldl (fun m p => ArrayBoard.tally m (b.cell p.row p.col)) m).whiteKnights =
      m.whiteKnights + l.countP (pieceTest b PieceColor.White PieceType.Knight) ∧
    (l.foldl (fun m p => ArrayBoard.tally m (b.cell p.row p.col)) m).blackKnights =
      m.blackKnights + l.countP (pieceTest b PieceColor.Black PieceType.Knight) := by
  induction l generalizing m with
  | nil => simp
  | cons a l ih =>
    obtain ⟨h1, h2, h3, h4, h5, h6⟩ := ih (ArrayBoard.tally m (b.cell a.row a.col))
    obtain ⟨t1, t2, t3, t4, t5, t6⟩ := tally_fields b m a
    simp only [List.foldl_cons, List.countP_cons]
    rw [h1, h2, h3, h4, h5, h6, t1, t2, t3, t4, t5, t6]
    refine ⟨?_, ?_, ?_, ?_, ?_, ?_⟩ <;> omega

theorem nonKingTest_iff (b : ArrayBoard) (color : PieceColor) (p : Position) :
    nonKingTest b color p = true ↔ nonKingAt b color p := by
  unfold nonKingTest nonKingAt
  cases b.cell p.row p.col with
  | none => simp
  | some x => simp

theorem pieceTest_iff (b : ArrayBoard) (color : PieceColor) (t : PieceType) (p : Position) :
    pieceTest b color t p = true ↔
      ∃ piece, b.cell p.row p.col = some piece ∧ piece.type_ = t ∧ piece.color_ = color := by
  unfold pieceTest
  cases b.cell p.row p.col with
  | none => simp
  | some x => simp

theorem nonKingAt_mem (b : ArrayBoard) (color : PieceColor) (p : Position)
    (h : nonKingAt b color p) : p ∈ allSquares := by
  by_contra hp
  obtain ⟨piece, hpiece, _⟩ := h
  rw [cell_eq_none_of_not_mem b p hp] at hpiece
  exact absurd hpiece (by simp)

theorem count_nonKing_eq_zero (b : ArrayBoard) (color : PieceColor) :
    allSquares.countP (nonKingTest b color) = 0 ↔ OnlyKings b color := by
  rw [List.countP_eq_zero]
  unfold OnlyKings
  constructor
  · intro h p hp
    exact h p (nonKingAt_mem b color p hp) ((nonKingTest_iff b color p).mpr hp)
  · intro h p _ hp
    exact h p ((nonKingTest_iff b color p).mp hp)

/-- One non-king piece and one piece of the type `t`, not the king type, on a
side: the side's only non-king piece has type `t`. -/
theorem count_lone (b : ArrayBoard) (color : PieceColor) (t : PieceType)
    (ht : t ≠ PieceType.King) :
    (allSquares.countP (nonKingTest b color) = 1 ∧
      allSquares.countP (pieceTest b color t) = 1) ↔
    ∃ p piece, b.cell p.row p.col = some piece ∧ piece.color_ = color ∧ piece.type_ = t ∧
      ∀ q, q ≠ p → ¬ nonKingAt b color q := by
  rw [countP_eq_one_iff _ _ allSquares_spec.2.1, countP_eq_one_iff _ _ allSquares_spec.2.1]
  constructor
  · rintro ⟨⟨p, hp, hnk, huniq⟩, ⟨p', hp', hty, _⟩⟩
    obtain ⟨piece, hpiece, hpt, hpc⟩ := (pieceTest_iff b color t p').mp hty
    have hnk' : nonKingTest b color p' = true :=
      (nonKingTest_iff b color p').mpr ⟨piece, hpiece, hpt ▸ ht, hpc⟩
    have hpp : p' = p := by
      by_contra hne
      have := huniq p' hp' hne
      rw [hnk'] at this
      exact absurd this (by simp)
    subst hpp
    refine ⟨p', piece, hpiece, hpc, hpt, ?_⟩
    intro q hq hnq
    have := huniq q (nonKingAt_mem b color q hnq) hq
    rw [(nonKingTest_iff b color q).mpr hnq] at this
    exact absurd this (by simp)
  · rintro ⟨p, piece, hpiece, hpc, hpt, huniq⟩
    have hnk : nonKingAt b color p := ⟨piece, hpiece, hpt ▸ ht, hpc⟩
    have hp := nonKingAt_mem b color p hnk
    have hq : ∀ q ∈ allSquares, q ≠ p → nonKingTest b color q = false := by
      intro q _ hne
      cases h : nonKingTest b color q with
      | false => rfl
      | true => exact absurd ((nonKingTest_iff b color q).mp h) (huniq q hne)
    refine ⟨⟨p, hp, (nonKingTest_iff b color p).mpr hnk, hq⟩,
      ⟨p, hp, (pieceTest_iff b color t p).mpr ⟨piece, hpiece, hpt, hpc⟩, ?_⟩⟩
    intro q hqm hne
    cases h : pieceTest b color t q with
    | false => rfl
    | true =>
      obtain ⟨x, hx, hxt, hxc⟩ := (pieceTest_iff b color t q).mp h
      exact absurd ⟨x, hx, hxt ▸ ht, hxc⟩ (huniq q hne)

theorem loneMinor_iff (b : ArrayBoard) (color : PieceColor) :
    LoneMinor b color ↔
      (allSquares.countP (nonKingTest b color) = 1 ∧
        allSquares.countP (pieceTest b color PieceType.Bishop) = 1) ∨
      (allSquares.countP (nonKingTest b color) = 1 ∧
        allSquares.countP (pieceTest b color PieceType.Knight) = 1) := by
  rw [count_lone b color PieceType.Bishop (by decide),
    count_lone b color PieceType.Knight (by decide)]
  unfold LoneMinor
  constructor
  · rintro ⟨p, piece, h1, h2, h3 | h3, h4⟩
    · exact Or.inl ⟨p, piece, h1, h2, h3, h4⟩
    · exact Or.inr ⟨p, piece, h1, h2, h3, h4⟩
  · rintro (⟨p, piece, h1, h2, h3, h4⟩ | ⟨p, piece, h1, h2, h3, h4⟩)
    · exact ⟨p, piece, h1, h2, Or.inl h3, h4⟩
    · exact ⟨p, piece, h1, h2, Or.inr h3, h4⟩

/-- The material test in the words of the specification. -/
theorem is_insufficient_material_iff (b : ArrayBoard) :
    b.is_insufficient_material = true ↔
      (OnlyKings b PieceColor.White ∧ OnlyKings b PieceColor.Black) ∨
      (LoneMinor b PieceColor.White ∧ OnlyKings b PieceColor.Black) ∨
      (LoneMinor b PieceColor.Black ∧ OnlyKings b PieceColor.White) := by
  rw [loneMinor_iff, loneMinor_iff, ← count_nonKing_eq_zero, ← count_nonKing_eq_zero]
  unfold ArrayBoard.is_insufficient_material ArrayBoard.countMaterial
  obtain ⟨h1, h2, h3, h4, h5, h6⟩ := foldl_tally b allSquares ⟨0, 0, 0, 0, 0, 0⟩
  simp only [Nat.zero_add] at h1 h2 h3 h4 h5 h6
  simp only [h1, h2, h3, h4, h5, h6]
  clear h1 h2 h3 h4 h5 h6
  generalize allSquares.countP (nonKingTest b PieceColor.White) = W
  generalize allSquares.countP (nonKingTest b PieceColor.Black) = B
  generalize allSquares.countP (pieceTest b PieceColor.White PieceType.Bishop) = WB
  generalize allSquares.countP (pieceTest b PieceColor.Black PieceType.Bishop) = BB
  generalize allSquares.countP (pieceTest b PieceColor.White PieceType.Knight) = WN
  generalize allSquares.countP (pieceTest b PieceColor.Black PieceType.Knight) = BN
  split_ifs with ha hb
  · simp only [true_iff]
    exact Or.inl ha
  · simp only [true_iff]
    tauto
  · simp only [Bool.false_eq_true, false_iff]
    tauto

/-- The material test is false when a side has a non-king piece that is not
its lone bishop or knight. -/
theorem not_insufficient_of_piece (b : ArrayBoard) (color : PieceColor) (p : Position)
    (hcol : color = PieceColor.White ∨ color = PieceColor.Black)
    (hp : nonKingAt b color p)
    (hnot : ∀ p0 piece, b.cell p0.row p0.col = some piece → piece.color_ = color →
      (piece.type_ = PieceType.Bishop ∨ piece.type_ = PieceType.Knight) →
      ¬ ∀ q, q ≠ p0 → ¬ nonKingAt b color q) :
    b.is_insufficient_material = false := by
  cases h : b.is_insufficient_material with
  | false => rfl
  | true =>
    exfalso
    have hW : OnlyKings b color → False := fun ho => ho p hp
    have hL : LoneMinor b color → False := by
      rintro ⟨p0, piece, h1, h2, h3, h4⟩
      exact hnot p0 piece h1 h2 h3 h4
    rcases (is_insufficient_material_iff b).mp h with ⟨h1, h2⟩ | ⟨h1, h2⟩ | ⟨h1, h2⟩ <;>
      rcases hcol with rfl | rfl <;> first | exact hW h1 | exact hW h2 | exact hL h1

theorem raySquares_step (dr dc nr nc : Int) (hd : (dr, dc) ∈ ArrayBoard.kingTable)
    (h : ArrayBoard.inRange nr nc = true) :
    raySquares dr dc (nr + dr) (nc + dc) < raySquares dr dc nr nc ∧
      raySquares dr dc nr nc ≤ 8 := by
  unfold raySquares
  rw [if_pos h]
  simp only [ArrayBoard.inRange, Bool.and_eq_true, decide_eq_true_eq] at h ⊢
  simp only [ArrayBoard.kingTable, List.mem_cons, Prod.mk.injEq, List.mem_singleton,
    List.mem_nil_iff, or_false] at hd
  obtain ⟨⟨⟨h1, h2⟩, h3⟩, h4⟩ := h
  rcases hd with e | e | e | e | e | e | e | e <;> obtain ⟨rfl, rfl⟩ := e <;> norm_num <;>
    constructor <;> (try split_ifs) <;> omega

theorem slide_succ (b : ArrayBoard) (row col : Int) (color : PieceColor) (dr dc : Int)
    (n : Nat) (nr nc : Int) :
    ArrayBoard.slide b row col color dr dc (n + 1) nr nc =
      if ArrayBoard.inRange nr nc = true then
        match b.cell nr nc with
        | none => ⟨row, col, nr, nc, PieceType.None⟩ ::
            ArrayBoard.slide b row col color dr dc n (nr + dr) (nc + dc)
        | some target =>
          if target.color_ ≠ color then [⟨row, col, nr, nc, PieceType.None⟩] else []
      else [] := rfl

theorem slideHits_succ (b : ArrayBoard) (targetRow targetCol dr dc : Int) (n : Nat)
    (nr nc : Int) :
    ArrayBoard.slideHits b targetRow targetCol dr dc (n + 1) nr nc =
      if ArrayBoard.inRange nr nc = true then
        if nr = targetRow ∧ nc = targetCol then true
        else if (b.cell nr nc).isSome = true then false
        else ArrayBoard.slideHits b targetRow targetCol dr dc n (nr + dr) (nc + dc)
      else false := rfl

/-- The step bound 8 of the sliding loops of the array board is never what
stops them: any larger bound gives the same moves and the same attack
answer, from every start and in each of the eight directions. -/
theorem slide_bound_adequate (b : ArrayBoard) (row col : Int) (color : PieceColor)
    (targetRow targetCol dr dc : Int) (hd : (dr, dc) ∈ ArrayBoard.kingTable) (n : Nat)
    (hn : 8 ≤ n) (nr nc : Int) :
    ArrayBoard.slide b row col color dr dc n nr nc =
      ArrayBoard.slide b row col color dr dc 8 nr nc ∧
    ArrayBoard.slideHits b targetRow targetCol dr dc n nr nc =
      ArrayBoard.slideHits b targetRow targetCol dr dc 8 nr nc := by
  have step : ∀ k nr nc, raySquares dr dc nr nc ≤ k →
      ArrayBoard.slide b row col color dr dc (k + 1) nr nc =
        ArrayBoard.slide b row col color dr dc k nr nc ∧
      ArrayBoard.slideHits b targetRow targetCol dr dc (k + 1) nr nc =
        ArrayBoard.slideHits b targetRow targetCol dr dc k nr nc := by
    intro k
    induction k with
    | zero =>
      intro nr nc hle
      have hout : ArrayBoard.inRange nr nc = false := by
        cases h : ArrayBoard.inRange nr nc with
        | false => rfl
        | true => have := (raySquares_step dr dc nr nc hd h).1; omega
      simp [ArrayBoard.slide, ArrayBoard.slideHits, hout]
    | succ k ih =>
      intro nr nc hle
      cases h : ArrayBoard.inRange nr nc with
      | false =>
        rw [slide_succ b row col color dr dc (k + 1) nr nc,
          slide_succ b row col color dr dc k nr nc,
          slideHits_succ b targetRow targetCol dr dc (k + 1) nr nc,
          slideHits_succ b targetRow targetCol dr dc k nr nc]
        simp [h]
      | true =>
        have hlt := (raySquares_step dr dc nr nc hd h).1
        have := ih (nr + dr) (nc + dc) (by omega)
        constructor
        · rw [slide_succ b row col color dr dc (k + 1) nr nc,
            slide_succ b row col color dr dc k nr nc, this.1]
        · rw [slideHits_succ b targetRow targetCol dr dc (k + 1) nr nc,
            slideHits_succ b targetRow targetCol dr dc k nr nc, this.2]
  have bound : raySquares dr dc nr nc ≤ 8 := by
    cases h : ArrayBoard.inRange nr nc with
    | false => simp [raySquares, h]
    | true => exact (raySquares_step dr dc nr nc hd h).2
  induction hn with
  | refl => exact ⟨rfl, rfl⟩
  | step hle ih =>
    rename_i m
    have := step m nr nc (Nat.le_trans bound hle)
    exact ⟨this.1.trans ih.1, this.2.trans ih.2⟩

/-- The number of ranks the `getline` loop reads: one per `/`, and one more
for the characters after the last `/` when there are any. -/
theorem splitRanks_length (cur s : List Char) :
    (splitRanks cur s).length =
      s.count '/' + (if (s = [] ∧ cur = []) ∨ s.getLast? = some '/' then 0 else 1) := by
  induction s generalizing cur with
  | nil =>
    unfold splitRanks
    by_cases hc : cur = []
    · simp [hc]
    · simp [hc]
  | cons c cs ih =>
    unfold splitRanks
    by_cases hs : c = '/'
    · subst hs
      rw [if_pos rfl, List.length_cons, ih]
      cases cs with
      | nil => simp
      | cons d ds => simp [List.getLast?_cons_cons]; omega
    · rw [if_neg hs, ih]
      have hcount : (c :: cs).count '/' = cs.count '/' := by
        rw [List.count_cons]
        simp [hs]
      rw [hcount]
      cases cs with
      | nil => simp [hs]
      | cons d ds => simp [List.getLast?_cons_cons]

/-- The board `parseFEN` returns for an input of 8 ranks. -/
theorem parseFEN_of_ranks (b : Board) (fen placement : List Char)
    (h0 : fenField 0 fen = some placement) (h8 : (splitRanks [] placement).length = 8) :
    b.parseFEN fen =
      { b with
        board_ := placeRanks (splitRanks [] placement) 0 fun _ _ => none
        turn_ := if ((fenField 1 fen).getD []).head? = some 'b' then PieceColor.Black
          else PieceColor.White
        en_passant_target_ := parseEnPassant ((fenField 3 fen).getD ['-']) } := by
  unfold Board.parseFEN
  simp only [fenField] at h0 ⊢
  split
  · rename_i heq
    rw [heq] at h0
    exact absurd h0 (by simp)
  · rename_i pl s1 heq
    rw [heq] at h0
    have h0' : pl = placement := Option.some.inj h0
    subst h0'
    simp only [heq, h8, ne_eq, not_true_eq_false, if_false]

theorem mmEnpassant_of_no_flag (g : Grid) (move : Move) (h : move.isEnpassant = false) :
    mmEnpassant g move = g := by
  simp [mmEnpassant, h]

theorem mmCastling_of_no_flag (g : Grid) (move : Move) (P : Piece)
    (h : move.isCastling = false) : mmCastling g move P = g := by
  simp [mmCastling, h]

theorem getPiece_of_not_inBounds (b : Board) (p : Position) (h : inBounds p = false) :
    b.getPiece p = none := by
  simp [Board.getPiece, h]

/-- Every move of `generateFrom` starts from the queried square, which holds a
piece. -/
theorem generateFrom_origin (att : AttackQuery) (b : Board) (f : Position) (ms : List Move)
    (h : generateFrom att b f = some ms) (m : Move) (hm : m ∈ ms) :
    m.from_ = f ∧ ∃ P, b.getPiece f = some P := by
  refine ⟨(generateFrom_enpassant att b f ms h m hm).1, ?_⟩
  rcases generateFrom_cases att b f ms h with ⟨_, rfl⟩ | ⟨me, hP, _⟩
  · simp at hm
  · exact ⟨me, hP⟩

theorem mem_specPawnForward (b : Board) (f : Position) (c : PieceColor) (m : Move)
    (hf : inBounds f = true) (hm : m ∈ specPawnForward b f c) :
    m.from_ = f ∧ b.getPiece m.to_ = none ∧ inBounds m.to_ = true ∧ m.isCapture = false ∧
      m.isEnpassant = false ∧ m.isCastling = false ∧
      (m.to_.row = f.row + pawnDir c ∨
        (m.to_.row = f.row + 2 * pawnDir c ∧ f.row = startRank c)) := by
  unfold specPawnForward at hm
  dsimp only at hm
  rw [List.mem_append] at hm
  rcases hm with hm | hm
  · by_cases h1 : inBounds ⟨f.row + pawnDir c, f.col⟩ = true ∧
        b.getPiece ⟨f.row + pawnDir c, f.col⟩ = none
    · rw [if_pos h1] at hm
      by_cases h2 : f.row + pawnDir c = lastRank c
      · rw [if_pos h2] at hm
        simp only [List.map_cons, List.map_nil, List.mem_cons, List.mem_singleton,
          List.not_mem_nil, or_false] at hm
        rcases hm with rfl | rfl | rfl | rfl <;>
          exact ⟨rfl, h1.2, h1.1, rfl, rfl, rfl, Or.inl rfl⟩
      · rw [if_neg h2, List.mem_singleton] at hm
        subst hm
        exact ⟨rfl, h1.2, h1.1, rfl, rfl, rfl, Or.inl rfl⟩
    · rw [if_neg h1] at hm
      simp at hm
  · by_cases h1 : f.row = startRank c ∧ b.getPiece ⟨f.row + pawnDir c, f.col⟩ = none ∧
        b.getPiece ⟨f.row + 2 * pawnDir c, f.col⟩ = none
    · rw [if_pos h1, List.mem_singleton] at hm
      subst hm
      refine ⟨rfl, h1.2.2, ?_, rfl, rfl, rfl, Or.inr ⟨rfl, h1.1⟩⟩
      have hb := (inBounds_iff f).mp hf
      have hs := h1.1
      rw [inBounds_iff]
      dsimp only
      unfold startRank at hs
      unfold pawnDir
      split_ifs at hs ⊢ <;> omega
    · rw [if_neg h1] at hm
      simp at hm

/-- The shape of every move the generator returns for the piece `P` on `f`:
its origin and destination, what its capture flag says, and when it carries
the castling flag, the en-passant flag, or is a two-row pawn step. -/
theorem generateFrom_shape (att : AttackQuery) (b : Board) (f : Position) (ms : List Move)
    (P : Piece) (hP : b.getPiece f = some P) (h : generateFrom att b f = some ms) (m : Move)
    (hm : m ∈ ms) :
    m.from_ = f ∧ inBounds m.to_ = true ∧
      (m.isCapture = true ↔ (b.getPiece m.to_).isSome = true ∨ m.isEnpassant = true) ∧
      (m.isCastling = true → P.type_ = PieceType.King ∧ f = ⟨homeRow P.color_, 4⟩ ∧
        (m.to_ = ⟨homeRow P.color_, 6⟩ ∨ m.to_ = ⟨homeRow P.color_, 2⟩)) ∧
      (m.isEnpassant = true → P.type_ = PieceType.Pawn ∧ b.en_passant_target_ = m.to_ ∧
        m.to_.row = f.row + pawnDir P.color_) ∧
      (P.type_ = PieceType.Pawn → m.to_.row - f.row = 2 ∨ m.to_.row - f.row = -2 →
        f.row = startRank P.color_) := by
  have hf : inBounds f = true := inBounds_of_getPiece b f P hP
  have plain : ∀ {x : Move}, P.type_ ≠ PieceType.Pawn → x.from_ = f → inBounds x.to_ = true →
      x.isCapture = (b.getPiece x.to_).isSome → x.isEnpassant = false → x.isCastling = false →
      x.from_ = f ∧ inBounds x.to_ = true ∧
      (x.isCapture = true ↔ (b.getPiece x.to_).isSome = true ∨ x.isEnpassant = true) ∧
      (x.isCastling = true → P.type_ = PieceType.King ∧ f = ⟨homeRow P.color_, 4⟩ ∧
        (x.to_ = ⟨homeRow P.color_, 6⟩ ∨ x.to_ = ⟨homeRow P.color_, 2⟩)) ∧
      (x.isEnpassant = true → P.type_ = PieceType.Pawn ∧ b.en_passant_target_ = x.to_ ∧
        x.to_.row = f.row + pawnDir P.color_) ∧
      (P.type_ = PieceType.Pawn → x.to_.row - f.row = 2 ∨ x.to_.row - f.row = -2 →
        f.row = startRank P.color_) := by
    intro x hnp h1 h2 h3 h4 h5
    refine ⟨h1, h2, ?_, fun hc => absurd hc (by simp [h5]), fun he => absurd he (by simp [h4]),
      fun hp => absurd hp hnp⟩
    rw [h3, h4]
    simp
  have slider : ∀ dirs : List (Int × Int), (∀ d ∈ dirs, d ∈ rookDirs ++ bishopDirs) →
      m ∈ dirs.flatMap (slideRay b f P) →
      m.from_ = f ∧ inBounds m.to_ = true ∧ m.isCapture = (b.getPiece m.to_).isSome ∧
        m.isEnpassant = false ∧ m.isCastling = false := by
    intro dirs hsub hmem
    obtain ⟨d, hd, hmd⟩ := List.mem_flatMap.mp hmem
    obtain ⟨k, hk, rfl⟩ := (mem_slideRay b f P d m hf (hsub d hd)).mp hmd
    exact ⟨rfl, hk.2.1, rfl, rfl, rfl⟩
  rcases generateFrom_cases att b f ms h with ⟨hn, _⟩ | ⟨me, hP', hc⟩
  · rw [hP] at hn; exact absurd hn (by simp)
  · rw [hP] at hP'
    obtain rfl : P = me := Option.some.inj hP'
    rcases hc with ⟨hty, rfl⟩ | ⟨hty, rfl⟩ | ⟨hty, rfl⟩ | ⟨hty, rfl⟩ | ⟨hty, rfl⟩ | ⟨hty, hk⟩ |
      ⟨hty, rfl⟩
    · rw [add_pawnMoves_eq b f P hP hty, List.mem_append, List.mem_append] at hm
      rcases hm with hm | hm | hm
      · obtain ⟨h1, h2, h3, h4, h5, h6, h7⟩ := mem_specPawnForward b f P.color_ m hf hm
        refine ⟨h1, h3, ?_, fun hc => absurd hc (by simp [h6]), fun he => absurd he (by simp [h5]),
          fun _ hd => ?_⟩
        · rw [h4, h5, h2]; simp
        · rcases h7 with h7 | h7
          · exfalso
            unfold pawnDir at h7
            split_ifs at h7 <;> omega
          · exact h7.2
      all_goals
        obtain ⟨h1, h2, h3, h4, h5, h6⟩ := pawnCaptures_shape b f P _ _ _ _ m hm
        have hmem := (mem_pawnCaptures b f P _ _ _ _ m).mp hm
        refine ⟨h1, h3, ?_, fun hc => absurd hc (by simp [h5]),
          fun he => ⟨hty, (h6 he).1, by rw [h2]⟩, fun _ hd => ?_⟩
        · constructor
          · intro _
            rcases hmem.2 with ⟨t, ht, _, _⟩ | ⟨_, rfl⟩
            · left; rw [h2, ht]; rfl
            · right; rfl
          · intro _; exact h4
        · exfalso
          rw [h2] at hd
          dsimp only at hd
          unfold pawnDir at hd
          split_ifs at hd <;> omega
    · obtain ⟨_, h1, h2, _, h3, _, h4, h5⟩ := mem_flatMap_stepMove b f P knightOffsets m (by
        unfold add_knightMoves at hm
        rw [hP] at hm
        exact hm)
      exact plain (by rw [hty]; decide) h1 h2 h3 h4 h5
    · rw [add_bishopMoves_eq_flatMap b f P hP] at hm
      obtain ⟨h1, h2, h3, h4, h5⟩ := slider bishopDirs (fun d hd => List.mem_append_right _ hd) hm
      exact plain (by rw [hty]; decide) h1 h2 h3 h4 h5
    · rw [add_rookMoves_eq_flatMap b f P hP] at hm
      obtain ⟨h1, h2, h3, h4, h5⟩ := slider rookDirs (fun d hd => List.mem_append_left _ hd) hm
      exact plain (by rw [hty]; decide) h1 h2 h3 h4 h5
    · rw [add_queenMoves_eq_flatMap b f P hP] at hm
      obtain ⟨h1, h2, h3, h4, h5⟩ := slider (rookDirs ++ bishopDirs) (fun d hd => hd) hm
      exact plain (by rw [hty]; decide) h1 h2 h3 h4 h5
    · obtain ⟨ks, qs, hks, hqs, rfl⟩ := add_kingMoves_eq_some att b f P ms hP hk
      rw [List.mem_append, List.mem_append] at hm
      have castle : ∀ (i : Fin 4) (between safe : List Position) (toCol : Int) (l : List Move),
          castleSide att b f (homeRow P.color_) (opponentOf P.color_) i between safe toCol =
            some l → m ∈ l → (⟨homeRow P.color_, toCol⟩ : Position) ∈ between →
          (toCol = 6 ∨ toCol = 2) →
          m.from_ = f ∧ inBounds m.to_ = true ∧
          (m.isCapture = true ↔ (b.getPiece m.to_).isSome = true ∨ m.isEnpassant = true) ∧
          (m.isCastling = true → P.type_ = PieceType.King ∧ f = ⟨homeRow P.color_, 4⟩ ∧
            (m.to_ = ⟨homeRow P.color_, 6⟩ ∨ m.to_ = ⟨homeRow P.color_, 2⟩)) ∧
          (m.isEnpassant = true → P.type_ = PieceType.Pawn ∧ b.en_passant_target_ = m.to_ ∧
            m.to_.row = f.row + pawnDir P.color_) ∧
          (P.type_ = PieceType.Pawn → m.to_.row - f.row = 2 ∨ m.to_.row - f.row = -2 →
            f.row = startRank P.color_) := by
        intro i between safe toCol l hl hml hbt htc
        rcases castleSide_eq_some att b f _ _ i between safe toCol l hl with rfl | ⟨rfl, hf4, _, he, _⟩
        · simp at hml
        · rw [List.mem_singleton] at hml
          subst hml
          refine ⟨rfl, ?_, ?_, fun _ => ⟨hty, hf4, ?_⟩, fun he => absurd he (by simp),
            fun hp => absurd hp (by rw [hty]; decide)⟩
          · rw [inBounds_iff]
            dsimp only
            unfold homeRow
            split_ifs <;> omega
          · dsimp only
            rw [he _ hbt]
            simp
          · rcases htc with rfl | rfl
            · exact Or.inl rfl
            · exact Or.inr rfl
      rcases hm with (hm | hm) | hm
      · obtain ⟨_, h1, h2, _, h3, _, h4, h5⟩ := mem_flatMap_stepMove b f P kingOffsets m hm
        exact plain (by rw [hty]; decide) h1 h2 h3 h4 h5
      · exact castle _ _ _ 6 ks hks hm (by simp) (Or.inl rfl)
      · exact castle _ _ _ 2 qs hqs hm (by simp) (Or.inr rfl)
    · simp at hm

theorem generateFrom_flagsCorrect (att : AttackQuery) (b : Board) (f : Position)
    (ms : List Move) (h : generateFrom att b f = some ms) (m : Move) (hm : m ∈ ms) :
    FlagsCorrect b m := by
  obtain ⟨hfrom, P, hP⟩ := generateFrom_origin att b f ms h m hm
  obtain ⟨_, _, hcap, hcas, _, _⟩ := generateFrom_shape att b f ms P hP h m hm
  refine ⟨hcap, fun hc => ?_⟩
  obtain ⟨hty, hf, hto⟩ := hcas hc
  refine ⟨P.color_, ?_, ?_, ?_, ?_⟩
  · rw [hfrom, hP]
    cases P with
    | mk t c => dsimp only at hty; subst hty; rfl
  · rw [hfrom]; exact hf
  · rw [hfrom, hf]
    rcases hto with e | e <;> rw [e]
  · rw [hfrom, hf]
    rcases hto with e | e <;> rw [e]
    · left; rfl
    · right; rfl

theorem reachable_of_playMoves (fuel : Nat) (moves : List Move) (b b' : Board)
    (hb : Reachable b) (h : playMoves fuel b moves = some b') : Reachable b' := by
  induction moves generalizing b with
  | nil =>
    simp only [playMoves, Option.some.injEq] at h
    subst h
    exact hb
  | cons m ms ih =>
    simp only [playMoves] at h
    cases ht : b.tryMakeMove fuel m with
    | none => rw [ht] at h; exact absurd h (by simp)
    | some r =>
      obtain ⟨ok, b1⟩ := r
      cases ok with
      | false => rw [ht] at h; exact absurd h (by simp)
      | true =>
        rw [ht] at h
        exact ih b1 (Reachable.step fuel b b1 m hb ht) h

theorem kingHunt_played :
    (playMoves 0 startBoard kingHunt).map (fun b =>
      (b.castling_rights_ 0, b.castling_rights_ 1, b.getPiece ⟨7, 4⟩,
        allSquares.all fun p => decide (b.getPiece p ≠ some ⟨PieceType.King, PieceColor.White⟩))) =
    some (true, true, some ⟨PieceType.Queen, PieceColor.Black⟩, true) := by
  decide

theorem mmEnpassant_source (g : Grid) (move : Move) (q : Position) (X : Piece)
    (hq : inBounds q = true) (hf : inBounds move.from_ = true) (ht : inBounds move.to_ = true)
    (h : cellAt (mmEnpassant g move) q = some X) : cellAt g q = some X := by
  rw [mmEnpassant_cell g move q hq hf ht] at h
  split_ifs at h
  exact h

/-- Where a piece of the grid after the en-passant and castling blocks comes
from: its own cell, or a corner of the mover's row on a castling king move. -/
theorem castled_cell_source (b : Board) (move : Move) (P : Piece) (q : Position) (X : Piece)
    (hf : inBounds move.from_ = true) (ht : inBounds move.to_ = true) (hq : inBounds q = true)
    (h : cellAt (mmCastling (mmEnpassant b.board_ move) move P) q = some X) :
    b.getPiece q = some X ∨
      (move.isCastling = true ∧ P.type_ = PieceType.King ∧
        (b.getPiece ⟨move.from_.row, 7⟩ = some X ∨ b.getPiece ⟨move.from_.row, 0⟩ = some X)) := by
  have hb := (inBounds_iff move.from_).mp hf
  have h7 : inBounds ⟨move.from_.row, 7⟩ = true := by rw [inBounds_iff]; dsimp only; omega
  have h0 : inBounds ⟨move.from_.row, 0⟩ = true := by rw [inBounds_iff]; dsimp only; omega
  rw [mmCastling_cell _ move P q hq hf] at h
  by_cases hc : move.isCastling = true ∧ P.type_ = PieceType.King
  · rw [if_pos hc] at h
    split_ifs at h
    · right
      rw [getPiece_eq_cellAt b _ h7]
      exact ⟨hc.1, hc.2, Or.inl (mmEnpassant_source _ move _ X h7 hf ht h)⟩
    · left
      rw [getPiece_eq_cellAt b _ hq]
      exact mmEnpassant_source _ move _ X hq hf ht h
    · right
      rw [getPiece_eq_cellAt b _ h0]
      exact ⟨hc.1, hc.2, Or.inr (mmEnpassant_source _ move _ X h0 hf ht h)⟩
    · left
      rw [getPiece_eq_cellAt b _ hq]
      exact mmEnpassant_source _ move _ X hq hf ht h
    · left
      rw [getPiece_eq_cellAt b _ hq]
      exact mmEnpassant_source _ move _ X hq hf ht h
  · rw [if_neg hc] at h
    left
    rw [getPiece_eq_cellAt b _ hq]
    exact mmEnpassant_source _ move _ X hq hf ht h

/-- Where a piece on the board after `makeMove` comes from. -/
theorem makeMove_source (b : Board) (move : Move) (P : Piece) (p : Position) (X : Piece)
    (hP : b.getPiece move.from_ = some P) (ht : inBounds move.to_ = true)
    (h : (b.makeMove move).getPiece p = some X) :
    (X.type_ = PieceType.Queen ∧ ∃ q Y, b.getPiece q = some Y ∧ Y.color_ = X.color_) ∨
    (p = move.to_ ∧ X = P) ∨
    (p ≠ move.from_ ∧ p ≠ move.to_ ∧ b.getPiece p = some X) ∨
    (move.isCastling = true ∧ P.type_ = PieceType.King ∧
      (b.getPiece ⟨move.from_.row, 7⟩ = some X ∨ b.getPiece ⟨move.from_.row, 0⟩ = some X)) := by
  have hf := inBounds_of_getPiece b _ _ hP
  have hp := inBounds_of_getPiece _ _ _ h
  rw [makeMove_getPiece_cases b move P p hP ht hp] at h
  by_cases h1 : move.promotion ≠ Promotion.None ∧ p = move.to_
  · rw [if_pos h1] at h
    left
    cases ho : cellAt (mmMovePiece (mmCastling (mmEnpassant b.board_ move) move P) move)
        move.to_ with
    | none => rw [ho] at h; exact absurd h (by simp)
    | some old =>
      rw [ho] at h
      simp only [Option.map_some', Option.some.injEq] at h
      subst h
      refine ⟨rfl, ?_⟩
      rw [mmMovePiece_cell _ move _ ht hf ht] at ho
      by_cases ha : move.to_ = move.from_
      · rw [if_pos ha] at ho; exact absurd ho (by simp)
      rw [if_neg ha, if_pos rfl] at ho
      rcases castled_cell_source b move P _ old hf ht hf ho with hs | ⟨_, _, hs | hs⟩
      · exact ⟨_, old, hs, rfl⟩
      · exact ⟨_, old, hs, rfl⟩
      · exact ⟨_, old, hs, rfl⟩
  · rw [if_neg h1] at h
    by_cases h2 : p = move.from_
    · rw [if_pos h2] at h; exact absurd h (by simp)
    · rw [if_neg h2] at h
      by_cases h3 : p = move.to_
      · rw [if_pos h3] at h
        rcases castled_cell_source b move P _ X hf ht hf h with hs | hs
        · rw [hP] at hs
          exact Or.inr (Or.inl ⟨h3, (Option.some.inj hs).symm⟩)
        · exact Or.inr (Or.inr (Or.inr hs))
      · rw [if_neg h3] at h
        rcases castled_cell_source b move P _ X hf ht hp h with hs | hs
        · exact Or.inr (Or.inr (Or.inl ⟨h2, h3, hs⟩))
        · exact Or.inr (Or.inr (Or.inr hs))

theorem makeMove_right_iff (b : Board) (move : Move) (P : Piece) (i : Fin 4)
    (hP : b.getPiece move.from_ = some P) (ht : inBounds move.to_ = true) :
    (b.makeMove move).castling_rights_ i = true ↔
      b.castling_rights_ i = true ∧ ¬ rightTrigger move P i := by
  have hf := inBounds_of_getPiece b _ _ hP
  have hP' : b.board_ (idx move.from_.row) (idx move.from_.col) = some P := by
    rw [getPiece_eq_cellAt b _ hf] at hP; exact hP
  rw [makeMove_of_piece b move P hf ht hP']
  exact mmCastlingRights_are b.castling_rights_ move P i

theorem rightColor_cases (i : Fin 4) :
    rightColor i = PieceColor.White ∨ rightColor i = PieceColor.Black := by
  fin_cases i <;> simp [rightColor]

theorem trigger_of_king (move : Move) (P : Piece) (i : Fin 4)
    (hty : P.type_ = PieceType.King) (hc : P.color_ = rightColor i) : rightTrigger move P i := by
  fin_cases i <;> simp [rightColor] at hc <;> simp [rightTrigger, hty, hc]

theorem trigger_of_rook (move : Move) (P : Piece) (i : Fin 4)
    (hty : P = ⟨PieceType.Rook, rightColor i⟩) (hfrom : move.from_ = rightCorner i) :
    rightTrigger move P i := by
  subst hty
  fin_cases i <;> simp [rightColor, rightCorner, homeRow] at hfrom ⊢ <;>
    simp [rightTrigger, hfrom, rightColor]

theorem trigger_of_capture (move : Move) (P : Piece) (i : Fin 4)
    (hcap : move.isCapture = true) (hto : move.to_ = rightCorner i) :
    rightTrigger move P i := by
  fin_cases i <;> simp [rightColor, rightCorner, homeRow] at hto <;>
    simp [rightTrigger, hto, hcap]

/-- A pseudo-legal move keeps the three invariants of the reachable states:
pieces are White or Black, the en-passant target is absent or on row 2 or 5,
and every castling right that is true is backed by its rook and its king. -/
theorem makeMove_keeps_invariant (att : AttackQuery) (b : Board) (f : Position)
    (ms : List Move) (m : Move) (hg : generateFrom att b f = some ms) (hm : m ∈ ms)
    (h1 : PiecesColoured b) (h4 : TargetRowOK b) (hb : RightsBacked b) :
    PiecesColoured (b.makeMove m) ∧ TargetRowOK (b.makeMove m) ∧ RightsBacked (b.makeMove m) := by
  obtain ⟨hfrom, P, hP⟩ := generateFrom_origin att b f ms hg m hm
  obtain ⟨_, ht, hcap, hcas, hep, hdbl⟩ := generateFrom_shape att b f ms P hP hg m hm
  subst hfrom
  have hf := inBounds_of_getPiece b _ _ hP
  have hPc := h1 _ P hP
  refine ⟨?_, ?_, ?_⟩
  · intro p X hX
    rcases makeMove_source b m P p X hP ht hX with ⟨_, q, Y, hY, hc⟩ | ⟨_, rfl⟩ | ⟨_, _, hs⟩ |
      ⟨_, _, hs | hs⟩
    · rw [← hc]; exact h1 q Y hY
    · exact hPc
    · exact h1 _ X hs
    · exact h1 _ X hs
    · exact h1 _ X hs
  · unfold TargetRowOK
    rw [makeMove_target_of_piece b m P hP ht]
    unfold mmEnPassantTarget
    by_cases hpawn : P.type_ = PieceType.Pawn
    · rw [if_pos hpawn]
      dsimp only
      by_cases hd : m.to_.row - m.from_.row = 2 ∨ m.to_.row - m.from_.row = -2
      · rw [if_pos hd]
        have hs := hdbl hpawn hd
        unfold startRank at hs
        right
        dsimp only
        split_ifs at hs ⊢ <;> omega
      · rw [if_neg hd]; exact Or.inl rfl
    · rw [if_neg hpawn]; exact Or.inl rfl
  · intro i hi
    obtain ⟨hbi, hnt⟩ := (makeMove_right_iff b m P i hP ht).mp hi
    obtain ⟨hrook, hking⟩ := hb i hbi
    have hK := inBounds_of_getPiece b _ _ hrook
    have hKrow : (rightCorner i).row = homeRow (rightColor i) := rfl
    have hhome : ∀ c : PieceColor, homeRow c = 7 ∨ homeRow c = 0 := by
      intro c; unfold homeRow; split_ifs
      · exact Or.inl rfl
      · exact Or.inr rfl
    constructor
    · have hKto : rightCorner i ≠ m.to_ := fun e =>
        hnt (trigger_of_capture m P i (hcap.mpr (Or.inl (by rw [← e, hrook]; rfl))) e.symm)
      have hKfrom : rightCorner i ≠ m.from_ := fun e =>
        hnt (trigger_of_rook m P i (by rw [← e, hrook] at hP; exact (Option.some.inj hP).symm)
          e.symm)
      have hrow : m.isCastling = true ∧ P.type_ = PieceType.King →
          ∀ c : Int, rightCorner i ≠ ⟨m.from_.row, c⟩ := by
        intro hc c e
        have hne : P.color_ ≠ rightColor i := fun e => hnt (trigger_of_king m P i hc.2 e)
        have hfr := congrArg Position.row (hcas hc.1).2.1
        have hr := congrArg Position.row e
        rw [hKrow] at hr
        dsimp only at hr hfr
        rw [hfr] at hr
        unfold homeRow at hr
        rcases rightColor_cases i with hi | hi <;> rcases hPc with hp | hp <;>
          rw [hi, hp] at hr <;> simp at hr
        · exact hne (by rw [hi, hp])
        · exact hne (by rw [hi, hp])
      have hc2 : cellAt (mmCastling (mmEnpassant b.board_ m) m P) (rightCorner i) =
          cellAt (mmEnpassant b.board_ m) (rightCorner i) := by
        rw [mmCastling_cell _ m P _ hK hf]
        by_cases hc : m.isCastling = true ∧ P.type_ = PieceType.King
        · rw [if_pos hc, if_neg (hrow hc 7), if_neg (hrow hc 5), if_neg (hrow hc 0),
            if_neg (hrow hc 3)]
          split_ifs <;> rfl
        · rw [if_neg hc]
      have hc1 : cellAt (mmEnpassant b.board_ m) (rightCorner i) =
          cellAt b.board_ (rightCorner i) := by
        rw [mmEnpassant_cell _ m _ hK hf ht, if_neg]
        rintro ⟨he, e⟩
        obtain ⟨_, htar, hrow'⟩ := hep he
        have hr := congrArg Position.row e
        rw [hKrow] at hr
        dsimp only at hr
        have hto := (inBounds_iff m.to_).mp ht
        have hpd : pawnDir P.color_ = 1 ∨ pawnDir P.color_ = -1 := by
          unfold pawnDir; split_ifs
          · exact Or.inr rfl
          · exact Or.inl rfl
        rcases h4 with h4 | h4 | h4
        · rw [htar] at h4
          have := congrArg Position.row h4
          dsimp only at this
          omega
        · rw [htar] at h4
          rcases hhome (rightColor i) with hh | hh <;> omega
        · rw [htar] at h4
          rcases hhome (rightColor i) with hh | hh <;> omega
      rw [makeMove_getPiece_cases b m P _ hP ht hK, if_neg (fun h => hKto h.2), if_neg hKfrom,
        if_neg hKto, hc2, hc1, ← getPiece_eq_cellAt b _ hK]
      exact hrook
    · intro p hk
      rcases makeMove_source b m P p _ hP ht hk with ⟨hq, _⟩ | ⟨_, hXP⟩ | ⟨_, _, hs⟩ |
        ⟨_, _, hs | hs⟩
      · exact absurd hq (by simp)
      · exact absurd (trigger_of_king m P i (by rw [← hXP]) (by rw [← hXP])) hnt
      · exact hking p hs
      · exact absurd (congrArg Position.col (hking _ hs)) (by simp)
      · exact absurd (congrArg Position.col (hking _ hs)) (by simp)

theorem startBoard_invariant :
    PiecesColoured startBoard ∧ TargetRowOK startBoard ∧ RightsBacked startBoard := by
  have hall : ∀ p ∈ allSquares, ∀ X, startBoard.getPiece p = some X →
      (X.color_ = PieceColor.White ∨ X.color_ = PieceColor.Black) ∧
      (X.type_ = PieceType.King → p = ⟨homeRow X.color_, 4⟩) := by decide
  refine ⟨fun p X hX => ?_, Or.inl rfl, fun i _ => ⟨?_, fun p hp => ?_⟩⟩
  · exact (hall p ((allSquares_spec.2.2 p).mpr (inBounds_of_getPiece _ _ _ hX)) X hX).1
  · fin_cases i <;> decide
  · exact (hall p ((allSquares_spec.2.2 p).mpr (inBounds_of_getPiece _ _ _ hp)) _ hp).2 rfl

theorem reachable_invariant (b : Board) (h : Reachable b) :
    PiecesColoured b ∧ TargetRowOK b ∧ RightsBacked b := by
  induction h with
  | start => exact startBoard_invariant
  | step fuel b b' move _ hstep ih =>
    cases hl : b.legalMovesFrom fuel move.from_ with
    | none => simp [Board.tryMakeMove, hl] at hstep
    | some legal =>
      rw [tryMakeMove_of_legal fuel b move legal hl] at hstep
      cases hfind : legal.find? (sameSquares move) with
      | none => rw [hfind] at hstep; simp at hstep
      | some m =>
        rw [hfind] at hstep
        simp only [Option.some.injEq, Prod.mk.injEq, true_and] at hstep
        subst hstep
        obtain ⟨pseudo, hg, _, rfl⟩ := (legalMovesFrom_eq_some fuel b _ legal).mp hl
        exact makeMove_keeps_invariant _ b _ pseudo m hg
          (List.mem_of_mem_filter (List.mem_of_find?_eq_some hfind)) ih.1 ih.2.1 ih.2.2

theorem splitRanks_append (rank rest cur : List Char) (h : '/' ∉ rank) :
    splitRanks cur (rank ++ rest) = splitRanks (rank.reverse ++ cur) rest := by
  induction rank generalizing cur with
  | nil => rfl
  | cons c cs ih =>
    have hc : c ≠ '/' := fun e => h (by rw [e]; exact List.mem_cons_self _ _)
    rw [List.cons_append, splitRanks, if_neg hc, ih _ (fun hm => h (List.mem_cons_of_mem _ hm))]
    simp

/-- Splitting the joined ranks on `/` gives the ranks back. -/
theorem splitRanks_joinRanks (ranks : List (List Char))
    (h : ∀ rank ∈ ranks, rank ≠ [] ∧ '/' ∉ rank) :
    splitRanks [] (joinRanks ranks) = ranks := by
  induction ranks with
  | nil => rfl
  | cons rank rest ih =>
    have hr := h rank (List.mem_cons_self _ _)
    cases rest with
    | nil =>
      have := splitRanks_append rank [] [] hr.2
      simp only [List.append_nil] at this
      rw [joinRanks, this, splitRanks]
      simp [hr.1]
    | cons r2 rs =>
      rw [joinRanks, splitRanks_append rank _ [] hr.2, splitRanks, if_pos rfl,
        ih (fun x hx => h x (List.mem_cons_of_mem _ hx))]
      simp
      all_goals simp

theorem rankAlphabet_spec : ∀ ch ∈ rankAlphabet, ch ≠ '/' ∧
    ((ch.isDigit = true ∧ 48 ≤ ch.toNat ∧
        specSquares ch = List.replicate (ch.toNat - 48) none) ∨
     (ch.isDigit = false ∧ pieceTypeOfChar ch.toLower ≠ PieceType.None ∧
        specSquares ch = [some ⟨pieceTypeOfChar ch.toLower,
          if ch.isUpper then PieceColor.White else PieceColor.Black⟩])) := by
  decide

theorem getD_replicate_none (d n : Nat) :
    (List.replicate d (none : Option Piece)).getD n none = none := by
  induction d generalizing n with
  | zero => rfl
  | succ k ih =>
    cases n with
    | zero => rfl
    | succ m => simp [List.replicate_succ, ih m]

theorem getD_append_cases (l l' : List (Option Piece)) (n : Nat) :
    (l ++ l').getD n none =
      if n < l.length then l.getD n none else l'.getD (n - l.length) none := by
  induction l generalizing n with
  | nil => simp
  | cons x xs ih =>
    cases n with
    | zero => simp
    | succ m =>
      simp only [List.cons_append, List.getD_cons_succ, List.length_cons, Nat.succ_lt_succ_iff,
        Nat.succ_sub_succ, ih]

/-- The cell `(r, c)` after the loop over the characters of a rank, started
at column `k` of row `row`: the square of the rank that covers column `c` if
it names a piece, else the cell as it was. -/
theorem placeRank_cell (row : Int) (rank : List Char) (hok : ∀ ch ∈ rank, ch ∈ rankAlphabet)
    (k : Nat) (g : Grid) (r c : Nat) (hr : r < 8) (hc : c < 8) :
    cellAt (placeRank row rank (k : Int) g) ⟨(r : Int), (c : Int)⟩ =
      if (r : Int) = row ∧ k ≤ c ∧ ((expandRank rank).getD (c - k) none).isSome = true then
        (expandRank rank).getD (c - k) none
      else cellAt g ⟨(r : Int), (c : Int)⟩ := by
  induction rank generalizing k g with
  | nil => simp [placeRank, expandRank]
  | cons ch rest ih =>
    have hrest : ∀ x ∈ rest, x ∈ rankAlphabet := fun x hx => hok x (List.mem_cons_of_mem _ hx)
    have hexp : expandRank (ch :: rest) = specSquares ch ++ expandRank rest := by
      simp [expandRank]
    rcases (rankAlphabet_spec ch (hok ch (List.mem_cons_self _ _))).2 with
      ⟨hd, h48, hsq⟩ | ⟨hd, hty, hsq⟩
    · have hcol : ((k : Int) + ((ch.toNat : Int) - 48)) = ((k + (ch.toNat - 48) : Nat) : Int) := by
        omega
      rw [placeRank, if_pos hd, hcol, ih hrest, hexp, hsq, getD_append_cases,
        List.length_replicate]
      by_cases hlt : c - k < ch.toNat - 48
      · rw [if_pos hlt, getD_replicate_none]
        rw [if_neg, if_neg]
        · rintro ⟨_, _, h⟩; exact absurd h (by simp)
        · rintro ⟨_, h, _⟩; omega
      · rw [if_neg hlt]
        by_cases hk : k ≤ c
        · have e : c - (k + (ch.toNat - 48)) = c - k - (ch.toNat - 48) := by omega
          rw [e]
          have : k + (ch.toNat - 48) ≤ c ↔ k ≤ c := by constructor <;> intro <;> omega
          simp only [this]
        · rw [if_neg, if_neg]
          · rintro ⟨_, h, _⟩; exact hk h
          · rintro ⟨_, h, _⟩; omega
    · rw [placeRank, if_neg (by simp [hd])]
      dsimp only
      have hcol : ((k : Int) + 1) = ((k + 1 : Nat) : Int) := by omega
      rw [hcol, ih hrest, hexp, hsq, getD_append_cases]
      simp only [List.length_singleton]
      by_cases hguard : pieceTypeOfChar ch.toLower ≠ PieceType.None ∧ (0 : Int) ≤ (k : Int) ∧
          (k : Int) < 8 ∧ 0 ≤ row ∧ row < 8
      · rw [if_pos hguard]
        have hp : inBounds ⟨(r : Int), (c : Int)⟩ = true := by
          rw [inBounds_iff]; dsimp only; omega
        have hq : inBounds ⟨row, (k : Int)⟩ = true := by
          rw [inBounds_iff]; dsimp only; omega
        rw [cellAt_setCell g ⟨(r : Int), (c : Int)⟩ ⟨row, (k : Int)⟩ _ hp hq]
        by_cases hck : c = k
        · subst hck
          by_cases hrow : (r : Int) = row
          · subst hrow
            simp
          · have hne : (⟨(r : Int), (c : Int)⟩ : Position) ≠ ⟨row, (c : Int)⟩ := by
              intro e; exact hrow (congrArg Position.row e)
            rw [if_neg (fun h => hrow h.1), if_neg hne, if_neg (fun h => hrow h.1)]
        · have hne : (⟨(r : Int), (c : Int)⟩ : Position) ≠ ⟨row, (k : Int)⟩ := by
            intro e
            have := congrArg Position.col e
            dsimp only at this
            omega
          rw [if_neg hne]
          by_cases hk : k + 1 ≤ c
          · have h1 : ¬ (c - k < 1) := by omega
            have e : c - (k + 1) = c - k - 1 := by omega
            have h2 : k ≤ c := by omega
            simp only [h1, if_false, e, hk, h2, true_and]
          · have h1 : ¬ (k ≤ c) := by omega
            rw [if_neg (fun h => hk h.2.1), if_neg (fun h => h1 h.2.1)]
      · rw [if_neg hguard]
        have hk8 : ¬ ((r : Int) = row ∧ k ≤ c) := by
          rintro ⟨h1, h2⟩
          apply hguard
          refine ⟨hty, ?_, ?_, ?_, ?_⟩ <;> omega
        rw [if_neg (fun h => hk8 ⟨h.1, by omega⟩), if_neg (fun h => hk8 ⟨h.1, h.2.1⟩)]

/-- The cell `(r, c)` after the loop over the ranks still to be placed, the
first of them on row `rr`. -/
theorem placeRanks_cell (ranks : List (List Char))
    (hok : ∀ rank ∈ ranks, ∀ ch ∈ rank, ch ∈ rankAlphabet) (rr : Nat) (g : Grid) (r c : Nat)
    (hr : r < 8) (hc : c < 8) :
    cellAt (placeRanks ranks (rr : Int) g) ⟨(r : Int), (c : Int)⟩ =
      if rr ≤ r ∧ ((expandRank (ranks.getD (r - rr) [])).getD c none).isSome = true then
        (expandRank (ranks.getD (r - rr) [])).getD c none
      else cellAt g ⟨(r : Int), (c : Int)⟩ := by
  induction ranks generalizing rr g with
  | nil => simp [placeRanks, expandRank]
  | cons rank rest ih =>
    have hcol : ((rr : Int) + 1) = ((rr + 1 : Nat) : Int) := by omega
    have h0 := placeRank_cell (rr : Int) rank (hok rank (List.mem_cons_self _ _)) 0 g r c hr hc
    simp only [Nat.cast_zero, Nat.zero_le, true_and, Nat.sub_zero] at h0
    rw [placeRanks, hcol, ih (fun x hx => hok x (List.mem_cons_of_mem _ hx)), h0]
    by_cases hlt : rr + 1 ≤ r
    · have e : r - rr = (r - (rr + 1)) + 1 := by omega
      have hne : ¬ ((r : Int) = (rr : Int)) := by omega
      have hle : rr ≤ r := by omega
      rw [e, List.getD_cons_succ]
      simp only [hlt, hle, true_and, hne, false_and, if_false]
    · rw [if_neg (fun h => hlt h.1)]
      by_cases hrr : r = rr
      · subst hrr
        simp
      · have hne : ¬ ((r : Int) = (rr : Int)) := by omega
        rw [if_neg (fun h => hne h.1), if_neg (fun h => by omega)]

theorem rankOK_shape (rank : List Char) (h : RankOK rank) : rank ≠ [] ∧ '/' ∉ rank := by
  constructor
  · rintro rfl
    have := h.2
    simp [expandRank] at this
  · intro hm
    exact (rankAlphabet_spec '/' (h.1 '/' hm)).1 rfl

/-- The grid `parseFEN` builds from a placement field of eight well-formed
ranks. -/
theorem parseFEN_cell (b : Board) (fen : List Char) (ranks : List (List Char))
    (h0 : fenField 0 fen = some (joinRanks ranks)) (h8 : ranks.length = 8)
    (hok : ∀ rank ∈ ranks, RankOK rank) (r c : Fin 8) :
    (expandRank (ranks.getD r.val []))[c.val]? = some ((b.parseFEN fen).board_ r c) := by
  have hsplit := splitRanks_joinRanks ranks (fun rank hr => rankOK_shape rank (hok rank hr))
  have hlen : (splitRanks [] (joinRanks ranks)).length = 8 := by rw [hsplit]; exact h8
  have hr : r.val < ranks.length := by rw [h8]; exact r.isLt
  have hmem : ranks.getD r.val [] ∈ ranks := by
    rw [List.getD_eq_getElem _ _ hr]
    exact List.getElem_mem _
  have hc : c.val < (expandRank (ranks.getD r.val [])).length := by
    rw [(hok _ hmem).2]; exact c.isLt
  have hcell := placeRanks_cell ranks (fun rank hr => (hok rank hr).1) 0 (fun _ _ => none)
    r.val c.val r.isLt c.isLt
  simp only [Nat.cast_zero, Nat.zero_le, true_and, Nat.sub_zero] at hcell
  have hb : (b.parseFEN fen).board_ r c =
      cellAt (placeRanks ranks 0 fun _ _ => none) ⟨(r.val : Int), (c.val : Int)⟩ := by
    rw [parseFEN_of_ranks b fen _ h0 hlen, hsplit]
    simp only [cellAt, idx_val]
  rw [hb, hcell, List.getElem?_eq_getElem hc, List.getD_eq_getElem _ _ hc]
  have hnone : cellAt (fun _ _ => none : Grid) ⟨(r.val : Int), (c.val : Int)⟩ = none := rfl
  rw [hnone]
  cases (expandRank (ranks.getD r.val []))[c.val] with
  | none => rfl
  | some X => rfl

theorem make_move_no_validation_eq_some (b : ArrayBoard) (move : ArrayBoard.Move)
    (temp : ArrayBoard) (deleted : Bool) :
    b.make_move_no_validation move = some (temp, deleted) ↔
      ArrayBoard.inRange move.fromRow move.fromCol = true ∧
      ArrayBoard.inRange move.toRow move.toCol = true ∧
      temp = movedCopy b move ∧ deleted = (b.cell move.toRow move.toCol).isSome := by
  unfold ArrayBoard.make_move_no_validation movedCopy
  cases hf : ArrayBoard.inRange move.fromRow move.fromCol <;>
    cases ht : ArrayBoard.inRange move.toRow move.toCol <;>
    simp [eq_comm]

/-- The legality loop returns exactly when every candidate is quiet, and then
returns the candidates after which the mover's king is not in check on the
copy, in the order of the candidates. -/
theorem legalLoop_eq_some (b : ArrayBoard) (color : PieceColor) (pseudo legal : List ArrayBoard.Move) :
    ArrayBoard.legalLoop b color pseudo = some legal ↔
      (∀ move ∈ pseudo, Quiet b move) ∧
      legal = pseudo.filter fun move => !(movedCopy b move).is_king_in_check color := by
  induction pseudo generalizing legal with
  | nil => simp [ArrayBoard.legalLoop, eq_comm]
  | cons move rest ih =>
    unfold ArrayBoard.legalLoop
    cases hm : b.make_move_no_validation move with
    | none =>
      simp only [false_iff, not_and, reduceCtorEq]
      intro hq
      have := (hq move (List.mem_cons_self _ _))
      have h2 := (make_move_no_validation_eq_some b move (movedCopy b move)
        (b.cell move.toRow move.toCol).isSome).mpr ⟨this.1, this.2.1, rfl, rfl⟩
      rw [hm] at h2
      exact absurd h2 (by simp)
    | some r =>
      obtain ⟨temp, deleted⟩ := r
      obtain ⟨hf, ht, rfl, rfl⟩ := (make_move_no_validation_eq_some b move temp deleted).mp hm
      dsimp only
      cases hc : b.cell move.toRow move.toCol with
      | some t =>
        simp only [Option.isSome_some, if_true, false_iff, not_and, reduceCtorEq]
        intro hq
        have := (hq move (List.mem_cons_self _ _)).2.2
        rw [hc] at this
        exact absurd this (by simp)
      | none =>
        simp only [Option.isSome_none, Bool.false_eq_true, if_false]
        cases hr : ArrayBoard.legalLoop b color rest with
        | none =>
          simp only [false_iff, not_and, reduceCtorEq]
          intro hq
          have := (ih (rest.filter fun move => !(movedCopy b move).is_king_in_check color)).mpr
            ⟨fun x hx => hq x (List.mem_cons_of_mem _ hx), rfl⟩
          rw [hr] at this
          exact absurd this (by simp)
        | some l =>
          obtain ⟨hq, rfl⟩ := (ih l).mp hr
          simp only [Option.some.injEq, List.mem_cons, forall_eq_or_imp, List.filter_cons]
          constructor
          · intro h
            refine ⟨⟨⟨hf, ht, hc⟩, hq⟩, ?_⟩
            rw [← h]
          · rintro ⟨_, h⟩
            rw [h]

theorem generate_legal_moves_for_piece_eq_some (b : ArrayBoard) (row col : Int) (piece : Piece)
    (hp : b.cell row col = some piece) (legal : List ArrayBoard.Move) :
    b.generate_legal_moves_for_piece row col = some legal ↔
      (∀ move ∈ b.generate_valid_moves_for_piece row col, Quiet b move) ∧
      legal = (b.generate_valid_moves_for_piece row col).filter fun move =>
        !(movedCopy b move).is_king_in_check piece.color_ := by
  unfold ArrayBoard.generate_legal_moves_for_piece
  rw [hp]
  exact legalLoop_eq_some b piece.color_ _ legal

theorem searchLegal_eq_true (b : ArrayBoard) (l : List Position)
    (h : ArrayBoard.searchLegal b l = some true) :
    ∃ p ∈ l, ∃ piece legal, b.cell p.row p.col = some piece ∧ piece.color_ = b.turn_ ∧
      b.generate_legal_moves_for_piece p.row p.col = some legal ∧ legal ≠ [] := by
  induction l with
  | nil => simp [ArrayBoard.searchLegal] at h
  | cons p rest ih =>
    have lift : (∃ q ∈ rest, ∃ piece legal, b.cell q.row q.col = some piece ∧
        piece.color_ = b.turn_ ∧
        b.generate_legal_moves_for_piece q.row q.col = some legal ∧ legal ≠ []) →
        ∃ q ∈ p :: rest, ∃ piece legal, b.cell q.row q.col = some piece ∧
          piece.color_ = b.turn_ ∧
          b.generate_legal_moves_for_piece q.row q.col = some legal ∧ legal ≠ [] := by
      rintro ⟨q, hq, hx⟩
      exact ⟨q, List.mem_cons_of_mem _ hq, hx⟩
    unfold ArrayBoard.searchLegal at h
    cases hc : b.cell p.row p.col with
    | none => rw [hc] at h; exact lift (ih h)
    | some piece =>
      rw [hc] at h
      dsimp only at h
      by_cases hcol : piece.color_ = b.turn_
      · rw [if_pos hcol] at h
        cases hg : b.generate_legal_moves_for_piece p.row p.col with
        | none => rw [hg] at h; exact absurd h (by simp)
        | some legal =>
          rw [hg] at h
          cases legal with
          | nil => exact lift (ih (by simpa using h))
          | cons x xs =>
            exact ⟨p, List.mem_cons_self _ _, piece, x :: xs, hc, hcol, hg, by simp⟩
      · rw [if_neg hcol] at h
        exact lift (ih h)

/-- On `mateBoard` the second candidate of the black king takes the queen on
g7: the test copy deletes the queen the board still points to, and the
classification is not followed further. -/
theorem get_game_result_mateBoard :
    mateBoard.generate_valid_moves_for_piece 0 7 =
      [⟨0, 7, 1, 7, PieceType.None⟩, ⟨0, 7, 1, 6, PieceType.None⟩,
        ⟨0, 7, 0, 6, PieceType.None⟩] ∧
    mateBoard.cell 1 6 = some ⟨PieceType.Queen, PieceColor.White⟩ ∧
    mateBoard.get_game_result = none := by
  refine ⟨by decide, by decide, by decide⟩

/-- C1 (the code does not terminate here). On the board of two bare kings on
their home squares, as the constructor builds it from
"4k3/8/8/8/8/8/8/4K3 w - - 0 1", `isSquareAttacked` returns for no amount of
fuel, for either colour and any square: the castling check of one king asks
for the moves of the other side, whose king runs the same castling check.
Consequently `legalMovesFrom` on the white king's square never returns, and
neither does `legalMovesFrom` on the bishop f8 in the game position after
1.e4 e5 2.Nf3 Nf6 3.Bc4. -/
theorem isSquareAttacked_bareKings_diverges (fuel : Nat) (sq : Position) :
    isSquareAttacked fuel bareKings sq PieceColor.White = none ∧
    isSquareAttacked fuel bareKings sq PieceColor.Black = none ∧
    bareKings.legalMovesFrom fuel ⟨7, 4⟩ = none ∧
    afterBc4.legalMovesFrom fuel ⟨0, 5⟩ = none := by
  have h := isSquareAttacked_none_of_castle_ready bareKings (by decide) (by decide) rfl rfl
    (by decide) (by decide) (by decide) (by decide)
  refine ⟨(h fuel sq).1, (h fuel sq).2, ?_, legalMovesFrom_afterBc4_none fuel⟩
  have hatt := (h fuel ⟨7, 4⟩).2
  have hK : bareKings.getPiece ⟨7, 4⟩ = some ⟨PieceType.King, PieceColor.White⟩ := by decide
  have hr : bareKings.castling_rights_ 0 = true := rfl
  have h5 : bareKings.getPiece ⟨7, 5⟩ = none := by decide
  have h6 : bareKings.getPiece ⟨7, 6⟩ = none := by decide
  simp [Board.legalMovesFrom, generateFrom, add_kingMoves, castleSide, noneAttacked, opponentOf,
    Board.getCastlingRights, hK, hr, h5, h6, hatt]

/-- C2 (amended). After any move returned by `legalMovesFrom`, `isKingInCheck`
of the side that was to move is false on the resulting board: its king (the
first one in row-major order) is not attacked by the opposing colour. This is
the mover's own king when the piece on the origin belongs to the side to
move. -/
theorem legalMovesFrom_sound (fuel : Nat) (b : Board) (p : Position) (legal : List Move)
    (m : Move) (h : b.legalMovesFrom fuel p = some legal) (hm : m ∈ legal) :
    (b.makeMove m).isKingInCheck fuel b.turn_ = some false ∧
    ∀ k, firstKing (b.makeMove m) b.turn_ = some k →
      isSquareAttacked (fuel + 1) (b.makeMove m) k (opponentOf b.turn_) = some false := by
  obtain ⟨pseudo, _, _, rfl⟩ := (legalMovesFrom_eq_some fuel b p legal).mp h
  have hc := ((mem_specLegalMoves fuel b pseudo m).mp hm).2
  refine ⟨hc, fun k hk => ?_⟩
  rw [isKingInCheck_eq, hk] at hc
  cases hg : generateAllSide (isSquareAttacked fuel) (b.makeMove m) (opponentOf b.turn_) with
  | none => rw [hg] at hc; exact absurd hc (by simp)
  | some theirs => rw [hg] at hc; exact hc

theorem legalMovesFrom_sound_witness :
    (pinBoard.makeMove rookUp).isKingInCheck 0 pinBoard.turn_ = some false :=
  (legalMovesFrom_sound 0 pinBoard ⟨7, 4⟩
    ((add_rookMoves pinBoard ⟨7, 4⟩).filter (checkTestPasses 0 pinBoard)) rookUp
    (by decide) (by decide)).1

/-- C2 (as stated, refuted). On `pinBoard` White is to move and the black rook
e7 shields the black king e8 from the white rook e1. `legalMovesFrom` on e7
returns the rook move e7-a7, and on the board after it the mover's own king,
the black king on e8, is attacked by White. -/
theorem legalMovesFrom_exposes_waiting_king :
    pinBoard.getPiece ⟨1, 4⟩ = some ⟨PieceType.Rook, PieceColor.Black⟩ ∧
    (pinBoard.legalMovesFrom 0 ⟨1, 4⟩).map (fun legal => decide (pinMove ∈ legal)) = some true ∧
    firstKing (pinBoard.makeMove pinMove) PieceColor.Black = some ⟨0, 4⟩ ∧
    isSquareAttacked 1 (pinBoard.makeMove pinMove) ⟨0, 4⟩ PieceColor.White = some true ∧
    (pinBoard.makeMove pinMove).isKingInCheck 0 PieceColor.Black = some true := by
  refine ⟨by decide, by decide, by decide, by decide, by decide⟩

/-- C3. `legalMovesFrom` returns a list exactly when the generator returns the
pseudo-legal moves of the origin and the check test returns for each of them,
and the list is then the pseudo-legal moves that pass the check test
(`isKingInCheck` of the side that was to move is false on the copy after
`makeMove`), in the same order and multiplicity; `legalMoves` is the same
filter over the concatenation of the pseudo-legal moves of the 64 squares. -/
theorem legal_moves_eq_filtered_pseudo_legal (fuel : Nat) (b : Board) :
    (∀ p legal, b.legalMovesFrom fuel p = some legal ↔
      ∃ pseudo, generateFrom (isSquareAttacked fuel) b p = some pseudo ∧
        (∀ m ∈ pseudo, checkTestReturns fuel b m = true) ∧
        legal = pseudo.filter (checkTestPasses fuel b)) ∧
    (∀ legal, b.legalMoves fuel = some legal ↔
      ∃ perSquare,
        List.Forall₂ (fun p ms => generateFrom (isSquareAttacked fuel) b p = some ms)
          allSquares perSquare ∧
        (∀ m ∈ perSquare.flatten, checkTestReturns fuel b m = true) ∧
        legal = perSquare.flatten.filter (checkTestPasses fuel b)) := by
  refine ⟨fun p legal => legalMovesFrom_eq_some fuel b p legal, fun legal => ?_⟩
  rw [legalMoves_eq_some]
  unfold generateAll specLegalMoves
  constructor
  · rintro ⟨pseudo, hg, hret, rfl⟩
    obtain ⟨parts, hparts, rfl⟩ := (collect_eq_some _ _ _).mp hg
    exact ⟨parts, hparts, hret, rfl⟩
  · rintro ⟨parts, hparts, hret, rfl⟩
    exact ⟨parts.flatten, (collect_eq_some _ _ _).mpr ⟨parts, hparts, rfl⟩, hret, rfl⟩

theorem legal_moves_eq_filtered_pseudo_legal_witness :
    pinBoard.legalMovesFrom 0 ⟨7, 4⟩ =
      some ((add_rookMoves pinBoard ⟨7, 4⟩).filter (checkTestPasses 0 pinBoard)) :=
  ((legal_moves_eq_filtered_pseudo_legal 0 pinBoard).1 ⟨7, 4⟩ _).mpr
    ⟨add_rookMoves pinBoard ⟨7, 4⟩, by decide, by decide, rfl⟩

/-- C4. Whenever `legalMovesFrom` on the candidate's origin returns, so does
`tryMakeMove`; it returns `false` exactly when no returned legal move has the
candidate's origin and destination, and then the board is the one it was
called on (cells, side to move, castling rights and en-passant target). -/
theorem tryMakeMove_failure (fuel : Nat) (b : Board) (move : Move) (legal : List Move)
    (h : b.legalMovesFrom fuel move.from_ = some legal) :
    ∃ ok b', b.tryMakeMove fuel move = some (ok, b') ∧
      (ok = false ↔ ∀ m ∈ legal, ¬ (m.from_ = move.from_ ∧ m.to_ = move.to_)) ∧
      (ok = false → b' = b) := by
  rw [tryMakeMove_of_legal fuel b move legal h]
  cases hf : legal.find? (sameSquares move) with
  | none =>
    refine ⟨false, b, rfl, ?_, fun _ => rfl⟩
    simp only [true_iff]
    intro m hm hsq
    have := List.find?_eq_none.mp hf m hm
    exact this ((sameSquares_iff move m).mpr hsq)
  | some m =>
    refine ⟨true, b.makeMove m, rfl, ?_, fun h => by simp at h⟩
    simp only [Bool.true_eq_false, false_iff, not_forall]
    refine ⟨m, List.mem_of_find?_eq_some hf, ?_⟩
    have := List.find?_some hf
    simpa using (sameSquares_iff move m).mp this

theorem tryMakeMove_failure_witness :
    promoBoard.tryMakeMove 0 badCandidate = some (false, promoBoard) := by
  obtain ⟨ok, b', h1, h2, h3⟩ := tryMakeMove_failure 0 promoBoard badCandidate
    [promoMove Promotion.Queen, promoMove Promotion.Rook, promoMove Promotion.Knight,
      promoMove Promotion.Bishop] (by decide)
  have hok : ok = false := h2.mpr (by decide)
  rw [h1, hok, h3 hok]

/-- C5. Two candidates with the same origin and destination get the same
answer and the same board from `tryMakeMove`, whatever their promotion and
flags. On success the board is `makeMove` of the first move of
`legalMovesFrom` with that origin and destination, whose flags are the
generator's and describe the move rightly. And the call does succeed, for both
candidates and with that board, whenever `legalMovesFrom` returns a move to
the candidate's destination. -/
theorem tryMakeMove_canonical (fuel : Nat) (b : Board) (mv1 mv2 : Move)
    (hfrom : mv1.from_ = mv2.from_) (hto : mv1.to_ = mv2.to_) :
    b.tryMakeMove fuel mv1 = b.tryMakeMove fuel mv2 ∧
    (∀ b', b.tryMakeMove fuel mv1 = some (true, b') →
      ∃ legal m, b.legalMovesFrom fuel mv1.from_ = some legal ∧ m ∈ legal ∧
        legal.find? (sameSquares mv1) = some m ∧
        m.from_ = mv1.from_ ∧ m.to_ = mv1.to_ ∧ FlagsCorrect b m ∧ b' = b.makeMove m) ∧
    (∀ legal, b.legalMovesFrom fuel mv1.from_ = some legal →
      (∃ m0 ∈ legal, m0.to_ = mv1.to_) →
      ∃ m ∈ legal, m.from_ = mv1.from_ ∧ m.to_ = mv1.to_ ∧ FlagsCorrect b m ∧
        b.tryMakeMove fuel mv1 = some (true, b.makeMove m) ∧
        b.tryMakeMove fuel mv2 = some (true, b.makeMove m)) := by
  have heq : b.tryMakeMove fuel mv1 = b.tryMakeMove fuel mv2 := by
    have hs : sameSquares mv1 = sameSquares mv2 := by
      funext m
      simp [sameSquares, hfrom, hto]
    unfold Board.tryMakeMove
    rw [hfrom, hs]
  have hflags : ∀ legal, b.legalMovesFrom fuel mv1.from_ = some legal → ∀ m ∈ legal,
      m.from_ = mv1.from_ ∧ FlagsCorrect b m := by
    intro legal hl m hm
    obtain ⟨pseudo, hg, _, rfl⟩ := (legalMovesFrom_eq_some fuel b _ legal).mp hl
    have hmp := List.mem_of_mem_filter hm
    exact ⟨(generateFrom_origin _ b _ pseudo hg m hmp).1,
      generateFrom_flagsCorrect _ b _ pseudo hg m hmp⟩
  refine ⟨heq, ?_, ?_⟩
  · intro b' h
    cases hl : b.legalMovesFrom fuel mv1.from_ with
    | none => simp [Board.tryMakeMove, hl] at h
    | some legal =>
      rw [tryMakeMove_of_legal fuel b mv1 legal hl] at h
      cases hf : legal.find? (sameSquares mv1) with
      | none => simp [hf] at h
      | some m =>
        simp only [hf, Option.some.injEq, Prod.mk.injEq, true_and] at h
        have hs := (sameSquares_iff mv1 m).mp (List.find?_some hf)
        have hm := List.mem_of_find?_eq_some hf
        exact ⟨legal, m, rfl, hm, hf, hs.1, hs.2, (hflags legal hl m hm).2, h.symm⟩
  · rintro legal hl ⟨m0, hm0, hto0⟩
    have h0 : sameSquares mv1 m0 = true :=
      (sameSquares_iff mv1 m0).mpr ⟨(hflags legal hl m0 hm0).1, hto0⟩
    cases hf : legal.find? (sameSquares mv1) with
    | none => exact absurd h0 (by simpa using List.find?_eq_none.mp hf m0 hm0)
    | some m =>
      have hs := (sameSquares_iff mv1 m).mp (List.find?_some hf)
      have hm := List.mem_of_find?_eq_some hf
      have h1 : b.tryMakeMove fuel mv1 = some (true, b.makeMove m) := by
        rw [tryMakeMove_of_legal fuel b mv1 legal hl, hf]
      exact ⟨m, hm, hs.1, hs.2, (hflags legal hl m hm).2, h1, heq ▸ h1⟩

theorem tryMakeMove_canonical_witness :
    ∃ m, m.isCastling = true ∧ FlagsCorrect castleBoard m ∧
      castleBoard.tryMakeMove 1 (quiet 7 4 7 6) = some (true, castleBoard.makeMove m) ∧
      castleBoard.tryMakeMove 1 ⟨⟨7, 4⟩, ⟨7, 6⟩, Promotion.Queen, true, true, false⟩ =
        some (true, castleBoard.makeMove m) ∧
      (castleBoard.makeMove m).getPiece ⟨7, 5⟩ = some ⟨PieceType.Rook, PieceColor.White⟩ := by
  obtain ⟨m, hm, _, hto, hfl, h1, h2⟩ :=
    (tryMakeMove_canonical 1 castleBoard (quiet 7 4 7 6)
      ⟨⟨7, 4⟩, ⟨7, 6⟩, Promotion.Queen, true, true, false⟩ rfl rfl).2.2
      [quiet 7 4 6 3, quiet 7 4 6 4, quiet 7 4 6 5, quiet 7 4 7 3, quiet 7 4 7 5,
        ⟨⟨7, 4⟩, ⟨7, 6⟩, Promotion.None, false, false, true⟩,
        ⟨⟨7, 4⟩, ⟨7, 2⟩, Promotion.None, false, false, true⟩]
      (by decide)
      ⟨⟨⟨7, 4⟩, ⟨7, 6⟩, Promotion.None, false, false, true⟩, by decide, rfl⟩
  have hmm : m = ⟨⟨7, 4⟩, ⟨7, 6⟩, Promotion.None, false, false, true⟩ := by
    have hall : ∀ x ∈ [quiet 7 4 6 3, quiet 7 4 6 4, quiet 7 4 6 5, quiet 7 4 7 3, quiet 7 4 7 5,
        (⟨⟨7, 4⟩, ⟨7, 6⟩, Promotion.None, false, false, true⟩ : Move),
        ⟨⟨7, 4⟩, ⟨7, 2⟩, Promotion.None, false, false, true⟩],
        x.to_ = (⟨7, 6⟩ : Position) → x = ⟨⟨7, 4⟩, ⟨7, 6⟩, Promotion.None, false, false, true⟩ := by
      decide
    exact hall m hm hto
  subst hmm
  exact ⟨_, rfl, hfl, h1, h2, by decide⟩

/-- C6 (amended). `tryMakeMove` matches on origin and destination only: when
`legalMovesFrom` of the candidate's origin returns, the move it applies is the
first returned legal move with the candidate's origin and destination,
whatever promotion type X the candidate names; that move never promotes to a
rook, bishop or knight. -/
theorem tryMakeMove_first_match (fuel : Nat) (b : Board) (cand : Move) (legal : List Move)
    (m : Move) (X : Promotion)
    (h : b.legalMovesFrom fuel cand.from_ = some legal)
    (hfind : legal.find? (sameSquares cand) = some m) :
    b.tryMakeMove fuel { cand with promotion := X } = some (true, b.makeMove m) ∧
    (m.promotion = Promotion.None ∨ m.promotion = Promotion.Queen) := by
  have h' : b.legalMovesFrom fuel ({ cand with promotion := X } : Move).from_ = some legal := h
  refine ⟨?_, find_legal_no_underpromotion fuel b cand.from_ cand legal m h hfind⟩
  rw [tryMakeMove_of_legal fuel b _ legal h', sameSquares_promotion, hfind]

theorem tryMakeMove_first_match_witness :
    promoBoard.tryMakeMove 0 (promoMove Promotion.Bishop) =
      some (true, promoBoard.makeMove (promoMove Promotion.Queen)) :=
  (tryMakeMove_first_match 0 promoBoard (promoMove Promotion.Knight)
    [promoMove Promotion.Queen, promoMove Promotion.Rook, promoMove Promotion.Knight,
      promoMove Promotion.Bishop]
    (promoMove Promotion.Queen) Promotion.Bishop (by decide) (by decide)).1

/-- C6 (as stated, refuted). On `promoBoard` the four promotions of the pawn
move a7-a8 are legal. For the candidate naming promotion Rook, the search of
`tryMakeMove` stops at the first legal move from a7 to a8, the Queen
promotion, and that is the move applied. -/
theorem tryMakeMove_ignores_promotion :
    promoBoard.legalMovesFrom 0 ⟨1, 0⟩ =
      some [promoMove Promotion.Queen, promoMove Promotion.Rook, promoMove Promotion.Knight,
        promoMove Promotion.Bishop] ∧
    [promoMove Promotion.Queen, promoMove Promotion.Rook, promoMove Promotion.Knight,
        promoMove Promotion.Bishop].find? (sameSquares (promoMove Promotion.Rook)) =
      some (promoMove Promotion.Queen) ∧
    promoBoard.tryMakeMove 0 (promoMove Promotion.Rook) =
      some (true, promoBoard.makeMove (promoMove Promotion.Queen)) ∧
    (promoMove Promotion.Queen).promotion ≠ Promotion.Rook := by
  have hl : promoBoard.legalMovesFrom 0 (promoMove Promotion.Rook).from_ =
      some [promoMove Promotion.Queen, promoMove Promotion.Rook, promoMove Promotion.Knight,
        promoMove Promotion.Bishop] := by decide
  refine ⟨hl, by decide, ?_, by decide⟩
  rw [tryMakeMove_of_legal 0 promoBoard _ _ hl]
  rfl

/-- C7 (amended). For a move between two different in-bounds squares whose
origin holds a piece P (an en-passant flag only with a change of column, a
castling flag on a king only from column 4): after `makeMove` the origin is
empty; with no promotion the destination holds P itself; with promotion Queen
and P a pawn reaching its last rank the destination holds a queen of P's
colour. Whatever stood on the destination before is gone. -/
theorem makeMove_destination (b : Board) (move : Move) (P : Piece)
    (hP : b.getPiece move.from_ = some P) (ht : inBounds move.to_ = true)
    (hne : move.from_ ≠ move.to_)
    (hep : move.isEnpassant = true → move.to_.col ≠ move.from_.col)
    (hcs : move.isCastling = true → P.type_ = PieceType.King → move.from_.col = 4) :
    (b.makeMove move).getPiece move.from_ = none ∧
    (move.promotion = Promotion.None → (b.makeMove move).getPiece move.to_ = some P) ∧
    (move.promotion = Promotion.Queen → P.type_ = PieceType.Pawn →
      move.to_.row = lastRank P.color_ →
      (b.makeMove move).getPiece move.to_ = some ⟨PieceType.Queen, P.color_⟩) := by
  have h := makeMove_origin_destination b move P hP ht hne hep hcs
  exact ⟨h.1, h.2.1, fun hpr _ _ => h.2.2 hpr⟩

theorem makeMove_destination_witness :
    (promoBoard.makeMove (promoMove Promotion.Queen)).getPiece ⟨1, 0⟩ = none ∧
    (promoBoard.makeMove (promoMove Promotion.Queen)).getPiece ⟨0, 0⟩ =
      some ⟨PieceType.Queen, PieceColor.White⟩ :=
  have h := makeMove_destination promoBoard (promoMove Promotion.Queen)
    ⟨PieceType.Pawn, PieceColor.White⟩ (by decide) (by decide) (by decide)
    (by decide) (by decide)
  ⟨h.1, h.2.2 rfl rfl rfl⟩

/-- C7 (as stated, refuted). On `promoBoard` the white pawn a7 moves to a8, its
last rank, with promotion Rook: after `makeMove` the destination holds a
white queen, not a white rook. And on `epBoard` the one-step advance of the
white pawn e5 with the en-passant flag set and no promotion leaves the
destination e6 empty: the flagged capture square is the origin, so the pawn is
removed before it is moved. -/
theorem makeMove_promotes_to_queen_only :
    promoBoard.getPiece ⟨1, 0⟩ = some ⟨PieceType.Pawn, PieceColor.White⟩ ∧
    (promoMove Promotion.Rook).to_.row = lastRank PieceColor.White ∧
    (promoBoard.makeMove (promoMove Promotion.Rook)).getPiece ⟨0, 0⟩ =
      some ⟨PieceType.Queen, PieceColor.White⟩ ∧
    (promoBoard.makeMove (promoMove Promotion.Rook)).getPiece ⟨0, 0⟩ ≠
      some ⟨PieceType.Rook, PieceColor.White⟩ ∧
    epBoard.getPiece ⟨3, 4⟩ = some ⟨PieceType.Pawn, PieceColor.White⟩ ∧
    (epBoard.makeMove ⟨⟨3, 4⟩, ⟨2, 4⟩, Promotion.None, false, true, false⟩).getPiece ⟨2, 4⟩ =
      none := by
  refine ⟨by decide, by decide, by decide, by decide, by decide, by decide⟩

/-- C8 (amended). For a move with the en-passant flag set, the castling flag
clear and no promotion, whose origin holds a piece P and whose destination is
in bounds on another row and another column: after `makeMove` the square
(origin row, destination column) is empty, P stands on the destination and the
origin is empty. -/
theorem makeMove_enpassant (b : Board) (move : Move) (P : Piece)
    (hP : b.getPiece move.from_ = some P) (ht : inBounds move.to_ = true)
    (hep : move.isEnpassant = true) (hcs : move.isCastling = false)
    (hpr : move.promotion = Promotion.None)
    (hrow : move.to_.row ≠ move.from_.row) (hcol : move.to_.col ≠ move.from_.col) :
    (b.makeMove move).getPiece ⟨move.from_.row, move.to_.col⟩ = none ∧
    (b.makeMove move).getPiece move.to_ = some P ∧
    (b.makeMove move).getPiece move.from_ = none := by
  have hf := inBounds_of_getPiece b _ _ hP
  have hne : move.from_ ≠ move.to_ := fun h => hrow (congrArg Position.row h).symm
  have hd := makeMove_origin_destination b move P hP ht hne (fun _ => hcol) (by simp [hcs])
  refine ⟨?_, hd.2.1 hpr, hd.1⟩
  have hc : inBounds ⟨move.from_.row, move.to_.col⟩ = true := by
    rw [inBounds_iff] at hf ht ⊢
    exact ⟨hf.1, hf.2.1, ht.2.2.1, ht.2.2.2⟩
  have h1 : (⟨move.from_.row, move.to_.col⟩ : Position) ≠ move.from_ := by
    intro h
    have h' := congrArg Position.col h
    exact hcol h'
  have h2 : (⟨move.from_.row, move.to_.col⟩ : Position) ≠ move.to_ := by
    intro h
    have h' := congrArg Position.row h
    exact hrow h'.symm
  rw [makeMove_getPiece_cases b move P _ hP ht hc, mmCastling_cell _ _ _ _ hc hf,
    mmEnpassant_cell _ _ _ hc hf ht]
  simp [hpr, h1, h2, hcs, hep]

theorem makeMove_enpassant_witness :
    (epBoard.makeMove ⟨⟨3, 4⟩, ⟨2, 5⟩, Promotion.None, true, true, false⟩).getPiece ⟨3, 5⟩ = none ∧
    (epBoard.makeMove ⟨⟨3, 4⟩, ⟨2, 5⟩, Promotion.None, true, true, false⟩).getPiece ⟨2, 5⟩ =
      some ⟨PieceType.Pawn, PieceColor.White⟩ ∧
    (epBoard.makeMove ⟨⟨3, 4⟩, ⟨2, 5⟩, Promotion.None, true, true, false⟩).getPiece ⟨3, 4⟩ = none :=
  makeMove_enpassant epBoard ⟨⟨3, 4⟩, ⟨2, 5⟩, Promotion.None, true, true, false⟩
    ⟨PieceType.Pawn, PieceColor.White⟩ (by decide) (by decide) rfl rfl rfl (by decide) (by decide)

/-- C8 (as stated, refuted). On `epBoard`, with the en-passant flag set: for
the move of the white pawn e5 onto f5, on its own row, the square (origin row,
destination column) is the destination itself and holds the pawn after
`makeMove`, so it is not empty; for the move of the same pawn to e6, in its own
column, that square is the origin, the pawn is removed before it is moved, and
the destination is empty after `makeMove`. -/
theorem makeMove_enpassant_degenerate :
    epBoard.getPiece ⟨3, 4⟩ = some ⟨PieceType.Pawn, PieceColor.White⟩ ∧
    (epBoard.makeMove ⟨⟨3, 4⟩, ⟨3, 5⟩, Promotion.None, true, true, false⟩).getPiece ⟨3, 5⟩ =
      some ⟨PieceType.Pawn, PieceColor.White⟩ ∧
    (epBoard.makeMove ⟨⟨3, 4⟩, ⟨2, 4⟩, Promotion.None, true, true, false⟩).getPiece ⟨2, 4⟩ =
      none := by
  refine ⟨by decide, by decide, by decide⟩

/-- C9 (amended). For a move with the castling flag set and no promotion whose
moving piece is a king on (r, 4): if the destination is (r, 6), after
`makeMove` the king is on (r, 6), what was on (r, 7) is on (r, 5), and (r, 4)
and (r, 7) are empty; if the destination is (r, 2), the king is on (r, 2),
what was on (r, 0) is on (r, 3), and (r, 4) and (r, 0) are empty. -/
theorem makeMove_castling (b : Board) (move : Move) (r : Int) (c : PieceColor)
    (hfrom : move.from_ = ⟨r, 4⟩)
    (hK : b.getPiece ⟨r, 4⟩ = some ⟨PieceType.King, c⟩)
    (hcs : move.isCastling = true) (hpr : move.promotion = Promotion.None) :
    (move.to_ = ⟨r, 6⟩ →
      (b.makeMove move).getPiece ⟨r, 6⟩ = some ⟨PieceType.King, c⟩ ∧
      (b.makeMove move).getPiece ⟨r, 5⟩ = b.getPiece ⟨r, 7⟩ ∧
      (b.makeMove move).getPiece ⟨r, 4⟩ = none ∧
      (b.makeMove move).getPiece ⟨r, 7⟩ = none) ∧
    (move.to_ = ⟨r, 2⟩ →
      (b.makeMove move).getPiece ⟨r, 2⟩ = some ⟨PieceType.King, c⟩ ∧
      (b.makeMove move).getPiece ⟨r, 3⟩ = b.getPiece ⟨r, 0⟩ ∧
      (b.makeMove move).getPiece ⟨r, 4⟩ = none ∧
      (b.makeMove move).getPiece ⟨r, 0⟩ = none) := by
  have hf4 := inBounds_of_getPiece b _ _ hK
  have hb : ∀ k : Int, 0 ≤ k → k < 8 → inBounds ⟨r, k⟩ = true := by
    intro k h0 h8
    rw [inBounds_iff] at hf4 ⊢
    exact ⟨hf4.1, hf4.2.1, h0, h8⟩
  have hg : ∀ k : Int, 0 ≤ k → k < 8 → cellAt b.board_ ⟨r, k⟩ = b.getPiece ⟨r, k⟩ :=
    fun k h0 h8 => (getPiece_eq_cellAt b _ (hb k h0 h8)).symm
  obtain ⟨from_, to_, pr, cap, ep, cs⟩ := move
  simp only at hfrom hcs hpr
  subst hfrom hcs hpr
  have hP : b.getPiece (Move.mk ⟨r, 4⟩ to_ Promotion.None cap ep true).from_ =
      some ⟨PieceType.King, c⟩ := hK
  constructor
  · intro hto
    simp only at hto
    subst hto
    have ht := hb 6 (by decide) (by decide)
    refine ⟨?_, ?_, ?_, ?_⟩
    · rw [makeMove_getPiece_cases b _ _ _ hP ht (hb 6 (by decide) (by decide)),
        mmCastling_cell _ _ _ _ hf4 hf4, mmEnpassant_cell _ _ _ hf4 hf4 ht]
      simp [hg 4 (by decide) (by decide), hK]
    · rw [makeMove_getPiece_cases b _ _ _ hP ht (hb 5 (by decide) (by decide)),
        mmCastling_cell _ _ _ _ (hb 5 (by decide) (by decide)) hf4,
        mmEnpassant_cell _ _ _ (hb 7 (by decide) (by decide)) hf4 ht]
      simp [hg 7 (by decide) (by decide)]
    · rw [makeMove_getPiece_cases b _ _ _ hP ht (hb 4 (by decide) (by decide))]
      simp
    · rw [makeMove_getPiece_cases b _ _ _ hP ht (hb 7 (by decide) (by decide)),
        mmCastling_cell _ _ _ _ (hb 7 (by decide) (by decide)) hf4]
      simp
  · intro hto
    simp only at hto
    subst hto
    have ht := hb 2 (by decide) (by decide)
    refine ⟨?_, ?_, ?_, ?_⟩
    · rw [makeMove_getPiece_cases b _ _ _ hP ht (hb 2 (by decide) (by decide)),
        mmCastling_cell _ _ _ _ hf4 hf4, mmEnpassant_cell _ _ _ hf4 hf4 ht]
      simp [hg 4 (by decide) (by decide), hK]
    · rw [makeMove_getPiece_cases b _ _ _ hP ht (hb 3 (by decide) (by decide)),
        mmCastling_cell _ _ _ _ (hb 3 (by decide) (by decide)) hf4,
        mmEnpassant_cell _ _ _ (hb 0 (by decide) (by decide)) hf4 ht]
      simp [hg 0 (by decide) (by decide)]
    · rw [makeMove_getPiece_cases b _ _ _ hP ht (hb 4 (by decide) (by decide))]
      simp
    · rw [makeMove_getPiece_cases b _ _ _ hP ht (hb 0 (by decide) (by decide)),
        mmCastling_cell _ _ _ _ (hb 0 (by decide) (by decide)) hf4]
      simp

theorem makeMove_castling_witness :
    (castleBoard.makeMove ⟨⟨7, 4⟩, ⟨7, 6⟩, Promotion.None, false, false, true⟩).getPiece ⟨7, 6⟩ =
      some ⟨PieceType.King, PieceColor.White⟩ ∧
    (castleBoard.makeMove ⟨⟨7, 4⟩, ⟨7, 6⟩, Promotion.None, false, false, true⟩).getPiece ⟨7, 5⟩ =
      castleBoard.getPiece ⟨7, 7⟩ ∧
    (castleBoard.makeMove ⟨⟨7, 4⟩, ⟨7, 6⟩, Promotion.None, false, false, true⟩).getPiece ⟨7, 4⟩ =
      none ∧
    (castleBoard.makeMove ⟨⟨7, 4⟩, ⟨7, 6⟩, Promotion.None, false, false, true⟩).getPiece ⟨7, 7⟩ =
      none :=
  (makeMove_castling castleBoard ⟨⟨7, 4⟩, ⟨7, 6⟩, Promotion.None, false, false, true⟩ 7
    PieceColor.White rfl (by decide) rfl rfl).1 rfl

/-- C9 (as stated, refuted). On `castleBoard` the white king is on (7, 4); the
move from (7, 4) to (6, 6) has the castling flag set and destination column 6.
After `makeMove` the king is on (6, 6) and (7, 6) is empty, while the rook has
gone from (7, 7) to (7, 5). -/
theorem makeMove_castling_other_row :
    castleBoard.getPiece ⟨7, 4⟩ = some ⟨PieceType.King, PieceColor.White⟩ ∧
    (castleBoard.makeMove ⟨⟨7, 4⟩, ⟨6, 6⟩, Promotion.None, false, false, true⟩).getPiece ⟨7, 6⟩ =
      none ∧
    (castleBoard.makeMove ⟨⟨7, 4⟩, ⟨6, 6⟩, Promotion.None, false, false, true⟩).getPiece ⟨6, 6⟩ =
      some ⟨PieceType.King, PieceColor.White⟩ ∧
    (castleBoard.makeMove ⟨⟨7, 4⟩, ⟨6, 6⟩, Promotion.None, false, false, true⟩).getPiece ⟨7, 5⟩ =
      some ⟨PieceType.Rook, PieceColor.White⟩ := by
  refine ⟨by decide, by decide, by decide, by decide⟩

/-- C10. Castling rights are irrevocable: a right that is true after `makeMove`
was true before it, and over any sequence of applied moves a right that is
false at some point is false after every continuation. -/
theorem castling_rights_irrevocable (b : Board) (move : Move) (i : Fin 4) :
    ((b.makeMove move).castling_rights_ i = true → b.castling_rights_ i = true) ∧
    ∀ played later : List Move,
      (played.foldl Board.makeMove b).castling_rights_ i = false →
      ((played ++ later).foldl Board.makeMove b).castling_rights_ i = false := by
  refine ⟨makeMove_rights_le b move i, ?_⟩
  intro played later h
  rw [List.foldl_append]
  cases h' : (later.foldl Board.makeMove (played.foldl Board.makeMove b)).castling_rights_ i
  · rfl
  · rw [foldl_makeMove_rights_le later _ i h'] at h
    exact absurd h (by simp)

theorem castling_rights_irrevocable_witness :
    castleBoard.castling_rights_ 1 = true ∧
    (([rookOut] ++ [rookBack]).foldl Board.makeMove castleBoard).castling_rights_ 0 = false :=
  ⟨(castling_rights_irrevocable castleBoard rookOut 1).1 (by decide),
    (castling_rights_irrevocable castleBoard rookOut 0).2 [rookOut] [rookBack] (by decide)⟩

/-- C11. After an executed move (origin holds the piece P, destination in
bounds): if P is a king, both rights of its colour are false; if P is a rook
of colour c leaving c's home corner, the right of that corner is false; if the
move is flagged as a capture and lands on a rook home corner, the right of
that corner is false. Rights: 0 white kingside (7,7), 1 white queenside (7,0),
2 black kingside (0,7), 3 black queenside (0,0). -/
theorem castling_right_triggers (b : Board) (move : Move) (P : Piece)
    (hP : b.getPiece move.from_ = some P) (ht : inBounds move.to_ = true) :
    (P.type_ = PieceType.King →
      (P.color_ = PieceColor.White → (b.makeMove move).castling_rights_ 0 = false ∧
        (b.makeMove move).castling_rights_ 1 = false) ∧
      (P.color_ = PieceColor.Black → (b.makeMove move).castling_rights_ 2 = false ∧
        (b.makeMove move).castling_rights_ 3 = false)) ∧
    (P.type_ = PieceType.Rook →
      (P.color_ = PieceColor.White →
        (move.from_ = ⟨7, 7⟩ → (b.makeMove move).castling_rights_ 0 = false) ∧
        (move.from_ = ⟨7, 0⟩ → (b.makeMove move).castling_rights_ 1 = false)) ∧
      (P.color_ = PieceColor.Black →
        (move.from_ = ⟨0, 7⟩ → (b.makeMove move).castling_rights_ 2 = false) ∧
        (move.from_ = ⟨0, 0⟩ → (b.makeMove move).castling_rights_ 3 = false))) ∧
    (move.isCapture = true →
      (move.to_ = ⟨7, 7⟩ → (b.makeMove move).castling_rights_ 0 = false) ∧
      (move.to_ = ⟨7, 0⟩ → (b.makeMove move).castling_rights_ 1 = false) ∧
      (move.to_ = ⟨0, 7⟩ → (b.makeMove move).castling_rights_ 2 = false) ∧
      (move.to_ = ⟨0, 0⟩ → (b.makeMove move).castling_rights_ 3 = false)) := by
  have key := makeMove_right_of_trigger b move P
  refine ⟨fun hK => ⟨fun hW => ⟨?_, ?_⟩, fun hB => ⟨?_, ?_⟩⟩,
    fun hR => ⟨fun hW => ⟨fun hfr => ?_, fun hfr => ?_⟩, fun hB => ⟨fun hfr => ?_, fun hfr => ?_⟩⟩,
    fun hC => ⟨fun hto => ?_, fun hto => ?_, fun hto => ?_, fun hto => ?_⟩⟩
  · exact key 0 hP ht (Or.inl ⟨hK, hW, Or.inl rfl⟩)
  · exact key 1 hP ht (Or.inl ⟨hK, hW, Or.inr rfl⟩)
  · exact key 2 hP ht (Or.inr (Or.inl ⟨hK, hB, Or.inl rfl⟩))
  · exact key 3 hP ht (Or.inr (Or.inl ⟨hK, hB, Or.inr rfl⟩))
  · exact key 0 hP ht (Or.inr (Or.inr (Or.inl ⟨hR, hW, by rw [hfr], Or.inl ⟨by rw [hfr], rfl⟩⟩)))
  · exact key 1 hP ht (Or.inr (Or.inr (Or.inl ⟨hR, hW, by rw [hfr], Or.inr ⟨by rw [hfr], rfl⟩⟩)))
  · exact key 2 hP ht
      (Or.inr (Or.inr (Or.inr (Or.inl ⟨hR, hB, by rw [hfr], Or.inl ⟨by rw [hfr], rfl⟩⟩))))
  · exact key 3 hP ht
      (Or.inr (Or.inr (Or.inr (Or.inl ⟨hR, hB, by rw [hfr], Or.inr ⟨by rw [hfr], rfl⟩⟩))))
  · exact key 0 hP ht
      (Or.inr (Or.inr (Or.inr (Or.inr ⟨hC, Or.inl ⟨by rw [hto], by rw [hto], rfl⟩⟩))))
  · exact key 1 hP ht
      (Or.inr (Or.inr (Or.inr (Or.inr ⟨hC, Or.inr (Or.inl ⟨by rw [hto], by rw [hto], rfl⟩)⟩))))
  · exact key 2 hP ht (Or.inr (Or.inr (Or.inr (Or.inr
      ⟨hC, Or.inr (Or.inr (Or.inl ⟨by rw [hto], by rw [hto], rfl⟩))⟩))))
  · exact key 3 hP ht (Or.inr (Or.inr (Or.inr (Or.inr
      ⟨hC, Or.inr (Or.inr (Or.inr ⟨by rw [hto], by rw [hto], rfl⟩))⟩))))

theorem castling_right_triggers_witness :
    (castleBoard.makeMove rookOut).castling_rights_ 0 = false :=
  ((castling_right_triggers castleBoard rookOut ⟨PieceType.Rook, PieceColor.White⟩
    (by decide) (by decide)).2.1 rfl).1 rfl |>.1 rfl

/-- C12 (amended). For a move whose origin holds a piece P and whose
destination is in bounds: after `makeMove` the en-passant target is
(origin row - 1, origin column) for a white and (origin row + 1, origin
column) for a black P, when P is a pawn whose destination row differs from its
origin row by exactly 2; in every other case it is (-1, -1). -/
theorem makeMove_enPassantTarget (b : Board) (move : Move) (P : Piece)
    (hP : b.getPiece move.from_ = some P) (ht : inBounds move.to_ = true) :
    (P.type_ = PieceType.Pawn ∧
        (move.to_.row - move.from_.row = 2 ∨ move.to_.row - move.from_.row = -2) →
      (P.color_ = PieceColor.White →
        (b.makeMove move).en_passant_target_ = ⟨move.from_.row - 1, move.from_.col⟩) ∧
      (P.color_ = PieceColor.Black →
        (b.makeMove move).en_passant_target_ = ⟨move.from_.row + 1, move.from_.col⟩)) ∧
    (¬ (P.type_ = PieceType.Pawn ∧
        (move.to_.row - move.from_.row = 2 ∨ move.to_.row - move.from_.row = -2)) →
      (b.makeMove move).en_passant_target_ = ⟨-1, -1⟩) := by
  rw [makeMove_target_of_piece b move P hP ht]
  unfold mmEnPassantTarget
  constructor
  · rintro ⟨hpawn, hd⟩
    simp only [hpawn, hd, if_true]
    constructor
    · intro hW
      simp only [hW, if_true]
      rfl
    · intro hB
      simp [hB]
  · intro hn
    by_cases hpawn : P.type_ = PieceType.Pawn
    · have hd : ¬ (move.to_.row - move.from_.row = 2 ∨ move.to_.row - move.from_.row = -2) :=
        fun h => hn ⟨hpawn, h⟩
      simp only [hpawn, hd, if_true, if_false]
    · simp only [hpawn, if_false]

theorem makeMove_enPassantTarget_witness :
    (startBoard.makeMove (quiet 6 4 4 4)).en_passant_target_ = ⟨6 - 1, 4⟩ :=
  ((makeMove_enPassantTarget startBoard (quiet 6 4 4 4) ⟨PieceType.Pawn, PieceColor.White⟩
    (by decide) (by decide)).1 ⟨rfl, by decide⟩).1 rfl

/-- C12 (as stated, refuted). On `epBoard` the en-passant target is (2, 5).
The move of the white king from (7, 7) to (8, 7) has an origin that holds a
piece and an out-of-bounds destination: `makeMove` returns at its bounds
guard, and the en-passant target is still (2, 5), not (-1, -1), although the
moving piece is not a pawn. -/
theorem makeMove_enPassantTarget_guarded :
    epBoard.getPiece ⟨7, 7⟩ = some ⟨PieceType.King, PieceColor.White⟩ ∧
    (epBoard.makeMove ⟨⟨7, 7⟩, ⟨8, 7⟩, Promotion.None, false, false, false⟩).en_passant_target_ =
      ⟨2, 5⟩ ∧
    (epBoard.makeMove ⟨⟨7, 7⟩, ⟨8, 7⟩, Promotion.None, false, false, false⟩).en_passant_target_ ≠
      ⟨-1, -1⟩ := by
  refine ⟨by decide, by decide, by decide⟩

/-- C13. After a move m1 (in particular a two-square pawn advance) and a
following executed move m2 (its origin holds a piece, its destination is in
bounds) that is not a pawn move over exactly two rows, no pseudo-legal and no
legal move of the resulting board is flagged as en passant; and on every
board whose en-passant target is none, (-1, -1), no generated move is an
en-passant capture. -/
theorem enpassant_window :
    (∀ (b : Board) (m1 m2 : Move) (P2 : Piece),
      (b.makeMove m1).getPiece m2.from_ = some P2 → inBounds m2.to_ = true →
      ¬ (P2.type_ = PieceType.Pawn ∧
          (m2.to_.row - m2.from_.row = 2 ∨ m2.to_.row - m2.from_.row = -2)) →
      NoEnpassantOffered ((b.makeMove m1).makeMove m2)) ∧
    (∀ b : Board, b.en_passant_target_ = ⟨-1, -1⟩ → NoEnpassantOffered b) := by
  have gen : ∀ b : Board, b.en_passant_target_ = ⟨-1, -1⟩ → NoEnpassantOffered b := by
    intro b hb
    apply noEnpassant_of_target
    rw [hb]
    decide
  refine ⟨?_, gen⟩
  intro b m1 m2 P2 hP ht hnot
  apply gen
  rw [makeMove_target_of_piece _ m2 P2 hP ht]
  unfold mmEnPassantTarget
  by_cases hpawn : P2.type_ = PieceType.Pawn
  · have hd : ¬ (m2.to_.row - m2.from_.row = 2 ∨ m2.to_.row - m2.from_.row = -2) :=
      fun h => hnot ⟨hpawn, h⟩
    simp only [hpawn, hd, if_true, if_false]
  · simp only [hpawn, if_false]

theorem enpassant_window_witness :
    ((startBoard.makeMove (quiet 6 4 4 4)).makeMove (quiet 0 6 2 5)).legalMovesFrom 0 ⟨4, 4⟩ =
      some [quiet 4 4 3 4] ∧ (quiet 4 4 3 4).isEnpassant = false :=
  have h : ((startBoard.makeMove (quiet 6 4 4 4)).makeMove (quiet 0 6 2 5)).legalMovesFrom 0
      ⟨4, 4⟩ = some [quiet 4 4 3 4] := by decide
  ⟨h, (enpassant_window.1 startBoard (quiet 6 4 4 4) (quiet 0 6 2 5)
    ⟨PieceType.Knight, PieceColor.Black⟩ (by decide) (by decide) (by decide)).2.2.2.1
    0 ⟨4, 4⟩ [quiet 4 4 3 4] h (quiet 4 4 3 4) (by simp)⟩

/-- C14. On the standard starting position, White to move, `legalMovesFrom`
of (6,4) returns the one-step and the two-step advance, so it contains
(6,4) -> (4,4); `tryMakeMove` of any candidate with that origin and destination
succeeds, and afterwards the white pawn is on (4,4), (6,4) is empty, the
en-passant target is (5,4) and Black is to move. This holds for every amount
of fuel. -/
theorem scenario_e2_e4 (fuel : Nat) (cand : Move)
    (hfrom : cand.from_ = ⟨6, 4⟩) (hto : cand.to_ = ⟨4, 4⟩) :
    startBoard.turn_ = PieceColor.White ∧
    startBoard.legalMovesFrom fuel ⟨6, 4⟩ = some [quiet 6 4 5 4, quiet 6 4 4 4] ∧
    quiet 6 4 4 4 ∈ [quiet 6 4 5 4, quiet 6 4 4 4] ∧
    startBoard.tryMakeMove fuel cand = some (true, startBoard.makeMove (quiet 6 4 4 4)) ∧
    (startBoard.makeMove (quiet 6 4 4 4)).getPiece ⟨4, 4⟩ =
      some ⟨PieceType.Pawn, PieceColor.White⟩ ∧
    (startBoard.makeMove (quiet 6 4 4 4)).getPiece ⟨6, 4⟩ = none ∧
    (startBoard.makeMove (quiet 6 4 4 4)).en_passant_target_ = ⟨5, 4⟩ ∧
    (startBoard.makeMove (quiet 6 4 4 4)).turn_ = PieceColor.Black := by
  have h0 : startBoard.legalMovesFrom 0 ⟨6, 4⟩ = some [quiet 6 4 5 4, quiet 6 4 4 4] := by decide
  have hl := legalMovesFrom_mono (Nat.zero_le fuel) startBoard ⟨6, 4⟩ _ h0
  refine ⟨rfl, hl, by simp, ?_, by decide, by decide, by decide, by decide⟩
  have hl' : startBoard.legalMovesFrom fuel cand.from_ =
      some [quiet 6 4 5 4, quiet 6 4 4 4] := by rw [hfrom]; exact hl
  rw [tryMakeMove_of_legal fuel startBoard cand _ hl']
  have hfind : [quiet 6 4 5 4, quiet 6 4 4 4].find? (sameSquares cand) = some (quiet 6 4 4 4) := by
    simp [List.find?, sameSquares, hfrom, hto, quiet]
  rw [hfind]

theorem scenario_e2_e4_witness :
    startBoard.tryMakeMove 0 (quiet 6 4 4 4) =
      some (true, startBoard.makeMove (quiet 6 4 4 4)) :=
  (scenario_e2_e4 0 (quiet 6 4 4 4) rfl rfl).2.2.2.1

/-- C15 (amended). For a pawn standing one step from its last rank: the moves
generated onto the forward square, when it is empty, are exactly the four
promotions Queen, Rook, Knight, Bishop, identical in every other field; the
moves generated onto a diagonal square holding a piece of another colour that
are not en-passant captures are exactly the four promotion captures Queen,
Rook, Bishop, Knight, identical in every other field, and they are all the
moves onto that square unless it is the board's en-passant target. -/
theorem promotion_completeness (b : Board) (f : Position) (me : Piece)
    (hP : b.getPiece f = some me) (hty : me.type_ = PieceType.Pawn)
    (hrow : f.row + pawnDir me.color_ = lastRank me.color_) :
    (∀ att, generateFrom att b f = some (add_pawnMoves b f)) ∧
    (b.getPiece ⟨f.row + pawnDir me.color_, f.col⟩ = none →
      (add_pawnMoves b f).filter (fun m => decide (m.to_ = ⟨f.row + pawnDir me.color_, f.col⟩)) =
        [Promotion.Queen, Promotion.Rook, Promotion.Knight, Promotion.Bishop].map
          fun X => ⟨f, ⟨f.row + pawnDir me.color_, f.col⟩, X, false, false, false⟩) ∧
    (∀ dc t, dc = -1 ∨ dc = 1 →
      b.getPiece (diagonalSquare f me.color_ dc) = some t → t.color_ ≠ me.color_ →
      (add_pawnMoves b f).filter
          (fun m => decide (m.to_ = diagonalSquare f me.color_ dc) && !m.isEnpassant) =
        ([Promotion.Queen, Promotion.Rook, Promotion.Bishop, Promotion.Knight].map
          fun X => ⟨f, diagonalSquare f me.color_ dc, X, true, false, false⟩) ∧
      (b.en_passant_target_ ≠ diagonalSquare f me.color_ dc →
        (add_pawnMoves b f).filter (fun m => decide (m.to_ = diagonalSquare f me.color_ dc)) =
          [Promotion.Queen, Promotion.Rook, Promotion.Bishop, Promotion.Knight].map
            fun X => ⟨f, diagonalSquare f me.color_ dc, X, true, false, false⟩)) := by
  refine ⟨fun att => generateFrom_pawn att b f me hP hty, ?_, ?_⟩
  · intro hone
    have hf := (inBounds_iff f).mp (inBounds_of_getPiece b _ _ hP)
    have hlast : lastRank me.color_ = 0 ∨ lastRank me.color_ = 7 := by
      unfold lastRank; split_ifs <;> simp
    have hstart : ¬ f.row = startRank me.color_ := by
      unfold pawnDir lastRank at hrow
      unfold startRank
      split_ifs at hrow ⊢ <;> omega
    have hb1 : inBounds ⟨f.row + pawnDir me.color_, f.col⟩ = true := by
      rw [inBounds_iff]; simp only; omega
    rw [add_pawnMoves_eq b f me hP hty, List.filter_append, List.filter_append]
    have hcaps : ∀ dc : Int, dc ≠ 0 →
        (pawnCaptures b f me (pawnDir me.color_) (lastRank me.color_) b.en_passant_target_
          dc).filter (fun m => decide (m.to_ = ⟨f.row + pawnDir me.color_, f.col⟩)) = [] := by
      intro dc hdc
      apply filter_eq_nil_of
      intro m hm
      have := (pawnCaptures_shape _ _ _ _ _ _ _ m hm).2.1
      rw [this]
      simp only [decide_eq_false_iff_not, Position.mk.injEq, true_and]
      omega
    rw [hcaps (-1) (by decide), hcaps 1 (by decide), List.append_nil, List.append_nil]
    unfold specPawnForward
    dsimp only
    rw [if_pos ⟨hb1, hone⟩, if_pos hrow, if_neg (fun h => hstart h.1), List.append_nil]
    apply filter_eq_self_of
    intro m hm
    simp only [List.mem_map] at hm
    obtain ⟨X, _, rfl⟩ := hm
    simp
  · intro dc t hdc ht hc
    constructor
    · rw [filter_diagonal_last_rank b f me t dc hP hty hrow hdc ht hc (fun m => !m.isEnpassant)]
      split_ifs <;> rfl
    · intro hne
      have := filter_diagonal_last_rank b f me t dc hP hty hrow hdc ht hc (fun _ => true)
      simp only [Bool.and_true, List.filter_true, if_neg hne, List.append_nil] at this
      exact this

theorem promotion_completeness_witness :
    (add_pawnMoves promoBoard ⟨1, 0⟩).filter (fun m => decide (m.to_ = ⟨1 + -1, 0⟩)) =
      [Promotion.Queen, Promotion.Rook, Promotion.Knight, Promotion.Bishop].map
        fun X => ⟨⟨1, 0⟩, ⟨1 + -1, 0⟩, X, false, false, false⟩ :=
  (promotion_completeness promoBoard ⟨1, 0⟩ ⟨PieceType.Pawn, PieceColor.White⟩
    (by decide) rfl (by decide)).2.1 (by decide)

/-- C15 (as stated, refuted). On `epPromoBoard` the white pawn a7 stands one
step from its last rank and the diagonal square b8 holds a black knight; b8
is also the en-passant target. The generator yields five moves from a7 to b8:
the four promotion captures and an en-passant capture without promotion. -/
theorem promotion_with_enpassant_fifth :
    generateFrom (isSquareAttacked 0) epPromoBoard ⟨1, 0⟩ =
      some [⟨⟨1, 0⟩, ⟨0, 0⟩, Promotion.Queen, false, false, false⟩,
        ⟨⟨1, 0⟩, ⟨0, 0⟩, Promotion.Rook, false, false, false⟩,
        ⟨⟨1, 0⟩, ⟨0, 0⟩, Promotion.Knight, false, false, false⟩,
        ⟨⟨1, 0⟩, ⟨0, 0⟩, Promotion.Bishop, false, false, false⟩,
        ⟨⟨1, 0⟩, ⟨0, 1⟩, Promotion.Queen, true, false, false⟩,
        ⟨⟨1, 0⟩, ⟨0, 1⟩, Promotion.Rook, true, false, false⟩,
        ⟨⟨1, 0⟩, ⟨0, 1⟩, Promotion.Bishop, true, false, false⟩,
        ⟨⟨1, 0⟩, ⟨0, 1⟩, Promotion.Knight, true, false, false⟩,
        ⟨⟨1, 0⟩, ⟨0, 1⟩, Promotion.None, true, true, false⟩] ∧
    epPromoBoard.getPiece ⟨0, 1⟩ = some ⟨PieceType.Knight, PieceColor.Black⟩ ∧
    ((add_pawnMoves epPromoBoard ⟨1, 0⟩).filter
      (fun m => decide (m.from_ = ⟨1, 0⟩ ∧ m.to_ = ⟨0, 1⟩))).length = 5 := by
  refine ⟨by decide, by decide, by decide⟩

/-- C16. A move with `isCastling` set is generated from a square only if that
square holds a king, of colour `c` say, standing on (home row of `c`, 4), and
the move goes either to column 6 of the home row, and then the kingside right
of `c` is true, columns 5 and 6 of the home row are empty and the attack query
for the opponent answers false on columns 4, 5 and 6, or to column 2 of the
home row, and then the queenside right of `c` is true, columns 1, 2 and 3 are
empty and the attack query answers false on columns 4, 3 and 2. -/
theorem castling_generation_conditions (att : AttackQuery) (b : Board) (f : Position)
    (ms : List Move) (m : Move) (h : generateFrom att b f = some ms) (hm : m ∈ ms)
    (hc : m.isCastling = true) :
    ∃ me, b.getPiece f = some me ∧ me.type_ = PieceType.King ∧ m.from_ = f ∧
      f = ⟨homeRow me.color_, 4⟩ ∧
      ((m.to_ = ⟨homeRow me.color_, 6⟩ ∧
          b.castling_rights_ (kingsideRight me.color_) = true ∧
          b.getPiece ⟨homeRow me.color_, 5⟩ = none ∧
          b.getPiece ⟨homeRow me.color_, 6⟩ = none ∧
          att b ⟨homeRow me.color_, 4⟩ (opponentOf me.color_) = some false ∧
          att b ⟨homeRow me.color_, 5⟩ (opponentOf me.color_) = some false ∧
          att b ⟨homeRow me.color_, 6⟩ (opponentOf me.color_) = some false) ∨
       (m.to_ = ⟨homeRow me.color_, 2⟩ ∧
          b.castling_rights_ (queensideRight me.color_) = true ∧
          b.getPiece ⟨homeRow me.color_, 1⟩ = none ∧
          b.getPiece ⟨homeRow me.color_, 2⟩ = none ∧
          b.getPiece ⟨homeRow me.color_, 3⟩ = none ∧
          att b ⟨homeRow me.color_, 4⟩ (opponentOf me.color_) = some false ∧
          att b ⟨homeRow me.color_, 3⟩ (opponentOf me.color_) = some false ∧
          att b ⟨homeRow me.color_, 2⟩ (opponentOf me.color_) = some false)) := by
  obtain ⟨me, hP, hk, hks⟩ := generateFrom_castling_king att b f ms h m hm hc
  obtain ⟨ks, qs, hK, hQ, rfl⟩ := add_kingMoves_eq_some att b f me ms hP hks
  refine ⟨me, hP, hk, ?_⟩
  simp only [List.mem_append] at hm
  rcases hm with (hm | hm) | hm
  · obtain ⟨d, _, hd⟩ := List.mem_flatMap.mp hm
    have := (stepMove_flags _ _ _ _ m hd).2.2.2
    rw [this] at hc
    exact absurd hc (by decide)
  · rcases castleSide_eq_some _ _ _ _ _ _ _ _ _ _ hK with rfl | ⟨rfl, hf, hr, hb, ha⟩
    · simp at hm
    · simp only [List.mem_singleton] at hm
      subst hm
      refine ⟨rfl, hf, Or.inl ⟨rfl, hr, hb _ (by simp), hb _ (by simp), ha _ (by simp),
        ha _ (by simp), ha _ (by simp)⟩⟩
  · rcases castleSide_eq_some _ _ _ _ _ _ _ _ _ _ hQ with rfl | ⟨rfl, hf, hr, hb, ha⟩
    · simp at hm
    · simp only [List.mem_singleton] at hm
      subst hm
      refine ⟨rfl, hf, Or.inr ⟨rfl, hr, hb _ (by simp), hb _ (by simp), hb _ (by simp),
        ha _ (by simp), ha _ (by simp), ha _ (by simp)⟩⟩

theorem castling_generation_conditions_witness :
    ∃ me, castleBoard.getPiece ⟨7, 4⟩ = some me ∧ me.type_ = PieceType.King ∧
      (⟨⟨7, 4⟩, ⟨7, 6⟩, Promotion.None, false, false, true⟩ : Move).from_ = ⟨7, 4⟩ ∧
      (⟨7, 4⟩ : Position) = ⟨homeRow me.color_, 4⟩ ∧
      (((⟨⟨7, 4⟩, ⟨7, 6⟩, Promotion.None, false, false, true⟩ : Move).to_ =
            ⟨homeRow me.color_, 6⟩ ∧
          castleBoard.castling_rights_ (kingsideRight me.color_) = true ∧
          castleBoard.getPiece ⟨homeRow me.color_, 5⟩ = none ∧
          castleBoard.getPiece ⟨homeRow me.color_, 6⟩ = none ∧
          isSquareAttacked 1 castleBoard ⟨homeRow me.color_, 4⟩ (opponentOf me.color_) =
            some false ∧
          isSquareAttacked 1 castleBoard ⟨homeRow me.color_, 5⟩ (opponentOf me.color_) =
            some false ∧
          isSquareAttacked 1 castleBoard ⟨homeRow me.color_, 6⟩ (opponentOf me.color_) =
            some false) ∨
       ((⟨⟨7, 4⟩, ⟨7, 6⟩, Promotion.None, false, false, true⟩ : Move).to_ =
            ⟨homeRow me.color_, 2⟩ ∧
          castleBoard.castling_rights_ (queensideRight me.color_) = true ∧
          castleBoard.getPiece ⟨homeRow me.color_, 1⟩ = none ∧
          castleBoard.getPiece ⟨homeRow me.color_, 2⟩ = none ∧
          castleBoard.getPiece ⟨homeRow me.color_, 3⟩ = none ∧
          isSquareAttacked 1 castleBoard ⟨homeRow me.color_, 4⟩ (opponentOf me.color_) =
            some false ∧
          isSquareAttacked 1 castleBoard ⟨homeRow me.color_, 3⟩ (opponentOf me.color_) =
            some false ∧
          isSquareAttacked 1 castleBoard ⟨homeRow me.color_, 2⟩ (opponentOf me.color_) =
            some false)) :=
  castling_generation_conditions (isSquareAttacked 1) castleBoard ⟨7, 4⟩
    [⟨⟨7, 4⟩, ⟨6, 3⟩, Promotion.None, false, false, false⟩,
      ⟨⟨7, 4⟩, ⟨6, 4⟩, Promotion.None, false, false, false⟩,
      ⟨⟨7, 4⟩, ⟨6, 5⟩, Promotion.None, false, false, false⟩,
      ⟨⟨7, 4⟩, ⟨7, 3⟩, Promotion.None, false, false, false⟩,
      ⟨⟨7, 4⟩, ⟨7, 5⟩, Promotion.None, false, false, false⟩,
      ⟨⟨7, 4⟩, ⟨7, 6⟩, Promotion.None, false, false, true⟩,
      ⟨⟨7, 4⟩, ⟨7, 2⟩, Promotion.None, false, false, true⟩]
    ⟨⟨7, 4⟩, ⟨7, 6⟩, Promotion.None, false, false, true⟩ (by decide) (by decide) rfl

/-- C17 (failing input). On `loneKingBoard`, the board the position loader
builds from "k7/8/8/8/8/8/8/4K3 w - - 0 1", no rook stands on h1 `(7,7)` or on
a1 `(7,0)`, yet the generator run on the white king e1 returns both castling
moves, and `legalMovesFrom` returns them as legal. -/
theorem castling_without_rook :
    loneKingBoard.getPiece ⟨7, 7⟩ = none ∧ loneKingBoard.getPiece ⟨7, 0⟩ = none ∧
    generateFrom (isSquareAttacked 1) loneKingBoard ⟨7, 4⟩ =
      some [⟨⟨7, 4⟩, ⟨6, 3⟩, Promotion.None, false, false, false⟩,
        ⟨⟨7, 4⟩, ⟨6, 4⟩, Promotion.None, false, false, false⟩,
        ⟨⟨7, 4⟩, ⟨6, 5⟩, Promotion.None, false, false, false⟩,
        ⟨⟨7, 4⟩, ⟨7, 3⟩, Promotion.None, false, false, false⟩,
        ⟨⟨7, 4⟩, ⟨7, 5⟩, Promotion.None, false, false, false⟩,
        ⟨⟨7, 4⟩, ⟨7, 6⟩, Promotion.None, false, false, true⟩,
        ⟨⟨7, 4⟩, ⟨7, 2⟩, Promotion.None, false, false, true⟩] ∧
    loneKingBoard.legalMovesFrom 1 ⟨7, 4⟩ =
      some [⟨⟨7, 4⟩, ⟨6, 3⟩, Promotion.None, false, false, false⟩,
        ⟨⟨7, 4⟩, ⟨6, 4⟩, Promotion.None, false, false, false⟩,
        ⟨⟨7, 4⟩, ⟨6, 5⟩, Promotion.None, false, false, false⟩,
        ⟨⟨7, 4⟩, ⟨7, 3⟩, Promotion.None, false, false, false⟩,
        ⟨⟨7, 4⟩, ⟨7, 5⟩, Promotion.None, false, false, false⟩,
        ⟨⟨7, 4⟩, ⟨7, 6⟩, Promotion.None, false, false, true⟩,
        ⟨⟨7, 4⟩, ⟨7, 2⟩, Promotion.None, false, false, true⟩] := by
  refine ⟨by decide, by decide, by decide, by decide⟩

/-- C18. For a pawn on `f`, the generator returns `add_pawnMoves`, and the
non-capturing moves in it are exactly, in order, the moves of the
specification: the square one step forward (row - 1 for White, row + 1 for
Black) if it is in bounds and empty, as the four promotion variants on the
last rank and as a single move without promotion otherwise, then the square
two steps forward if the pawn is on its starting rank (row 6 for White, row 1
for Black) and the one-step and two-step squares are both empty; each of them
has isCapture, isEnpassant and isCastling false. -/
theorem pawn_forward_moves (b : Board) (f : Position) (me : Piece)
    (hP : b.getPiece f = some me) (hty : me.type_ = PieceType.Pawn) :
    (∀ att, generateFrom att b f = some (add_pawnMoves b f)) ∧
    (add_pawnMoves b f).filter (fun m => !m.isCapture) = specPawnForward b f me.color_ ∧
    (∀ m ∈ add_pawnMoves b f, m.isCapture = false →
      m.from_ = f ∧ m.isEnpassant = false ∧ m.isCastling = false) := by
  have hfilter : (add_pawnMoves b f).filter (fun m => !m.isCapture) =
      specPawnForward b f me.color_ := by
    rw [add_pawnMoves_eq b f me hP hty, List.filter_append, List.filter_append,
      filter_eq_self_of _ _ (fun m hm => by simp [(specPawnForward_shape b f _ m hm).2.2.1]),
      filter_eq_nil_of _ _
        (fun m hm => by simp [(pawnCaptures_shape _ _ _ _ _ _ _ m hm).2.2.2.1]),
      filter_eq_nil_of _ _
        (fun m hm => by simp [(pawnCaptures_shape _ _ _ _ _ _ _ m hm).2.2.2.1]),
      List.append_nil, List.append_nil]
  refine ⟨fun att => generateFrom_pawn att b f me hP hty, hfilter, ?_⟩
  intro m hm hcap
  have hmem : m ∈ (add_pawnMoves b f).filter (fun m => !m.isCapture) :=
    List.mem_filter.mpr ⟨hm, by simp [hcap]⟩
  rw [hfilter] at hmem
  have := specPawnForward_shape b f _ m hmem
  exact ⟨this.1, this.2.2.2.1, this.2.2.2.2⟩

theorem pawn_forward_moves_witness :
    (add_pawnMoves startBoard ⟨6, 4⟩).filter (fun m => !m.isCapture) =
      specPawnForward startBoard ⟨6, 4⟩ PieceColor.White :=
  (pawn_forward_moves startBoard ⟨6, 4⟩ ⟨PieceType.Pawn, PieceColor.White⟩
    (by decide) rfl).2.1

/-- C19. For a pawn on `f` and each of its two diagonal-forward squares `d`
that is in bounds: an ordinary capture onto `d` (isCapture true, isEnpassant
false) is generated iff `d` holds a piece of another colour; an en-passant
capture onto `d` is generated iff `d` is the board's en-passant target,
whatever occupies `d`, and it is the one move with isCapture and isEnpassant
true and no promotion; every generated move onto `d` has isCapture true. And
every generated move that leaves the pawn's column goes to one of the two
diagonal-forward squares, in bounds. -/
theorem pawn_diagonal_moves (b : Board) (f : Position) (me : Piece)
    (hP : b.getPiece f = some me) (hty : me.type_ = PieceType.Pawn) :
    (∀ att, generateFrom att b f = some (add_pawnMoves b f)) ∧
    (∀ dc, dc = -1 ∨ dc = 1 → inBounds (diagonalSquare f me.color_ dc) = true →
      ((∃ m ∈ add_pawnMoves b f, m.to_ = diagonalSquare f me.color_ dc ∧
            m.isCapture = true ∧ m.isEnpassant = false) ↔
          ∃ t, b.getPiece (diagonalSquare f me.color_ dc) = some t ∧ t.color_ ≠ me.color_) ∧
      ((∃ m ∈ add_pawnMoves b f, m.to_ = diagonalSquare f me.color_ dc ∧
            m.isEnpassant = true) ↔
          b.en_passant_target_ = diagonalSquare f me.color_ dc) ∧
      (∀ m ∈ add_pawnMoves b f, m.to_ = diagonalSquare f me.color_ dc →
        m.from_ = f ∧ m.isCapture = true ∧ m.isCastling = false ∧
        (m.isEnpassant = true →
          m = ⟨f, diagonalSquare f me.color_ dc, Promotion.None, true, true, false⟩))) ∧
    (∀ m ∈ add_pawnMoves b f, m.to_.col ≠ f.col →
      ∃ dc, (dc = -1 ∨ dc = 1) ∧ m.to_ = diagonalSquare f me.color_ dc ∧
        inBounds (diagonalSquare f me.color_ dc) = true) := by
  refine ⟨fun att => generateFrom_pawn att b f me hP hty, ?_, ?_⟩
  · intro dc hdc hb
    have key := mem_add_pawnMoves_diagonal b f me hP hty dc hdc
    have mp := fun m => mem_pawnCaptures b f me (pawnDir me.color_) (lastRank me.color_)
      b.en_passant_target_ dc m
    unfold diagonalSquare at hb key ⊢
    refine ⟨⟨?_, ?_⟩, ⟨?_, ?_⟩, ?_⟩
    · rintro ⟨m, hm, hto, hcap, hep⟩
      obtain ⟨_, h | h⟩ := (mp m).mp ((key m).mp ⟨hm, hto⟩)
      · obtain ⟨t, ht, hc, _⟩ := h
        exact ⟨t, ht, hc⟩
      · obtain ⟨_, rfl⟩ := h
        exact absurd hep (by simp)
    · rintro ⟨t, ht, hc⟩
      by_cases hrow : f.row + pawnDir me.color_ = lastRank me.color_
      · refine ⟨⟨f, ⟨f.row + pawnDir me.color_, f.col + dc⟩, Promotion.Queen, true, false,
          false⟩, ?_, rfl, rfl, rfl⟩
        exact ((key _).mpr ((mp _).mpr ⟨hb, Or.inl ⟨t, ht, hc,
          Or.inl ⟨hrow, Promotion.Queen, by simp, rfl⟩⟩⟩)).1
      · refine ⟨⟨f, ⟨f.row + pawnDir me.color_, f.col + dc⟩, Promotion.None, true, false,
          false⟩, ?_, rfl, rfl, rfl⟩
        exact ((key _).mpr ((mp _).mpr ⟨hb, Or.inl ⟨t, ht, hc, Or.inr ⟨hrow, rfl⟩⟩⟩)).1
    · rintro ⟨m, hm, hto, hep⟩
      exact ((pawnCaptures_shape _ _ _ _ _ _ _ m ((key m).mp ⟨hm, hto⟩)).2.2.2.2.2 hep).1.trans
        hto
    · intro he
      refine ⟨⟨f, ⟨f.row + pawnDir me.color_, f.col + dc⟩, Promotion.None, true, true,
          false⟩, ?_, rfl, rfl⟩
      exact ((key _).mpr ((mp _).mpr ⟨hb, Or.inr ⟨he, rfl⟩⟩)).1
    · intro m hm hto
      have hmem := (key m).mp ⟨hm, hto⟩
      have hs := pawnCaptures_shape _ _ _ _ _ _ _ m hmem
      refine ⟨hs.1, hs.2.2.2.1, hs.2.2.2.2.1, ?_⟩
      intro hep
      obtain ⟨_, h | h⟩ := (mp m).mp hmem
      · obtain ⟨t, _, _, h | h⟩ := h
        · obtain ⟨_, X, _, rfl⟩ := h
          exact absurd hep (by simp)
        · obtain ⟨_, rfl⟩ := h
          exact absurd hep (by simp)
      · exact h.2
  · intro m hm hcol
    rw [add_pawnMoves_eq b f me hP hty] at hm
    simp only [List.mem_append] at hm
    unfold diagonalSquare
    rcases hm with h | h | h
    · exact absurd (specPawnForward_shape b f _ m h).2.1 hcol
    · have hs := pawnCaptures_shape _ _ _ _ _ _ _ m h
      exact ⟨-1, Or.inl rfl, hs.2.1, hs.2.1 ▸ hs.2.2.1⟩
    · have hs := pawnCaptures_shape _ _ _ _ _ _ _ m h
      exact ⟨1, Or.inr rfl, hs.2.1, hs.2.1 ▸ hs.2.2.1⟩

theorem pawn_diagonal_moves_witness :
    (∃ m ∈ add_pawnMoves epBoard ⟨3, 4⟩, m.to_ = diagonalSquare ⟨3, 4⟩ PieceColor.White 1 ∧
        m.isEnpassant = true) ↔
      epBoard.en_passant_target_ = diagonalSquare ⟨3, 4⟩ PieceColor.White 1 :=
  ((pawn_diagonal_moves epBoard ⟨3, 4⟩ ⟨PieceType.Pawn, PieceColor.White⟩
    (by decide) rfl).2.1 1 (Or.inr rfl) (by decide)).2.1

/-- C20. The knight offsets are the 8 L-shaped ones and the king offsets the 8
adjacent ones. For a knight on `f` the generator returns `add_knightMoves`; for
a king on `f` it returns whenever the attack query answers. In the knight's
moves, and in the non-castling moves returned for a king, the moves onto the
square at each offset `d` are: exactly one move, without promotion or flag and
with isCapture true exactly when the square is occupied, if the square is in
bounds and is empty or holds a piece of another colour; none otherwise. Every
such move goes to a square at one of the offsets, in bounds and not holding a
piece of the mover's colour. -/
theorem step_piece_moves (b : Board) (f : Position) (me : Piece)
    (hP : b.getPiece f = some me) :
    (∀ d : Int × Int, d ∈ knightOffsets ↔
      (d.1.natAbs = 1 ∧ d.2.natAbs = 2) ∨ (d.1.natAbs = 2 ∧ d.2.natAbs = 1)) ∧
    (∀ d : Int × Int, d ∈ kingOffsets ↔ d.1.natAbs ≤ 1 ∧ d.2.natAbs ≤ 1 ∧ d ≠ (0, 0)) ∧
    (me.type_ = PieceType.Knight →
      (∀ att, generateFrom att b f = some (add_knightMoves b f)) ∧
      (∀ d ∈ knightOffsets,
        (add_knightMoves b f).filter
            (fun m => decide (m.to_ = ⟨f.row + d.1, f.col + d.2⟩)) =
          if inBounds ⟨f.row + d.1, f.col + d.2⟩ = true ∧
              ∀ t, b.getPiece ⟨f.row + d.1, f.col + d.2⟩ = some t → t.color_ ≠ me.color_ then
            [⟨f, ⟨f.row + d.1, f.col + d.2⟩, Promotion.None,
              (b.getPiece ⟨f.row + d.1, f.col + d.2⟩).isSome, false, false⟩]
          else []) ∧
      (∀ m ∈ add_knightMoves b f,
        (∃ d ∈ knightOffsets, m.to_ = ⟨f.row + d.1, f.col + d.2⟩) ∧ m.from_ = f ∧
        inBounds m.to_ = true ∧ (∀ t, b.getPiece m.to_ = some t → t.color_ ≠ me.color_) ∧
        m.isCapture = (b.getPiece m.to_).isSome ∧ m.promotion = Promotion.None ∧
        m.isEnpassant = false ∧ m.isCastling = false)) ∧
    (me.type_ = PieceType.King →
      (∀ att, (∀ sq, (att b sq (opponentOf me.color_)).isSome = true) →
        (generateFrom att b f).isSome = true) ∧
      (∀ att ms, generateFrom att b f = some ms →
        (∀ d ∈ kingOffsets,
          (ms.filter (fun m => !m.isCastling)).filter
              (fun m => decide (m.to_ = ⟨f.row + d.1, f.col + d.2⟩)) =
            if inBounds ⟨f.row + d.1, f.col + d.2⟩ = true ∧
                ∀ t, b.getPiece ⟨f.row + d.1, f.col + d.2⟩ = some t →
                  t.color_ ≠ me.color_ then
              [⟨f, ⟨f.row + d.1, f.col + d.2⟩, Promotion.None,
                (b.getPiece ⟨f.row + d.1, f.col + d.2⟩).isSome, false, false⟩]
            else []) ∧
        (∀ m ∈ ms, m.isCastling = false →
          (∃ d ∈ kingOffsets, m.to_ = ⟨f.row + d.1, f.col + d.2⟩) ∧ m.from_ = f ∧
          inBounds m.to_ = true ∧ (∀ t, b.getPiece m.to_ = some t → t.color_ ≠ me.color_) ∧
          m.isCapture = (b.getPiece m.to_).isSome ∧ m.promotion = Promotion.None ∧
          m.isEnpassant = false))) := by
  refine ⟨mem_knightOffsets, mem_kingOffsets, ?_, ?_⟩
  · intro hty
    have hk : add_knightMoves b f =
        knightOffsets.flatMap fun e => stepMove b f me ⟨f.row + e.1, f.col + e.2⟩ := by
      unfold add_knightMoves
      rw [hP]
    refine ⟨fun att => generateFrom_knight att b f me hP hty, ?_, ?_⟩
    · intro d hd
      rw [hk, filter_flatMap_stepMove b f me d knightOffsets (by decide), if_pos hd,
        stepMove_eq]
    · intro m hm
      rw [hk] at hm
      exact mem_flatMap_stepMove b f me knightOffsets m hm
  · intro hty
    refine ⟨?_, ?_⟩
    · intro att hatt
      rw [generateFrom_king att b f me hP hty]
      exact add_kingMoves_isSome att b f me hP hatt
    · intro att ms hms
      rw [generateFrom_king att b f me hP hty] at hms
      have hadj := add_kingMoves_adjacent att b f me ms hP hms
      refine ⟨?_, ?_⟩
      · intro d hd
        rw [hadj, filter_flatMap_stepMove b f me d kingOffsets (by decide), if_pos hd,
          stepMove_eq]
      · intro m hm hc
        have hmem : m ∈ ms.filter (fun m => !m.isCastling) :=
          List.mem_filter.mpr ⟨hm, by simp [hc]⟩
        rw [hadj] at hmem
        have := mem_flatMap_stepMove b f me kingOffsets m hmem
        exact ⟨this.1, this.2.1, this.2.2.1, this.2.2.2.1, this.2.2.2.2.1, this.2.2.2.2.2.1,
          this.2.2.2.2.2.2.1⟩

theorem step_piece_moves_witness :
    (add_knightMoves startBoard ⟨7, 1⟩).filter
        (fun m => decide (m.to_ = ⟨7 + -2, 1 + 1⟩)) =
      [⟨⟨7, 1⟩, ⟨7 + -2, 1 + 1⟩, Promotion.None,
        (startBoard.getPiece ⟨7 + -2, 1 + 1⟩).isSome, false, false⟩] :=
  (((step_piece_moves startBoard ⟨7, 1⟩ ⟨PieceType.Knight, PieceColor.White⟩
    (by decide)).2.2.1 rfl).2.1 (-2, 1) (by decide)).trans (if_pos (by decide))

/-- C21. For a piece `me` on `f`: the generator returns `add_rookMoves` for a
rook, `add_bishopMoves` for a bishop and `add_queenMoves`, the rook moves
followed by the bishop moves, for a queen. A move is among the rook (bishop,
queen) moves iff it is the sliding move to a square `k` steps away along an
orthogonal (diagonal, orthogonal or diagonal) direction such that the square
is on the board, every square strictly between is empty and the square is
empty or holds a piece of another colour; the move has no promotion and no
flag except isCapture, which is true exactly when the destination is occupied
(then by a piece of another colour); and no destination occurs twice. -/
theorem sliding_piece_moves (b : Board) (f : Position) (me : Piece)
    (hP : b.getPiece f = some me) :
    (∀ att,
      (me.type_ = PieceType.Rook → generateFrom att b f = some (add_rookMoves b f)) ∧
      (me.type_ = PieceType.Bishop → generateFrom att b f = some (add_bishopMoves b f)) ∧
      (me.type_ = PieceType.Queen → generateFrom att b f = some (add_queenMoves b f))) ∧
    add_queenMoves b f = add_rookMoves b f ++ add_bishopMoves b f ∧
    ((∀ m, m ∈ add_rookMoves b f ↔
        ∃ d ∈ rookDirs, ∃ k, SlideOK b f me d k ∧ m = slideMove b f d k) ∧
      ((add_rookMoves b f).map fun m => m.to_).Nodup) ∧
    ((∀ m, m ∈ add_bishopMoves b f ↔
        ∃ d ∈ bishopDirs, ∃ k, SlideOK b f me d k ∧ m = slideMove b f d k) ∧
      ((add_bishopMoves b f).map fun m => m.to_).Nodup) ∧
    ((∀ m, m ∈ add_queenMoves b f ↔
        ∃ d ∈ rookDirs ++ bishopDirs, ∃ k, SlideOK b f me d k ∧ m = slideMove b f d k) ∧
      ((add_queenMoves b f).map fun m => m.to_).Nodup) := by
  have hf := inBounds_of_getPiece b f me hP
  refine ⟨fun att => generateFrom_slider att b f me hP, rfl, ?_, ?_, ?_⟩
  · rw [add_rookMoves_eq_flatMap b f me hP]
    exact flatMap_slideRay b f me rookDirs hf (fun d hd => List.mem_append_left _ hd)
      (by decide)
  · rw [add_bishopMoves_eq_flatMap b f me hP]
    exact flatMap_slideRay b f me bishopDirs hf (fun d hd => List.mem_append_right _ hd)
      (by decide)
  · rw [add_queenMoves_eq_flatMap b f me hP]
    exact flatMap_slideRay b f me (rookDirs ++ bishopDirs) hf (fun d hd => hd) (by decide)

theorem sliding_piece_moves_witness :
    (∀ m, m ∈ add_rookMoves pinBoard ⟨7, 4⟩ ↔
      ∃ d ∈ rookDirs, ∃ k, SlideOK pinBoard ⟨7, 4⟩ ⟨PieceType.Rook, PieceColor.White⟩ d k ∧
        m = slideMove pinBoard ⟨7, 4⟩ d k) ∧
    ((add_rookMoves pinBoard ⟨7, 4⟩).map fun m => m.to_).Nodup :=
  (sliding_piece_moves pinBoard ⟨7, 4⟩ ⟨PieceType.Rook, PieceColor.White⟩ (by decide)).2.2.1

/-- C22. When the board holds no king of `color` (White or Black),
`isKingInCheck` returns false, for every amount of fuel from 1 on (and
whenever it returns, for any colour). When it holds one, and `k` is the
square of the first one in row-major order, `isKingInCheck` is
`isSquareAttacked` of `k` by the opposite colour (neither returns, or both
return the same value), which is true iff some pseudo-legal move of the
opposing side has `k` as destination. -/
theorem king_in_check_is_attack_on_king (fuel : Nat) (b : Board) (color : PieceColor) :
    ((∀ p piece, b.getPiece p = some piece →
        ¬ (piece.type_ = PieceType.King ∧ piece.color_ = color)) →
      (color = PieceColor.White ∨ color = PieceColor.Black →
        b.isKingInCheck (fuel + 1) color = some false) ∧
      (∀ r, b.isKingInCheck fuel color = some r → r = false)) ∧
    (∀ k, firstKing b color = some k →
      (∃ piece, b.getPiece k = some piece ∧ piece.type_ = PieceType.King ∧
        piece.color_ = color) ∧
      b.isKingInCheck fuel color = isSquareAttacked (fuel + 1) b k (opponentOf color) ∧
      isSquareAttacked (fuel + 1) b k (opponentOf color) =
        (generateAllSide (isSquareAttacked fuel) b (opponentOf color)).map
          (fun theirMoves => theirMoves.any fun m => decide (m.to_ = k)) ∧
      (∀ r, b.isKingInCheck fuel color = some r →
        (r = true ↔ ∃ theirMoves,
          generateAllSide (isSquareAttacked fuel) b (opponentOf color) = some theirMoves ∧
          ∃ m ∈ theirMoves, m.to_ = k))) := by
  constructor
  · intro hno
    have hfk := (firstKing_eq_none b color).mpr hno
    constructor
    · intro hcol
      have hopp : opponentOf (opponentOf color) = color := by
        rcases hcol with rfl | rfl <;> rfl
      have hatt : ∀ sq, (isSquareAttacked (fuel + 1) b sq
          (opponentOf (opponentOf color))).isSome = true := by
        intro sq
        rw [hopp]
        simp only [isSquareAttacked]
        obtain ⟨ms, hms⟩ := Option.isSome_iff_exists.mp
          (generateAllSide_isSome_of_no_king (isSquareAttacked fuel) b color hno)
        rw [hms]
        rfl
      obtain ⟨ms, hms⟩ := Option.isSome_iff_exists.mp
        (generateAllSide_isSome_of_att (isSquareAttacked (fuel + 1)) b (opponentOf color) hatt)
      rw [isKingInCheck_eq, hms, hfk]
    · intro r hr
      rw [isKingInCheck_eq, hfk] at hr
      cases hg : generateAllSide (isSquareAttacked fuel) b (opponentOf color) with
      | none => rw [hg] at hr; exact absurd hr (by simp)
      | some ms =>
        rw [hg] at hr
        simp only [Option.some.injEq] at hr
        exact hr.symm
  · intro k hk
    have hking : ∃ piece, b.getPiece k = some piece ∧ piece.type_ = PieceType.King ∧
        piece.color_ = color := by
      unfold firstKing at hk
      have := List.find?_some hk
      unfold isKingOf at this
      cases hp : b.getPiece k with
      | none => rw [hp] at this; exact absurd this (by simp)
      | some piece =>
        rw [hp] at this
        simp only [decide_eq_true_eq] at this
        exact ⟨piece, rfl, this.2, this.1⟩
    have heq : b.isKingInCheck fuel color =
        isSquareAttacked (fuel + 1) b k (opponentOf color) := by
      rw [isKingInCheck_eq, hk]
      cases hg : generateAllSide (isSquareAttacked fuel) b (opponentOf color) with
      | none => simp only [isSquareAttacked, hg]
      | some ms => rfl
    have hatt : isSquareAttacked (fuel + 1) b k (opponentOf color) =
        (generateAllSide (isSquareAttacked fuel) b (opponentOf color)).map
          (fun theirMoves => theirMoves.any fun m => decide (m.to_ = k)) := by
      simp only [isSquareAttacked]
      cases generateAllSide (isSquareAttacked fuel) b (opponentOf color) <;> rfl
    refine ⟨hking, heq, hatt, ?_⟩
    intro r hr
    rw [heq, hatt] at hr
    cases hg : generateAllSide (isSquareAttacked fuel) b (opponentOf color) with
    | none => rw [hg] at hr; exact absurd hr (by simp)
    | some ms =>
      rw [hg] at hr
      simp only [Option.map_some', Option.some.injEq] at hr
      subst hr
      simp only [List.any_eq_true, decide_eq_true_eq, Option.some.injEq, exists_eq_left']

theorem king_in_check_is_attack_on_king_witness :
    noWhiteKing.isKingInCheck (0 + 1) PieceColor.White = some false ∧
    pinBoard.isKingInCheck 0 PieceColor.Black =
      isSquareAttacked (0 + 1) pinBoard ⟨0, 4⟩ (opponentOf PieceColor.Black) :=
  ⟨((king_in_check_is_attack_on_king 0 noWhiteKing PieceColor.White).1
      ((firstKing_eq_none noWhiteKing PieceColor.White).mp (by decide))).1 (Or.inl rfl),
    ((king_in_check_is_attack_on_king 0 pinBoard PieceColor.Black).2 ⟨0, 4⟩ (by decide)).2.1⟩

/-- C24. The material test `is_insufficient_material` is true exactly when
both sides have no pieces besides kings, or one side has exactly one non-king
piece, a bishop or a knight, and the other side has no non-king piece. In
particular it is false as soon as a white or black pawn, rook or queen is on
the board, or a side has two non-king pieces. -/
theorem insufficient_material_exactly (b : ArrayBoard) :
    (b.is_insufficient_material = true ↔
      (OnlyKings b PieceColor.White ∧ OnlyKings b PieceColor.Black) ∨
      (LoneMinor b PieceColor.White ∧ OnlyKings b PieceColor.Black) ∨
      (LoneMinor b PieceColor.Black ∧ OnlyKings b PieceColor.White)) ∧
    (∀ (p : Position) piece, b.cell p.row p.col = some piece →
      piece.color_ = PieceColor.White ∨ piece.color_ = PieceColor.Black →
      piece.type_ = PieceType.Pawn ∨ piece.type_ = PieceType.Rook ∨
        piece.type_ = PieceType.Queen →
      b.is_insufficient_material = false) ∧
    (∀ color p q, color = PieceColor.White ∨ color = PieceColor.Black → p ≠ q →
      nonKingAt b color p → nonKingAt b color q → b.is_insufficient_material = false) := by
  refine ⟨is_insufficient_material_iff b, ?_, ?_⟩
  · intro p piece hpiece hcol hty
    have hnk : nonKingAt b piece.color_ p :=
      ⟨piece, hpiece, by rcases hty with h | h | h <;> rw [h] <;> decide, rfl⟩
    apply not_insufficient_of_piece b piece.color_ p hcol hnk
    intro p0 piece0 h0 _ hty0 huniq
    have hpp : p = p0 := by
      by_contra hne
      exact huniq p hne hnk
    subst hpp
    rw [hpiece] at h0
    simp only [Option.some.injEq] at h0
    subst h0
    rcases hty with h | h | h <;> rcases hty0 with h0 | h0 <;> rw [h] at h0 <;>
      exact absurd h0 (by decide)
  · intro color p q hcol hne hp hq
    apply not_insufficient_of_piece b color p hcol hp
    intro p0 piece0 _ _ _ huniq
    by_cases hpp : p = p0
    · subst hpp
      exact huniq q (Ne.symm hne) hq
    · exact huniq p hpp hp

theorem insufficient_material_exactly_witness :
    kbkBoard.is_insufficient_material = true ∧ foolsMate.is_insufficient_material = false :=
  ⟨(insufficient_material_exactly kbkBoard).1.mpr
      (Or.inr (Or.inl ⟨(loneMinor_iff kbkBoard PieceColor.White).mpr
        (Or.inl ⟨by decide, by decide⟩),
        (count_nonKing_eq_zero kbkBoard PieceColor.Black).mp (by decide)⟩)),
    (insufficient_material_exactly foolsMate).2.1 ⟨6, 0⟩ ⟨PieceType.Pawn, PieceColor.White⟩
      (by decide) (Or.inl rfl) (Or.inl rfl)⟩

/-- C28. `getPiece` is a total function: for a position with row or column
outside 0..7 it returns no piece, and for the position of row `r` and column
`c`, both in 0..7, it returns exactly the content of the cell
`board_[r][c]`. -/
theorem getPiece_total (b : Board) :
    (∀ p : Position, ¬ (0 ≤ p.row ∧ p.row < 8 ∧ 0 ≤ p.col ∧ p.col < 8) →
      b.getPiece p = none) ∧
    (∀ r c : Fin 8, b.getPiece ⟨(r.val : Int), (c.val : Int)⟩ = b.board_ r c) := by
  constructor
  · intro p hp
    have : inBounds p = false := by
      cases h : inBounds p with
      | false => rfl
      | true => exact absurd ((inBounds_iff p).mp h) hp
    simp [Board.getPiece, this]
  · intro r c
    have : inBounds ⟨(r.val : Int), (c.val : Int)⟩ = true := by
      rw [inBounds_iff]
      simp only
      omega
    simp only [Board.getPiece, this, if_true, idx_val]

theorem getPiece_total_witness :
    startBoard.getPiece ⟨8, 0⟩ = none ∧ startBoard.getPiece ⟨3, -1⟩ = none ∧
    startBoard.getPiece ⟨((7 : Fin 8).val : Int), ((4 : Fin 8).val : Int)⟩ =
      startBoard.board_ 7 4 :=
  ⟨(getPiece_total startBoard).1 ⟨8, 0⟩ (by decide),
    (getPiece_total startBoard).1 ⟨3, -1⟩ (by decide),
    (getPiece_total startBoard).2 7 4⟩

/-- C29. When the placement field of the input (its first white-space
delimited token, empty if there is none) does not split into exactly 8 ranks
on `/`, `parseFEN` returns a board with all 64 cells empty and with the side
to move, the en-passant target and the castling rights it had before; the
constructor then yields empty cells, the side to move `startTurn` and the
en-passant target (-1, -1). Both are total functions. -/
theorem parseFEN_malformed_placement (fen : List Char)
    (h : (splitRanks [] ((readToken fen).1.getD [])).length ≠ 8) :
    (∀ b : Board,
      (∀ p, (b.parseFEN fen).getPiece p = none) ∧
      (∀ r c, (b.parseFEN fen).board_ r c = none) ∧
      (b.parseFEN fen).turn_ = b.turn_ ∧
      (b.parseFEN fen).en_passant_target_ = b.en_passant_target_ ∧
      (b.parseFEN fen).castling_rights_ = b.castling_rights_) ∧
    (∀ startTurn,
      (∀ p, (Board.new startTurn fen).getPiece p = none) ∧
      (∀ r c, (Board.new startTurn fen).board_ r c = none) ∧
      (Board.new startTurn fen).turn_ = startTurn ∧
      (Board.new startTurn fen).en_passant_target_ = ⟨-1, -1⟩) := by
  constructor
  · intro b
    rw [parseFEN_of_bad_ranks b fen h]
    refine ⟨fun p => ?_, fun _ _ => rfl, rfl, rfl, rfl⟩
    simp [Board.getPiece]
  · intro startTurn
    unfold Board.new
    dsimp only
    split_ifs
    · rw [parseFEN_of_bad_ranks _ fen h]
      refine ⟨fun p => ?_, fun _ _ => rfl, rfl, rfl⟩
      simp [Board.getPiece]
    · refine ⟨fun p => ?_, fun _ _ => rfl, rfl, rfl⟩
      simp [Board.getPiece]

theorem parseFEN_malformed_placement_witness :
    (∀ p, (Board.new PieceColor.Black "rnbqkbnr/pppppppp/8/8/8/8/PPPPPPPP b - e3".toList).getPiece
        p = none) ∧
    (∀ r c, (Board.new PieceColor.Black
        "rnbqkbnr/pppppppp/8/8/8/8/PPPPPPPP b - e3".toList).board_ r c = none) ∧
    (Board.new PieceColor.Black "rnbqkbnr/pppppppp/8/8/8/8/PPPPPPPP b - e3".toList).turn_ =
      PieceColor.Black ∧
    (Board.new PieceColor.Black
      "rnbqkbnr/pppppppp/8/8/8/8/PPPPPPPP b - e3".toList).en_passant_target_ = ⟨-1, -1⟩ :=
  (parseFEN_malformed_placement "rnbqkbnr/pppppppp/8/8/8/8/PPPPPPPP b - e3".toList
    (by decide)).2 PieceColor.Black

/-- C30. The default-constructed board, `Board(PieceColor::White, defaultFEN)`,
is the standard starting position: row 0 holds black R N B Q K B N R in
columns 0..7, row 1 eight black pawns, rows 2-5 are empty, row 6 holds eight
white pawns, row 7 white R N B Q K B N R; White is to move, the en-passant
target is (-1, -1) and the four castling rights are true. -/
theorem default_board_is_start_position :
    ((List.range 8).map fun c =>
        (Board.new PieceColor.White Board.defaultFEN).getPiece ⟨0, (c : Int)⟩) =
      [PieceType.Rook, PieceType.Knight, PieceType.Bishop, PieceType.Queen, PieceType.King,
        PieceType.Bishop, PieceType.Knight, PieceType.Rook].map
        (fun t => some ⟨t, PieceColor.Black⟩) ∧
    (∀ c : Fin 8, (Board.new PieceColor.White Board.defaultFEN).getPiece ⟨1, (c.val : Int)⟩ =
      some ⟨PieceType.Pawn, PieceColor.Black⟩) ∧
    (∀ r c : Fin 8, 2 ≤ r.val → r.val ≤ 5 →
      (Board.new PieceColor.White Board.defaultFEN).getPiece ⟨(r.val : Int), (c.val : Int)⟩ =
        none) ∧
    (∀ c : Fin 8, (Board.new PieceColor.White Board.defaultFEN).getPiece ⟨6, (c.val : Int)⟩ =
      some ⟨PieceType.Pawn, PieceColor.White⟩) ∧
    ((List.range 8).map fun c =>
        (Board.new PieceColor.White Board.defaultFEN).getPiece ⟨7, (c : Int)⟩) =
      [PieceType.Rook, PieceType.Knight, PieceType.Bishop, PieceType.Queen, PieceType.King,
        PieceType.Bishop, PieceType.Knight, PieceType.Rook].map
        (fun t => some ⟨t, PieceColor.White⟩) ∧
    (Board.new PieceColor.White Board.defaultFEN).turn_ = PieceColor.White ∧
    (Board.new PieceColor.White Board.defaultFEN).en_passant_target_ = ⟨-1, -1⟩ ∧
    (∀ i, (Board.new PieceColor.White Board.defaultFEN).castling_rights_ i = true) ∧
    (∀ r c : Fin 8, (Board.new PieceColor.White Board.defaultFEN).board_ r c =
      startBoard.board_ r c) := by
  refine ⟨by decide, by decide, by decide, by decide, by decide, by decide, by decide,
    by decide, by decide⟩

/-- C31. For a placement field made of exactly 8 ranks separated by `/`, each
made of digits 1-8 and letters from pnbrqkPNBRQK and describing exactly 8
squares, `parseFEN` and the constructor leave in cell `(r, c)` what the square
number `c` of the rank number `r` describes: nothing when a digit covers it,
and the piece the letter names otherwise (p, n, b, r, q, k for pawn, knight,
bishop, rook, queen, king; uppercase White, lowercase Black). -/
theorem placement_parsing (fen : List Char) (ranks : List (List Char))
    (h0 : fenField 0 fen = some (joinRanks ranks)) (h8 : ranks.length = 8)
    (hok : ∀ rank ∈ ranks, RankOK rank) :
    (∀ (b : Board) (r c : Fin 8),
      (expandRank (ranks.getD r.val []))[c.val]? = some ((b.parseFEN fen).board_ r c) ∧
      (b.parseFEN fen).getPiece ⟨(r.val : Int), (c.val : Int)⟩ = (b.parseFEN fen).board_ r c) ∧
    (∀ (startTurn : PieceColor) (r c : Fin 8),
      (expandRank (ranks.getD r.val []))[c.val]? =
        some ((Board.new startTurn fen).board_ r c)) := by
  constructor
  · intro b r c
    refine ⟨parseFEN_cell b fen ranks h0 h8 hok r c, ?_⟩
    have hin : inBounds ⟨(r.val : Int), (c.val : Int)⟩ = true := by
      rw [inBounds_iff]; dsimp only; omega
    simp only [Board.getPiece, hin, if_true, idx_val]
  · intro startTurn r c
    have hne : fen ≠ [] := by
      rintro rfl
      simp [fenField, readToken] at h0
    unfold Board.new
    dsimp only
    rw [if_pos hne]
    exact parseFEN_cell _ fen ranks h0 h8 hok r c

theorem placement_parsing_witness :
    (expandRank ((["4k3", "8", "8", "3p4", "8", "8", "PPP5", "R3K2R"].map String.toList).getD
        ((7 : Fin 8).val) []))[(4 : Fin 8).val]? =
      some ((startBoard.parseFEN "4k3/8/8/3p4/8/8/PPP5/R3K2R w KQ - 0 1".toList).board_ 7 4) :=
  ((placement_parsing "4k3/8/8/3p4/8/8/PPP5/R3K2R w KQ - 0 1".toList
    (["4k3", "8", "8", "3p4", "8", "8", "PPP5", "R3K2R"].map String.toList)
    (by decide) (by decide) (by unfold RankOK; decide)).1 startBoard 7 4).1

/-- C32 (failing input). The board loaded from "4k3/8/8/8/8/8/8/4K3 w - - 0 1",
whose castling-availability field is "-", has its four castling rights true;
so has every board the constructor builds, since `parseFEN` returns the rights
it was given whatever the input. -/
theorem parseFEN_ignores_castling_field :
    fenField 2 "4k3/8/8/8/8/8/8/4K3 w - - 0 1".toList = some "-".toList ∧
    (∀ i, (Board.new PieceColor.White "4k3/8/8/8/8/8/8/4K3 w - - 0 1".toList).castling_rights_
      i = true) ∧
    (∀ (b : Board) (fen : List Char), (b.parseFEN fen).castling_rights_ = b.castling_rights_) ∧
    (∀ (startTurn : PieceColor) (fen : List Char) (i : Fin 4),
      (Board.new startTurn fen).castling_rights_ i = true) := by
  have hp : ∀ (b : Board) (fen : List Char),
      (b.parseFEN fen).castling_rights_ = b.castling_rights_ := by
    intro b fen
    unfold Board.parseFEN
    cases hr : readToken fen with
    | mk tok rest =>
      cases tok with
      | none => rfl
      | some placement =>
        dsimp only
        split_ifs <;> rfl
  refine ⟨by decide, by decide, hp, ?_⟩
  intro startTurn fen i
  unfold Board.new
  dsimp only
  split_ifs
  · rw [hp]
  · rfl

/-- C33. For an input whose placement field gives 8 ranks, after `parseFEN`
(and so after the constructor, whatever `startTurn`) the side to move is Black
if the side field begins with `b` and White otherwise, and the en-passant
target is (8 - d, f - 'a') when the en-passant field starts with a file letter
`f` in a..h followed by a rank digit `d` in 1..8, and (-1, -1) when the field
is missing, is "-", has fewer than two characters, or starts with two
characters that are not such a file and rank. -/
theorem side_and_enpassant_parsing (b : Board) (fen placement : List Char)
    (h0 : fenField 0 fen = some placement) (h8 : (splitRanks [] placement).length = 8) :
    ((∃ rest, fenField 1 fen = some ('b' :: rest)) → (b.parseFEN fen).turn_ = PieceColor.Black) ∧
    ((¬ ∃ rest, fenField 1 fen = some ('b' :: rest)) →
      (b.parseFEN fen).turn_ = PieceColor.White) ∧
    (∀ startTurn, (Board.new startTurn fen).turn_ = (b.parseFEN fen).turn_ ∧
      (Board.new startTurn fen).en_passant_target_ = (b.parseFEN fen).en_passant_target_) ∧
    (∀ f d rest, fenField 3 fen = some (f :: d :: rest) →
      97 ≤ f.toNat → f.toNat ≤ 104 → 49 ≤ d.toNat → d.toNat ≤ 56 →
      (b.parseFEN fen).en_passant_target_ = ⟨8 - ((d.toNat : Int) - 48), (f.toNat : Int) - 97⟩) ∧
    (fenField 3 fen = none → (b.parseFEN fen).en_passant_target_ = ⟨-1, -1⟩) ∧
    (fenField 3 fen = some ['-'] → (b.parseFEN fen).en_passant_target_ = ⟨-1, -1⟩) ∧
    (∀ field, fenField 3 fen = some field → field.length < 2 →
      (b.parseFEN fen).en_passant_target_ = ⟨-1, -1⟩) ∧
    (∀ f d rest, fenField 3 fen = some (f :: d :: rest) →
      ¬ (97 ≤ f.toNat ∧ f.toNat ≤ 104 ∧ 49 ≤ d.toNat ∧ d.toNat ≤ 56) →
      (b.parseFEN fen).en_passant_target_ = ⟨-1, -1⟩) := by
  have hfen : fen ≠ [] := by
    intro h
    subst h
    simp [fenField, readToken] at h0
  rw [parseFEN_of_ranks b fen placement h0 h8]
  refine ⟨?_, ?_, ?_, ?_, ?_, ?_, ?_, ?_⟩
  · rintro ⟨rest, hr⟩
    simp [hr]
  · intro hno
    have : ((fenField 1 fen).getD []).head? ≠ some 'b' := by
      intro h
      apply hno
      cases hf : fenField 1 fen with
      | none => rw [hf] at h; simp at h
      | some side =>
        rw [hf] at h
        cases side with
        | nil => simp at h
        | cons c cs =>
          simp only [Option.getD_some, List.head?_cons, Option.some.injEq] at h
          exact ⟨cs, by rw [h]⟩
    simp [this]
  · intro startTurn
    unfold Board.new
    dsimp only
    rw [if_pos hfen, parseFEN_of_ranks _ fen placement h0 h8]
    exact ⟨rfl, rfl⟩
  · intro f d rest hf h1 h2 h3 h4
    simp only [hf, Option.getD_some, parseEnPassant]
    have hne : ¬ (f :: d :: rest = ['-']) := by simp
    rw [if_neg hne, if_pos (by omega)]
  · intro hf
    show parseEnPassant ((fenField 3 fen).getD ['-']) = _
    rw [hf]
    decide
  · intro hf
    show parseEnPassant ((fenField 3 fen).getD ['-']) = _
    rw [hf]
    decide
  · intro field hf hlen
    show parseEnPassant ((fenField 3 fen).getD ['-']) = _
    rw [hf]
    cases field with
    | nil => decide
    | cons c cs =>
      cases cs with
      | nil => simp only [Option.getD_some]; unfold parseEnPassant; split_ifs <;> rfl
      | cons d ds => simp only [List.length_cons] at hlen; omega
  · intro f d rest hf hbad
    simp only [hf, Option.getD_some, parseEnPassant]
    split_ifs with h1 h2
    · rfl
    · exfalso; apply hbad; omega
    · rfl

theorem side_and_enpassant_parsing_witness :
    (startBoard.parseFEN "1n5k/P7/8/8/8/8/8/7K b - b8 0 1".toList).turn_ = PieceColor.Black ∧
    (startBoard.parseFEN "1n5k/P7/8/8/8/8/8/7K b - b8 0 1".toList).en_passant_target_ =
      ⟨8 - (('8'.toNat : Int) - 48), ('b'.toNat : Int) - 97⟩ :=
  ⟨(side_and_enpassant_parsing startBoard "1n5k/P7/8/8/8/8/8/7K b - b8 0 1".toList
      "1n5k/P7/8/8/8/8/8/7K".toList (by decide) (by decide)).1 ⟨[], by decide⟩,
    (side_and_enpassant_parsing startBoard "1n5k/P7/8/8/8/8/8/7K b - b8 0 1".toList
      "1n5k/P7/8/8/8/8/8/7K".toList (by decide) (by decide)).2.2.2.1 'b' '8' [] (by decide)
      (by decide) (by decide) (by decide) (by decide)⟩

/-- C35 (amended). A call of `tryMakeMove` succeeds only if the origin square
holds a piece, and then applies a move of `legalMovesFrom` with the candidate's
origin and destination; every move returned by `legalMovesFrom` on a square
starts from that square, which holds a piece; and every move returned by
`legalMoves` starts from a square holding a piece. The colour of that piece is
not compared with the side to move. -/
theorem moves_start_from_occupied_origin (fuel : Nat) (b : Board) :
    (∀ move b', b.tryMakeMove fuel move = some (true, b') →
      (∃ P, b.getPiece move.from_ = some P) ∧
      ∃ legal m, b.legalMovesFrom fuel move.from_ = some legal ∧ m ∈ legal ∧
        m.from_ = move.from_ ∧ m.to_ = move.to_ ∧ b' = b.makeMove m) ∧
    (∀ p legal, b.legalMovesFrom fuel p = some legal →
      ∀ m ∈ legal, m.from_ = p ∧ ∃ P, b.getPiece p = some P) ∧
    (∀ legal, b.legalMoves fuel = some legal →
      ∀ m ∈ legal, ∃ P, b.getPiece m.from_ = some P) := by
  have hfrom : ∀ p legal, b.legalMovesFrom fuel p = some legal →
      ∀ m ∈ legal, m.from_ = p ∧ ∃ P, b.getPiece p = some P := by
    intro p legal h m hm
    obtain ⟨pseudo, hg, _, rfl⟩ := (legalMovesFrom_eq_some fuel b p legal).mp h
    exact generateFrom_origin _ b p pseudo hg m (List.mem_of_mem_filter hm)
  refine ⟨?_, hfrom, ?_⟩
  · intro move b' h
    cases hl : b.legalMovesFrom fuel move.from_ with
    | none => simp [Board.tryMakeMove, hl] at h
    | some legal =>
      rw [tryMakeMove_of_legal fuel b move legal hl] at h
      cases hf : legal.find? (sameSquares move) with
      | none => rw [hf] at h; simp at h
      | some m =>
        rw [hf] at h
        simp only [Option.some.injEq, Prod.mk.injEq, true_and] at h
        have hm : m ∈ legal := List.mem_of_find?_eq_some hf
        have hs := (sameSquares_iff move m).mp (List.find?_some hf)
        exact ⟨(hfrom _ legal hl m hm).2, legal, m, rfl, hm, hs.1, hs.2, h.symm⟩
  · intro legal h m hm
    obtain ⟨pseudo, hg, _, rfl⟩ := (legalMoves_eq_some fuel b legal).mp h
    obtain ⟨p, _, ms, hp, hmem⟩ := mem_collect _ _ _ hg m (List.mem_of_mem_filter hm)
    obtain ⟨hf, hP⟩ := generateFrom_origin _ b p ms hp m hmem
    rw [hf]
    exact hP

theorem moves_start_from_occupied_origin_witness :
    ∃ P, startBoard.getPiece (quiet 6 4 4 4).from_ = some P :=
  ((moves_start_from_occupied_origin 0 startBoard).1 (quiet 6 4 4 4)
    (startBoard.makeMove (quiet 6 4 4 4)) (by
      rw [tryMakeMove_of_legal 0 startBoard (quiet 6 4 4 4)
        [quiet 6 4 5 4, quiet 6 4 4 4] (by decide)]
      rfl)).1

/-- C35 (as stated, refuted). On the starting position White is to move; the
call of `tryMakeMove` for the black pawn e7 to e5 succeeds and moves that
black pawn, and `legalMovesFrom` on e7 and `legalMoves` return that move. -/
theorem tryMakeMove_moves_waiting_side :
    startBoard.turn_ = PieceColor.White ∧
    startBoard.getPiece ⟨1, 4⟩ = some ⟨PieceType.Pawn, PieceColor.Black⟩ ∧
    (startBoard.tryMakeMove 0 (quiet 1 4 3 4)).map Prod.fst = some true ∧
    (startBoard.tryMakeMove 0 (quiet 1 4 3 4)).map (fun r => r.2.getPiece ⟨3, 4⟩) =
      some (some ⟨PieceType.Pawn, PieceColor.Black⟩) ∧
    startBoard.legalMovesFrom 0 ⟨1, 4⟩ = some [quiet 1 4 2 4, quiet 1 4 3 4] ∧
    (startBoard.legalMoves 0).map (fun legal => decide (quiet 1 4 3 4 ∈ legal)) = some true := by
  refine ⟨by decide, by decide, by decide, by decide, by decide, by decide⟩

/-- C36. Every move the generator returns, from one square (`generateFrom`),
from all squares (`generateAll`) or for one side (`generateAllSide`), has its
capture flag set if and only if its destination holds a piece on the board
or its en-passant flag is set, and has its castling flag set only if it moves
a king two columns along that king's home row, from column 4. -/
theorem capture_flag_correct (att : AttackQuery) (b : Board) :
    (∀ f ms, generateFrom att b f = some ms → ∀ m ∈ ms, FlagsCorrect b m) ∧
    (∀ ms, generateAll att b = some ms → ∀ m ∈ ms, FlagsCorrect b m) ∧
    (∀ side ms, generateAllSide att b side = some ms → ∀ m ∈ ms, FlagsCorrect b m) := by
  refine ⟨fun f ms h m hm => generateFrom_flagsCorrect att b f ms h m hm, ?_, ?_⟩
  · intro ms h m hm
    obtain ⟨p, _, l, hl, hml⟩ := mem_collect _ _ _ h m hm
    exact generateFrom_flagsCorrect att b p l hl m hml
  · intro side ms h m hm
    obtain ⟨p, _, l, hl, hml⟩ := mem_collect _ _ _ h m hm
    unfold generateSideAt at hl
    cases hp : b.getPiece p with
    | none =>
      rw [hp] at hl
      exact generateFrom_flagsCorrect att b p l hl m hml
    | some X =>
      rw [hp] at hl
      dsimp only at hl
      by_cases hc : X.color_ ≠ side
      · rw [if_pos hc] at hl
        obtain rfl : [] = l := Option.some.inj hl
        simp at hml
      · rw [if_neg hc] at hl
        exact generateFrom_flagsCorrect att b p l hl m hml

theorem capture_flag_correct_witness :
    FlagsCorrect castleBoard ⟨⟨7, 4⟩, ⟨7, 6⟩, Promotion.None, false, false, true⟩ :=
  (capture_flag_correct (isSquareAttacked 1) castleBoard).1 ⟨7, 4⟩
    ((kingOffsets.flatMap fun d =>
        stepMove castleBoard ⟨7, 4⟩ ⟨PieceType.King, PieceColor.White⟩ ⟨7 + d.1, 4 + d.2⟩) ++
      [⟨⟨7, 4⟩, ⟨7, 6⟩, Promotion.None, false, false, true⟩] ++
      [⟨⟨7, 4⟩, ⟨7, 2⟩, Promotion.None, false, false, true⟩])
    (by decide) _ (by decide)

/-- C37. For a move with isEnpassant and isCastling both false whose origin
holds a piece, `makeMove` leaves every cell other than the origin and the
destination as it was; and `makeMove` with an out-of-bounds origin or
destination, or an empty origin, returns the board unchanged (cells, side to
move, castling rights and en-passant target). -/
theorem ordinary_move_frame (b : Board) (move : Move) :
    (move.isEnpassant = false → move.isCastling = false →
      (∃ P, b.getPiece move.from_ = some P) →
      ∀ p, p ≠ move.from_ → p ≠ move.to_ → (b.makeMove move).getPiece p = b.getPiece p) ∧
    (inBounds move.from_ = false ∨ inBounds move.to_ = false ∨ b.getPiece move.from_ = none →
      b.makeMove move = b) := by
  constructor
  · rintro hep hcs ⟨P, hP⟩ p hpf hpt
    cases ht : inBounds move.to_ with
    | false => rw [makeMove_of_guard b move (Or.inr (Or.inl ht))]
    | true =>
      cases hp : inBounds p with
      | false => rw [getPiece_of_not_inBounds _ p hp, getPiece_of_not_inBounds _ p hp]
      | true =>
        rw [makeMove_getPiece_cases b move P p hP ht hp, mmCastling_of_no_flag _ _ _ hcs,
          mmEnpassant_of_no_flag _ _ hep, if_neg (fun h => hpt h.2), if_neg hpf, if_neg hpt,
          getPiece_eq_cellAt b p hp]
  · intro h
    apply makeMove_of_guard
    rcases h with h | h | h
    · exact Or.inl h
    · exact Or.inr (Or.inl h)
    · cases hf : inBounds move.from_ with
      | false => exact Or.inl rfl
      | true =>
        rw [getPiece_eq_cellAt b _ hf] at h
        exact Or.inr (Or.inr h)

theorem ordinary_move_frame_witness :
    (startBoard.makeMove (quiet 6 4 4 4)).getPiece ⟨7, 4⟩ = startBoard.getPiece ⟨7, 4⟩ ∧
    startBoard.makeMove (quiet 6 4 8 4) = startBoard :=
  ⟨(ordinary_move_frame startBoard (quiet 6 4 4 4)).1 rfl rfl
      ⟨⟨PieceType.Pawn, PieceColor.White⟩, by decide⟩ ⟨7, 4⟩ (by decide) (by decide),
    (ordinary_move_frame startBoard (quiet 6 4 8 4)).2 (Or.inr (Or.inl (by decide)))⟩

/-- C38 (amended). In every state reachable from the standard starting
position by successful `tryMakeMove` calls, whenever a castling right is true
a rook of the right's colour stands on the right's home corner, and the king
of that colour, unless it is no longer on the board, stands on its home square
(column 4 of row 7 for White, of row 0 for Black). -/
theorem castling_rights_invariant (b : Board) (h : Reachable b) (i : Fin 4)
    (hi : b.castling_rights_ i = true) :
    b.getPiece (rightCorner i) = some ⟨PieceType.Rook, rightColor i⟩ ∧
    (∀ p, b.getPiece p = some ⟨PieceType.King, rightColor i⟩ →
      p = ⟨homeRow (rightColor i), 4⟩) ∧
    ((∃ p, b.getPiece p = some ⟨PieceType.King, rightColor i⟩) →
      b.getPiece ⟨homeRow (rightColor i), 4⟩ = some ⟨PieceType.King, rightColor i⟩) := by
  obtain ⟨hrook, hking⟩ := (reachable_invariant b h).2.2 i hi
  refine ⟨hrook, hking, ?_⟩
  rintro ⟨p, hp⟩
  rw [← hking p hp]
  exact hp

theorem castling_rights_invariant_witness :
    (startBoard.makeMove (quiet 6 4 4 4)).getPiece (rightCorner 0) =
      some ⟨PieceType.Rook, rightColor 0⟩ :=
  (castling_rights_invariant (startBoard.makeMove (quiet 6 4 4 4))
    (Reachable.step 0 startBoard _ (quiet 6 4 4 4) Reachable.start (by
      rw [tryMakeMove_of_legal 0 startBoard (quiet 6 4 4 4)
        [quiet 6 4 5 4, quiet 6 4 4 4] (by decide)]
      rfl))
    0 (by decide)).1

/-- C38 (as stated, refuted). After the accepted calls 1.f3 e5 2.g4 Qh4 and
then the black queen taking the white king on e1 (no call compares the mover
with the side to move, and a side without a king is never in check), the
state is reachable, both castling rights of White are still true, the white
home square e1 holds the black queen and no white king is on the board. -/
theorem castling_right_survives_king_capture :
    ∃ b, playMoves 0 startBoard kingHunt = some b ∧ Reachable b ∧
      b.castling_rights_ 0 = true ∧ b.castling_rights_ 1 = true ∧
      b.getPiece ⟨homeRow PieceColor.White, 4⟩ = some ⟨PieceType.Queen, PieceColor.Black⟩ ∧
      ∀ p, b.getPiece p ≠ some ⟨PieceType.King, PieceColor.White⟩ := by
  have hplayed := kingHunt_played
  cases hb : playMoves 0 startBoard kingHunt with
  | none => rw [hb] at hplayed; exact absurd hplayed (by simp)
  | some b =>
    rw [hb] at hplayed
    simp only [Option.map_some', Option.some.injEq, Prod.mk.injEq] at hplayed
    obtain ⟨h0, h1, h2, h3⟩ := hplayed
    refine ⟨b, rfl, reachable_of_playMoves 0 kingHunt startBoard b Reachable.start hb, h0, h1,
      h2, fun p hp => ?_⟩
    have hin := (allSquares_spec.2.2 p).mpr (inBounds_of_getPiece _ _ _ hp)
    have := List.all_eq_true.mp h3 p hin
    simp only [decide_eq_true_eq] at this
    exact this hp

/-- C39 (failing input). On `pawnGuard` the black pawn e2 stands one row
behind f1 in Black's direction of advance and one column to its side, f1 is
empty, yet `isSquareAttacked` of f1 by Black is false, and the generator
offers White the kingside castling that passes over f1; the black pawn h3
stands directly behind the empty square h2 and attacks nothing there, yet
`isSquareAttacked` of h2 by Black is true. The attack test of the array board
answers the other way round on the same cells. -/
theorem isSquareAttacked_pawn_attacks :
    (∀ r c : Fin 8,
      (Board.new PieceColor.White "k7/8/8/8/8/7p/4p3/4K2R w K - 0 1".toList).board_ r c =
        pawnGuard.board_ r c) ∧
    pawnGuard.getPiece ⟨6, 4⟩ = some ⟨PieceType.Pawn, PieceColor.Black⟩ ∧
    pawnGuard.getPiece ⟨7, 5⟩ = none ∧
    isSquareAttacked 1 pawnGuard ⟨7, 5⟩ PieceColor.Black = some false ∧
    (∀ fuel, isSquareAttacked (fuel + 1) pawnGuard ⟨7, 5⟩ PieceColor.Black = some false) ∧
    (generateFrom (isSquareAttacked 1) pawnGuard ⟨7, 4⟩).map
        (fun ms => decide ((⟨⟨7, 4⟩, ⟨7, 6⟩, Promotion.None, false, false, true⟩ : Move) ∈ ms)) =
      some true ∧
    pawnGuard.getPiece ⟨5, 7⟩ = some ⟨PieceType.Pawn, PieceColor.Black⟩ ∧
    pawnGuard.getPiece ⟨6, 7⟩ = none ∧
    isSquareAttacked 1 pawnGuard ⟨6, 7⟩ PieceColor.Black = some true ∧
    (arrayBoardOf PieceColor.White pawnGuard.board_).is_square_attacked 7 5 PieceColor.Black =
      true ∧
    (arrayBoardOf PieceColor.White pawnGuard.board_).is_square_attacked 6 7 PieceColor.Black =
      false := by
  refine ⟨by decide, by decide, by decide, by decide, ?_, by decide, by decide, by decide,
    by decide, by decide, by decide⟩
  intro fuel
  exact isSquareAttacked_mono (Nat.le_add_left 1 fuel) _ _ _ _ (by decide)

end Chess
